import Mathlib

/-!
Verification of the acd2lr core against its specification.

The repository locates, parses and rewrites XMP packets embedded in host
files.  This development shallowly embeds the byte-level packet handling
(`src/acd2lr-core/src/xpacket.rs`, `container.rs`, `file.rs`) and the XML
event model and rewrite engine (`src/acd2lr-core/src/xmp.rs`,
`src/acd2lr-core/src/xmp/rule.rs`) and proves/refutes the specified
properties.

Bytes are modelled as `Nat`, byte strings as `List Nat`.  Rust `usize`
arithmetic that can underflow (checked in debug builds, and in release
builds leading to an out-of-bounds slice index) is modelled by an explicit
`panicked` result constructor.
-/

namespace Acd2lr

/-- ASCII bytes of a string literal. -/
def stringBytes (s : String) : List Nat := s.toList.map Char.toNat

/-- `b"<?xpacket begin="` — the begin marker checked by `get_offsets`. -/
def xpacketBeginMarker : List Nat := stringBytes "<?xpacket begin="

/-- `b"<?xpacket end=\"w\"?>"` — first accepted footer marker. -/
def footerMarker1 : List Nat := stringBytes "<?xpacket end=" ++ [34, 119, 34] ++ stringBytes "?>"

/-- `b"<?xpacket end='w'?>"` — second accepted footer marker (39 = single quote). -/
def footerMarker2 : List Nat := stringBytes "<?xpacket end=" ++ [39, 119, 39] ++ stringBytes "?>"

/-- The `FOOTER_MARKERS` constant of `xpacket.rs`. -/
def footerMarkers : List (List Nat) := [footerMarker1, footerMarker2]

/-- `memchr::memmem::find`: index of the first occurrence of `needle` in the
haystack, scanning left to right. -/
def memmemFind : List Nat → List Nat → Option Nat
  | [], needle => if needle = [] then some 0 else none
  | h :: t, needle =>
    if needle.isPrefixOf (h :: t) then some 0
    else (memmemFind t needle).map (· + 1)

/-- `value.strip_suffix(b"\n").unwrap_or(value)`. -/
def stripNewlineSuffix (v : List Nat) : List Nat :=
  if v.getLast? = some 10 then v.dropLast else v

/-- `XPacketParseError` from `xpacket.rs`. -/
inductive XPacketParseError where
  | missingHeader
  | missingFooter
  | missingHeaderBoundary
  | missingFooterBoundary
deriving DecidableEq, Repr

/-- `get_offsets` from `xpacket.rs`: strip one trailing newline, check the
begin marker, locate a footer marker (`find_map` over the two accepted
spellings), and take the first `>` byte (62) as the header boundary. -/
def get_offsets (value : List Nat) : Except XPacketParseError (Nat × Nat) :=
  let value := stripNewlineSuffix value
  if ¬ xpacketBeginMarker.isPrefixOf value then .error .missingHeader
  else
    match footerMarkers.findSome? (fun needle => memmemFind value needle) with
    | none => .error .missingFooter
    | some body_end =>
      match value.findIdx? (fun x => x = 62) with
      | none => .error .missingHeaderBoundary
      | some i => .ok (i + 1, body_end)

/-- An `XPacket`: header / body / footer spans of the packet bytes. -/
structure XPacket where
  header : List Nat
  body : List Nat
  footer : List Nat
deriving DecidableEq, Repr

/-- Result of `XPacket::try_from` / `XPacketMut::try_from`.  `panicked`
models the Rust panic caused by `body_end - body_start` underflowing
(`split_at(body_end - body_start)`: checked subtraction panics in debug
builds; in release builds the wrapped index is out of bounds and
`split_at` itself panics). -/
inductive SplitResult where
  | success (p : XPacket)
  | failure (e : XPacketParseError)
  | panicked
deriving DecidableEq, Repr

/-- `XPacket::try_from` from `xpacket.rs`: compute offsets, then
`split_at(body_start)` and `split_at(body_end - body_start)` on the
*original* (un-stripped) byte slice. -/
def xpacket_try_from (value : List Nat) : SplitResult :=
  match get_offsets value with
  | .error e => .failure e
  | .ok (body_start, body_end) =>
    if body_end < body_start then .panicked
    else
      .success
        ⟨value.take body_start,
         (value.drop body_start).take (body_end - body_start),
         (value.drop body_start).drop (body_end - body_start)⟩

/-! ### Basic lemmas about the split -/

theorem memmemFind_isPrefixOf {h n : List Nat} {i : Nat} (hf : memmemFind h n = some i) :
    n.isPrefixOf (h.drop i) = true := by
  induction h generalizing i with
  | nil =>
    simp only [memmemFind] at hf
    split at hf
    · cases hf
      simp_all
    · cases hf
  | cons a t ih =>
    simp only [memmemFind] at hf
    split at hf
    · cases hf
      simpa using ‹n.isPrefixOf (a :: t) = true›
    · rcases Option.map_eq_some'.mp hf with ⟨j, hj, rfl⟩
      simpa using ih hj

theorem memmemFind_le_length {h n : List Nat} {i : Nat} (hf : memmemFind h n = some i) :
    i ≤ h.length := by
  induction h generalizing i with
  | nil =>
    simp only [memmemFind] at hf
    split at hf
    · cases hf; simp
    · cases hf
  | cons a t ih =>
    simp only [memmemFind] at hf
    split at hf
    · cases hf; simp
    · rcases Option.map_eq_some'.mp hf with ⟨j, hj, rfl⟩
      have := ih hj
      simp only [List.length_cons]
      omega

/-- The original value relates to its newline-stripped form by an optional
trailing `[10]`. -/
theorem stripNewlineSuffix_cases (v : List Nat) :
    v = stripNewlineSuffix v ∨ v = stripNewlineSuffix v ++ [10] := by
  rcases v.eq_nil_or_concat with rfl | ⟨l, a, rfl⟩
  · left; rfl
  · simp only [List.concat_eq_append]
    unfold stripNewlineSuffix
    split
    · right
      rename_i hlast
      rw [List.getLast?_concat] at hlast
      cases hlast
      rw [List.dropLast_concat]
    · left; rfl

/-- Inversion of `get_offsets` on success. -/
theorem get_offsets_ok {value : List Nat} {bs be : Nat}
    (h : get_offsets value = .ok (bs, be)) :
    xpacketBeginMarker.isPrefixOf (stripNewlineSuffix value) = true ∧
    (memmemFind (stripNewlineSuffix value) footerMarker1 = some be ∨
      memmemFind (stripNewlineSuffix value) footerMarker2 = some be) ∧
    ∃ i, (stripNewlineSuffix value).findIdx? (fun x => x = 62) = some i ∧ bs = i + 1 := by
  unfold get_offsets at h
  simp only at h
  split at h
  · cases h
  · rename_i hpre
    split at h
    · cases h
    · rename_i found hfound
      split at h
      · cases h
      · rename_i i hi
        cases h
        refine ⟨by simpa using hpre, ?_, i, hi, rfl⟩
        simp only [footerMarkers, List.findSome?] at hfound
        rcases h1 : memmemFind (stripNewlineSuffix value) footerMarker1 with _ | j
        · rw [h1] at hfound
          simp only [List.findSome?] at hfound
          rcases h2 : memmemFind (stripNewlineSuffix value) footerMarker2 with _ | j2
          · rw [h2] at hfound; simp [List.findSome?] at hfound
          · rw [h2] at hfound
            simp only [List.findSome?, Option.some.injEq] at hfound
            right
            exact congrArg some hfound
        · rw [h1] at hfound
          simp only [List.findSome?, Option.some.injEq] at hfound
          left
          exact congrArg some hfound

/-- Inversion of `xpacket_try_from` on success: the offsets were computed,
no underflow happened, and the spans are the corresponding slices. -/
theorem xpacket_try_from_success {value : List Nat} {p : XPacket}
    (h : xpacket_try_from value = .success p) :
    ∃ bs be, get_offsets value = .ok (bs, be) ∧ bs ≤ be ∧
      p.header = value.take bs ∧
      p.body = (value.drop bs).take (be - bs) ∧
      p.footer = value.drop be := by
  unfold xpacket_try_from at h
  rcases hoff : get_offsets value with e | ⟨bs, be⟩ <;> rw [hoff] at h
  · cases h
  · simp only at h
    split at h
    · cases h
    · rename_i hlt
      cases h
      refine ⟨bs, be, rfl, by omega, rfl, rfl, ?_⟩
      simp only
      rw [List.drop_drop]
      congr 1
      omega

/-- On success the three spans reassemble to the input bytes. -/
theorem xpacket_try_from_reassemble {value : List Nat} {p : XPacket}
    (h : xpacket_try_from value = .success p) :
    value = p.header ++ p.body ++ p.footer := by
  obtain ⟨bs, be, _, hle, hh, hb, hf⟩ := xpacket_try_from_success h
  rw [hh, hb, hf]
  have : value.drop be = (value.drop bs).drop (be - bs) := by
    rw [List.drop_drop]; congr 1; omega
  rw [this, List.append_assoc, List.take_append_drop, List.take_append_drop]

/-- On success one of the two accepted footer markers is a prefix of the
returned footer span. -/
theorem xpacket_try_from_footer_marker {value : List Nat} {p : XPacket}
    (h : xpacket_try_from value = .success p) :
    footerMarker1.isPrefixOf p.footer = true ∨ footerMarker2.isPrefixOf p.footer = true := by
  obtain ⟨bs, be, hoff, hle, hh, hb, hf⟩ := xpacket_try_from_success h
  obtain ⟨-, hmem, -⟩ := get_offsets_ok hoff
  rw [hf]
  rcases hmem with hm | hm
  · left
    have hpre := memmemFind_isPrefixOf hm
    have hlen := memmemFind_le_length hm
    rcases stripNewlineSuffix_cases value with hv | hv
    · rw [hv]; exact hpre
    · rw [hv, List.drop_append_of_le_length hlen]
      rw [List.isPrefixOf_iff_prefix] at hpre ⊢
      exact hpre.trans (List.prefix_append _ _)
  · right
    have hpre := memmemFind_isPrefixOf hm
    have hlen := memmemFind_le_length hm
    rcases stripNewlineSuffix_cases value with hv | hv
    · rw [hv]; exact hpre
    · rw [hv, List.drop_append_of_le_length hlen]
      rw [List.isPrefixOf_iff_prefix] at hpre ⊢
      exact hpre.trans (List.prefix_append _ _)

/-! ### `XPacketData::prepare_write` from `container.rs`

The emitter (`events_to_vec`) serializes the event list under each of the
two `EmitterConfig`s in order.  The serialized outputs are abstracted as a
list `outs : List (List Nat)` — one candidate byte buffer per configured
formatting strategy, in preference order. -/

/-- `ContainerRewriteError` from `container.rs` (the variants reachable in
`XPacketData::prepare_write`). -/
inductive ContainerRewriteError where
  | xpacketParse (e : XPacketParseError)
  | missingXPacket
  | notEnoughSpace
deriving DecidableEq, Repr

/-- Result of `prepare_write`.  `panicked` models the Rust panics in the
loop body: `xpacket.body.len() - 2` underflows when the body is shorter
than two bytes (checked subtraction panics in debug builds; in release
builds the wrapped bound lets the subsequent `body[0]`, `last_mut()` or
`copy_from_slice` index out of bounds). -/
inductive PrepareResult where
  | success (bytes : List Nat)
  | failure (e : ContainerRewriteError)
  | panicked
deriving DecidableEq, Repr

/-- The `for config in &emitter_configs` loop of `prepare_write`: for the
first serialized output that fits in `body.len() - 2`, fill the body with
`b' '` (32), set its first and last byte to `b'\n'` (10), copy the output
at offset 1, and return the reassembled packet. -/
def prepare_write_loop (header body footer : List Nat) : List (List Nat) → PrepareResult
  | [] => .failure .notEnoughSpace
  | out :: rest =>
    if body.length < 2 then .panicked
    else if out.length ≤ body.length - 2 then
      let padded := ((List.replicate body.length 32).set 0 10).set (body.length - 1) 10
      .success (header ++ (padded.take 1 ++ out ++ padded.drop (1 + out.length)) ++ footer)
    else prepare_write_loop header body footer rest

/-- `XPacketData::prepare_write` from `container.rs`: split the packet
bytes (via `XPacketMut::try_from`), then try each serialized output in
order. -/
def prepare_write (packet : List Nat) (outs : List (List Nat)) : PrepareResult :=
  match xpacket_try_from packet with
  | .failure e => .failure (.xpacketParse e)
  | .panicked => .panicked
  | .success p => prepare_write_loop p.header p.body p.footer outs

/-- Inversion of a successful `prepare_write_loop`: the result is the
header, a rewritten body of unchanged length, and the footer. -/
theorem prepare_write_loop_success {header body footer : List Nat}
    {outs : List (List Nat)} {r : List Nat}
    (h : prepare_write_loop header body footer outs = .success r) :
    ∃ nb, r = header ++ nb ++ footer ∧ nb.length = body.length := by
  induction outs with
  | nil => cases h
  | cons out rest ih =>
    unfold prepare_write_loop at h
    split at h
    · cases h
    · rename_i hge
      split at h
      · rename_i hfit
        cases h
        refine ⟨_, rfl, ?_⟩
        have hlen : (((List.replicate body.length 32).set 0 10).set
            (body.length - 1) 10).length = body.length := by
          simp
        simp only [List.length_append, List.length_take, List.length_drop, hlen]
        omega
      · exact ih h

/-- `prepare_write_loop` never panics when the body span has at least two
bytes. -/
theorem prepare_write_loop_no_panic {header body footer : List Nat}
    (hb : 2 ≤ body.length) (outs : List (List Nat)) :
    prepare_write_loop header body footer outs ≠ .panicked := by
  induction outs with
  | nil => simp [prepare_write_loop]
  | cons out rest ih =>
    unfold prepare_write_loop
    split
    · omega
    · split
      · simp
      · exact ih

/-- If some output fits, `prepare_write_loop` succeeds (with the first
fitting output). -/
theorem prepare_write_loop_fits {header body footer : List Nat}
    (hb : 2 ≤ body.length) {outs : List (List Nat)}
    (hfit : ∃ out ∈ outs, out.length ≤ body.length - 2) :
    ∃ r, prepare_write_loop header body footer outs = .success r := by
  induction outs with
  | nil => simp at hfit
  | cons out rest ih =>
    unfold prepare_write_loop
    split
    · omega
    · split
      · exact ⟨_, rfl⟩
      · rename_i hnofit
        rcases hfit with ⟨o, ho, hol⟩
        rcases List.mem_cons.mp ho with rfl | ho'
        · omega
        · exact ih ⟨o, ho', hol⟩

/-- If no output fits, `prepare_write_loop` fails with `NotEnoughSpace`. -/
theorem prepare_write_loop_nofit {header body footer : List Nat}
    (hb : 2 ≤ body.length) {outs : List (List Nat)}
    (hno : ∀ out ∈ outs, body.length - 2 < out.length) :
    prepare_write_loop header body footer outs = .failure .notEnoughSpace := by
  induction outs with
  | nil => rfl
  | cons out rest ih =>
    unfold prepare_write_loop
    split
    · omega
    · split
      · rename_i hfit
        have := hno out (by simp)
        omega
      · exact ih fun o ho => hno o (by simp [ho])

/-! ### Concrete inputs for the packet-level claims -/

/-- `b"<?xpacket begin=<?xpacket end=\"w\"?>"`: starts with the begin
marker, contains a footer marker, and the only `>` bytes are inside the
footer marker. -/
def c3Input : List Nat := xpacketBeginMarker ++ footerMarker1

/-- `b"<?xpacket begin=''?>X<?xpacket end=\"w\"?>\n"` (39 = single quote). -/
def c9Input : List Nat :=
  xpacketBeginMarker ++ [39, 39, 63, 62] ++ stringBytes "X" ++ footerMarker1 ++ [10]

/-- Header span of `c9Input`: `b"<?xpacket begin=''?>"`. -/
def c9Header : List Nat := xpacketBeginMarker ++ [39, 39, 63, 62]

/-- A packet whose body span is empty: `b"<?xpacket begin=''?><?xpacket end=\"w\"?>"`. -/
def c10Input : List Nat := c9Header ++ footerMarker1

/-- A packet with a 2-byte body span. -/
def c10wInput : List Nat := c9Header ++ [32, 32] ++ footerMarker1

/-- A packet with a 10-byte body span. -/
def c1Input : List Nat := c9Header ++ List.replicate 10 32 ++ footerMarker1

/-- A packet with a 3-byte body span. -/
def c1wInput : List Nat := c9Header ++ [32, 32, 32] ++ footerMarker1

/-- A packet with a 4-byte body span (witness input for C6). -/
def c6wInput : List Nat := c9Header ++ [32, 32, 32, 32] ++ footerMarker1

/-! ### C3 -/

/-- C3 (code bug): on an input that starts with the begin marker, contains
an accepted end marker, and whose header region contains no `>` byte (the
first `>` of the whole input is the one inside the footer marker, at
index 34), `XPacket::try_from` does not fail with
`MissingHeaderBoundary` — it computes `body_start = 35 > body_end = 16`
and panics on `split_at(body_end - body_start)`. -/
theorem c3_header_boundary_panics :
    xpacketBeginMarker.isPrefixOf c3Input = true ∧
    memmemFind c3Input footerMarker1 = some 16 ∧
    c3Input.findIdx? (fun x => x = 62) = some 34 ∧
    xpacket_try_from c3Input = .panicked ∧
    xpacket_try_from c3Input ≠ .failure .missingHeaderBoundary := by
  refine ⟨by decide, by decide, by decide, by decide, by decide⟩

/-- `MissingHeaderBoundary` is unreachable: whenever a footer marker is
found, the value contains a `>` byte, so the header-boundary search always
succeeds.  (Supporting fact for C3.) -/
theorem get_offsets_never_missingHeaderBoundary (value : List Nat) :
    get_offsets value ≠ .error .missingHeaderBoundary := by
  intro h
  unfold get_offsets at h
  simp only at h
  split at h
  · cases h
  · split at h
    · cases h
    · rename_i found hfound
      split at h
      · rename_i hidx
        -- a footer marker was found, hence some `>` (62) occurs in the value
        have hmem62 : (62 : Nat) ∈ stripNewlineSuffix value := by
          simp only [footerMarkers, List.findSome?] at hfound
          rcases h1 : memmemFind (stripNewlineSuffix value) footerMarker1 with _ | j
          · rw [h1] at hfound
            simp only [List.findSome?] at hfound
            rcases h2 : memmemFind (stripNewlineSuffix value) footerMarker2 with _ | j2
            · rw [h2] at hfound; simp [List.findSome?] at hfound
            · have hpre := memmemFind_isPrefixOf h2
              rw [List.isPrefixOf_iff_prefix] at hpre
              have : (62 : Nat) ∈ footerMarker2 := by decide
              exact List.drop_subset _ _ (hpre.subset this)
          · have hpre := memmemFind_isPrefixOf h1
            rw [List.isPrefixOf_iff_prefix] at hpre
            have : (62 : Nat) ∈ footerMarker1 := by decide
            exact List.drop_subset _ _ (hpre.subset this)
        -- but findIdx? returned none
        have := List.findIdx?_eq_none_iff.mp hidx 62 hmem62
        simp at this
      · cases h

/-! ### C9 -/

/-- C9 counterexample: on an input with a trailing newline the footer span
returned by `XPacket::try_from` is the footer marker *plus* the trailing
newline byte, so it equals neither accepted end-marker literal. -/
theorem c9_counterexample :
    xpacket_try_from c9Input =
      .success ⟨c9Header, stringBytes "X", footerMarker1 ++ [10]⟩ ∧
    footerMarker1 ++ [10] ≠ footerMarker1 ∧
    footerMarker1 ++ [10] ≠ footerMarker2 := by
  refine ⟨by decide, by decide, by decide⟩

/-- C9 (amended): on success the returned footer *starts with* one of the
two accepted end-marker literals (it may carry a trailing newline, which
`get_offsets` strips before searching but `try_from` keeps when
splitting). -/
theorem c9_footer_starts_with_marker {value : List Nat} {p : XPacket}
    (h : xpacket_try_from value = .success p) :
    footerMarker1.isPrefixOf p.footer = true ∨ footerMarker2.isPrefixOf p.footer = true :=
  xpacket_try_from_footer_marker h

/-- Witness for C9: a concrete successful split whose footer starts with a
footer marker. -/
theorem c9_witness :
    xpacket_try_from c10Input = .success ⟨c9Header, [], footerMarker1⟩ ∧
    (footerMarker1.isPrefixOf (XPacket.footer ⟨c9Header, [], footerMarker1⟩) = true ∨
      footerMarker2.isPrefixOf (XPacket.footer ⟨c9Header, [], footerMarker1⟩) = true) :=
  ⟨by decide, @c9_footer_starts_with_marker c10Input ⟨c9Header, [], footerMarker1⟩ (by decide)⟩

/-! ### C10 -/

/-- C10 counterexample: on a successfully split packet whose body span is
empty, `prepare_write` panics (the budget comparison
`out.len() <= body.len() - 2` underflows), so it is not total. -/
theorem c10_counterexample :
    xpacket_try_from c10Input = .success ⟨c9Header, [], footerMarker1⟩ ∧
    prepare_write c10Input [[]] = .panicked := by
  refine ⟨by decide, by decide⟩

/-- C10 (amended): `prepare_write` is total — it returns `Ok` or an error
without panicking — provided the packet body span has at least two bytes.
For shorter bodies the budget subtraction underflows and the writes index
out of bounds. -/
theorem c10_no_panic_when_body_ge_two {packet : List Nat} {p : XPacket}
    (hs : xpacket_try_from packet = .success p) (hb : 2 ≤ p.body.length)
    (outs : List (List Nat)) :
    prepare_write packet outs ≠ .panicked := by
  unfold prepare_write
  rw [hs]
  exact prepare_write_loop_no_panic hb outs

/-- Witness for C10: a concrete packet with a 2-byte body on which
`prepare_write` does not panic. -/
theorem c10_witness :
    xpacket_try_from c10wInput = .success ⟨c9Header, [32, 32], footerMarker1⟩ ∧
    prepare_write c10wInput [[]] ≠ .panicked :=
  ⟨by decide,
    @c10_no_panic_when_body_ge_two c10wInput ⟨c9Header, [32, 32], footerMarker1⟩
      (by decide) (by decide) [[]]⟩

/-! ### C1 -/

/-- C1 counterexample: on a packet whose body span has `N = 10` bytes and
an output of length `3 ≤ N - 2`, `prepare_write` succeeds but returns the
*whole packet* (49 bytes here), not `N` bytes. -/
theorem c1_counterexample :
    xpacket_try_from c1Input =
      .success ⟨c9Header, List.replicate 10 32, footerMarker1⟩ ∧
    (List.replicate 10 32).length = 10 ∧
    prepare_write c1Input [[97, 98, 99]] =
      .success (c9Header ++ ([10, 97, 98, 99] ++ List.replicate 5 32 ++ [10]) ++ footerMarker1) ∧
    (c9Header ++ ([10, 97, 98, 99] ++ List.replicate 5 32 ++ [10]) ++ footerMarker1).length = 49 := by
  refine ⟨by decide, by decide, by decide, by decide⟩

/-- C1 (amended): for a packet whose body span has `N ≥ 2` bytes — if some
configured output has length `L ≤ N - 2`, `prepare_write` succeeds and
returns a buffer of exactly the original *packet* length (whose body span
is exactly `N` bytes); if every output exceeds `N - 2`, it fails with
`NotEnoughSpace` (and, being a pure function of the input, returns no
partially overwritten buffer). -/
theorem c1_prepare_write_fit_and_capacity {packet : List Nat} {p : XPacket}
    (hs : xpacket_try_from packet = .success p) (hb : 2 ≤ p.body.length)
    (outs : List (List Nat)) :
    ((∃ out ∈ outs, out.length ≤ p.body.length - 2) →
      ∃ r, prepare_write packet outs = .success r ∧ r.length = packet.length) ∧
    ((∀ out ∈ outs, p.body.length - 2 < out.length) →
      prepare_write packet outs = .failure .notEnoughSpace) := by
  constructor
  · intro hfit
    obtain ⟨r, hr⟩ := @prepare_write_loop_fits p.header p.body p.footer hb outs hfit
    refine ⟨r, ?_, ?_⟩
    · unfold prepare_write
      rw [hs]
      exact hr
    · obtain ⟨nb, rfl, hnb⟩ := prepare_write_loop_success hr
      have := xpacket_try_from_reassemble hs
      rw [this]
      simp [hnb]
  · intro hno
    unfold prepare_write
    rw [hs]
    exact prepare_write_loop_nofit hb hno

/-- Witness for C1: a packet with a 3-byte body; a 1-byte output fits and
yields the full 42-byte packet, while a 2-byte output does not fit. -/
theorem c1_witness :
    (∃ r, prepare_write c1wInput [[97]] = .success r ∧ r.length = c1wInput.length) ∧
    prepare_write c1wInput [[97, 98]] = .failure .notEnoughSpace :=
  ⟨(@c1_prepare_write_fit_and_capacity c1wInput ⟨c9Header, [32, 32, 32], footerMarker1⟩
      (by decide) (by decide) [[97]]).1 ⟨[97], by simp, by decide⟩,
    (@c1_prepare_write_fit_and_capacity c1wInput ⟨c9Header, [32, 32, 32], footerMarker1⟩
      (by decide) (by decide) [[97, 98]]).2 (by decide)⟩

/-! ### C6 -/

/-- C6: every successful `prepare_write` preserves the header span and the
footer span byte-for-byte and the total packet length — only bytes inside
the body span may differ. -/
theorem c6_header_footer_preserved {packet : List Nat} {p : XPacket}
    {outs : List (List Nat)} {r : List Nat}
    (hs : xpacket_try_from packet = .success p)
    (hw : prepare_write packet outs = .success r) :
    r.take p.header.length = p.header ∧
    r.drop (r.length - p.footer.length) = p.footer ∧
    r.length = packet.length := by
  unfold prepare_write at hw
  rw [hs] at hw
  obtain ⟨nb, rfl, hnb⟩ := prepare_write_loop_success hw
  refine ⟨?_, ?_, ?_⟩
  · rw [List.append_assoc, List.take_left]
  · have hlen : (p.header ++ nb ++ p.footer).length - p.footer.length =
        (p.header ++ nb).length := by
      simp only [List.length_append]
      omega
    rw [hlen, List.drop_left]
  · rw [xpacket_try_from_reassemble hs]
    simp [hnb]

/-- Witness for C6: concrete 4-byte-body packet, 1-byte output. -/
theorem c6_witness :
    prepare_write c6wInput [[97]] =
      .success (c9Header ++ [10, 97, 32, 10] ++ footerMarker1) ∧
    (c9Header ++ [10, 97, 32, 10] ++ footerMarker1).take c9Header.length = c9Header ∧
    (c9Header ++ [10, 97, 32, 10] ++ footerMarker1).drop
      ((c9Header ++ [10, 97, 32, 10] ++ footerMarker1).length - footerMarker1.length) =
      footerMarker1 :=
  ⟨by decide,
    (@c6_header_footer_preserved c6wInput ⟨c9Header, [32, 32, 32, 32], footerMarker1⟩
      [[97]] (c9Header ++ [10, 97, 32, 10] ++ footerMarker1) (by decide) (by decide)).1,
    (@c6_header_footer_preserved c6wInput ⟨c9Header, [32, 32, 32, 32], footerMarker1⟩
      [[97]] (c9Header ++ [10, 97, 32, 10] ++ footerMarker1) (by decide) (by decide)).2.1⟩

/-! ### `XPacketFile::find_needle` and `XPacketFile::open` from `file.rs` -/

/-- `memchr::memchr`: index of the first occurrence of the byte `b`. -/
def memchrFind (b : Nat) : List Nat → Option Nat
  | [] => none
  | x :: t => if x = b then some 0 else (memchrFind b t).map (· + 1)

theorem memchrFind_none {b : Nat} {l : List Nat} (h : memchrFind b l = none) : b ∉ l := by
  induction l with
  | nil => simp
  | cons x t ih =>
    simp only [memchrFind] at h
    split at h
    · cases h
    · rename_i hx
      intro hmem
      rcases List.mem_cons.mp hmem with rfl | hmem
      · exact hx rfl
      · exact ih (Option.map_eq_none'.mp h) hmem

theorem memchrFind_some {b : Nat} {l : List Nat} {i : Nat} (h : memchrFind b l = some i) :
    l[i]? = some b ∧ ∀ j, j < i → l[j]? ≠ some b := by
  induction l generalizing i with
  | nil => cases h
  | cons x t ih =>
    simp only [memchrFind] at h
    split at h
    · rename_i hx
      cases h
      exact ⟨by simpa using hx, fun j hj => by omega⟩
    · rename_i hx
      rcases Option.map_eq_some'.mp h with ⟨j, hj, rfl⟩
      obtain ⟨h1, h2⟩ := ih hj
      refine ⟨by simpa using h1, fun k hk => ?_⟩
      cases k with
      | zero =>
        simp only [List.getElem?_cons_zero, ne_eq, Option.some.injEq]
        exact fun he => hx he
      | succ k' =>
        simpa using h2 k' (by omega)

/-- The needle occurs in the stream at absolute offset `p`. -/
def occursAt (stream needle : List Nat) (p : Nat) : Prop := needle <+: stream.drop p

/-- One refill-and-scan loop of `XPacketFile::find_needle`, with explicit
fuel (the Rust loop can fail to terminate for window sizes smaller than
the needle; every call site passes a window of exactly the needle's
length).  The result is `(found offset?, final stream position)`; on a
failed `read_exact` the code returns `Ok(None)` with the stream at end.
An empty needle would make `needle[0]` panic in Rust; call sites never
pass one, and the model returns "not found" in that case. -/
def find_needle_go (stream needle : List Nat) (w : Nat) : Nat → Nat → Option (Option Nat × Nat)
  | _, 0 => none
  | pos, fuel + 1 =>
    if stream.length < pos + w then
      -- read_exact failed: end of stream
      some (none, stream.length)
    else
      match needle with
      | [] => some (none, pos)
      | b :: _ =>
        -- the Rust code destructures `memchr::memchr(needle[0], &buffer)`
        (memchrFind b ((stream.drop pos).take w)).elim
          -- start byte not in the window: continue after it
          (find_needle_go stream needle w (pos + w) fuel)
          (fun idx =>
            if needle.length ≤ w - idx then
              if (((stream.drop pos).take w).drop idx).take needle.length = needle then
                -- full match at `pos + idx`; seek back to the needle start
                some (some (pos + idx), pos + idx)
              else
                -- mismatch: rewind by `left_in_haystack - 1`
                find_needle_go stream needle w (pos + idx + 1) fuel
            else
              -- not enough window bytes left: rewind by `left_in_haystack`
              find_needle_go stream needle w (pos + idx) fuel)

/-- `XPacketFile::find_needle` with enough fuel for any terminating
configuration. -/
def find_needle (stream needle : List Nat) (w pos : Nat) : Option (Option Nat × Nat) :=
  find_needle_go stream needle w pos (stream.length + 1)

theorem occursAt_head {stream : List Nat} {b : Nat} {bs : List Nat} {q : Nat}
    (h : occursAt stream (b :: bs) q) : stream[q]? = some b := by
  rcases h with ⟨t, ht⟩
  rw [← List.head?_drop, ← ht]
  rfl

theorem occursAt_length {stream : List Nat} {b : Nat} {bs : List Nat} {q : Nat}
    (h : occursAt stream (b :: bs) q) : q + (b :: bs).length ≤ stream.length := by
  have hle := h.length_le
  simp only [List.length_drop, List.length_cons] at hle ⊢
  have : q < stream.length := by
    by_contra hq
    omega
  omega

/-- Correctness of one full `find_needle_go` run with sufficient fuel, for
the call-site configuration `w = needle.length` and a non-empty needle:
it finds exactly the first occurrence at or after the start position (and
leaves the stream there), or reports "not found" exactly when there is no
occurrence. -/
theorem find_needle_go_spec (stream : List Nat) (b : Nat) (bs : List Nat) :
    ∀ fuel pos, stream.length - pos < fuel →
    ∃ res fpos,
      find_needle_go stream (b :: bs) (b :: bs).length pos fuel = some (res, fpos) ∧
      (∀ o, res = some o → pos ≤ o ∧ occursAt stream (b :: bs) o ∧
        (∀ q, pos ≤ q → q < o → ¬ occursAt stream (b :: bs) q) ∧ fpos = o) ∧
      (res = none → ∀ q, pos ≤ q → ¬ occursAt stream (b :: bs) q) := by
  intro fuel
  induction fuel with
  | zero => intro pos h; omega
  | succ fuel ih =>
    intro pos hfuel
    rw [find_needle_go]
    by_cases hread : stream.length < pos + (b :: bs).length
    · rw [if_pos hread]
      refine ⟨none, stream.length, rfl, by simp, fun _ q hq hocc => ?_⟩
      have := occursAt_length hocc
      simp only [List.length_cons] at this hread
      omega
    · rw [if_neg hread]
      simp only [not_lt] at hread
      have hn : 0 < (b :: bs).length := by simp
      have hWlen : ((stream.drop pos).take (b :: bs).length).length = (b :: bs).length := by
        simp only [List.length_take, List.length_drop]
        omega
      -- relate window entries to stream entries
      have hwin : ∀ q, pos ≤ q → q < pos + (b :: bs).length →
          ((stream.drop pos).take (b :: bs).length)[q - pos]? = stream[q]? := by
        intro q hq1 hq2
        rw [List.getElem?_take]
        rw [if_pos (by omega)]
        rw [List.getElem?_drop]
        congr 1
        omega
      rcases hidx : memchrFind b ((stream.drop pos).take (b :: bs).length) with _ | idx
      · -- start byte nowhere in the window: no occurrence in [pos, pos + w)
        simp only [Option.elim_none]
        have hskip : ∀ q, pos ≤ q → q < pos + (b :: bs).length →
            ¬ occursAt stream (b :: bs) q := by
          intro q hq1 hq2 hocc
          have hqb := occursAt_head hocc
          have : b ∈ (stream.drop pos).take (b :: bs).length :=
            List.getElem?_mem ((hwin q hq1 hq2).trans hqb)
          exact memchrFind_none hidx this
        obtain ⟨res, fpos, heq, hsome, hnone⟩ := ih (pos + (b :: bs).length) (by
          simp only [List.length_cons] at hread ⊢
          omega)
        refine ⟨res, fpos, heq, fun o ho => ?_, fun hr q hq => ?_⟩
        · obtain ⟨h1, h2, h3, h4⟩ := hsome o ho
          refine ⟨by omega, h2, fun q hq1 hq2 => ?_, h4⟩
          by_cases hq3 : q < pos + (b :: bs).length
          · exact hskip q hq1 hq3
          · exact h3 q (by omega) hq2
        · by_cases hq3 : q < pos + (b :: bs).length
          · exact hskip q hq hq3
          · exact hnone hr q (by omega)
      · obtain ⟨hat, hmin⟩ := memchrFind_some hidx
        simp only [Option.elim_some]
        have hidxlt : idx < (b :: bs).length := by
          have := (List.getElem?_eq_some.mp hat).1
          omega
        by_cases hidx0 : idx = 0
        · subst hidx0
          rw [if_pos (by omega)]
          by_cases hcmp :
              ((((stream.drop pos).take (b :: bs).length).drop 0).take (b :: bs).length)
                = b :: bs
          · rw [if_pos hcmp]
            rw [List.drop_zero] at hcmp
            rw [List.take_of_length_le (le_of_eq hWlen)] at hcmp
            refine ⟨some (pos + 0), pos + 0, rfl, fun o ho => ?_, by simp⟩
            cases ho
            refine ⟨by omega, ?_, fun q hq1 hq2 => by omega, rfl⟩
            unfold occursAt
            rw [← hcmp]
            exact List.take_prefix _ _
          · rw [if_neg hcmp]
            rw [List.drop_zero] at hcmp
            rw [List.take_of_length_le (le_of_eq hWlen)] at hcmp
            have hnpos : ¬ occursAt stream (b :: bs) pos := by
              intro hocc
              apply hcmp
              unfold occursAt at hocc
              rw [List.prefix_iff_eq_take] at hocc
              exact hocc.symm
            obtain ⟨res, fpos, heq, hsome, hnone⟩ := ih (pos + 0 + 1) (by
              simp only [List.length_cons] at hread
              omega)
            refine ⟨res, fpos, heq, fun o ho => ?_, fun hr q hq => ?_⟩
            · obtain ⟨h1, h2, h3, h4⟩ := hsome o ho
              refine ⟨by omega, h2, fun q hq1 hq2 => ?_, h4⟩
              by_cases hq3 : q = pos
              · exact hq3 ▸ hnpos
              · exact h3 q (by omega) hq2
            · by_cases hq3 : q = pos
              · exact hq3 ▸ hnpos
              · exact hnone hr q (by omega)
        · rw [if_neg (by omega)]
          have hskip : ∀ q, pos ≤ q → q < pos + idx → ¬ occursAt stream (b :: bs) q := by
            intro q hq1 hq2 hocc
            have hqb := occursAt_head hocc
            refine hmin (q - pos) (by omega) ?_
            rw [hwin q hq1 (by omega)]
            exact hqb
          obtain ⟨res, fpos, heq, hsome, hnone⟩ := ih (pos + idx) (by
            simp only [List.length_cons] at hread
            omega)
          refine ⟨res, fpos, heq, fun o ho => ?_, fun hr q hq => ?_⟩
          · obtain ⟨h1, h2, h3, h4⟩ := hsome o ho
            refine ⟨by omega, h2, fun q hq1 hq2 => ?_, h4⟩
            by_cases hq3 : q < pos + idx
            · exact hskip q hq1 hq3
            · exact h3 q (by omega) hq2
          · by_cases hq3 : q < pos + idx
            · exact hskip q hq hq3
            · exact hnone hr q (by omega)

/-- `find_needle` (with its default fuel) always terminates in the
call-site configuration and satisfies the same specification. -/
theorem find_needle_spec (stream needle : List Nat) (hne : needle ≠ []) (pos : Nat) :
    ∃ res fpos,
      find_needle stream needle needle.length pos = some (res, fpos) ∧
      (∀ o, res = some o → pos ≤ o ∧ occursAt stream needle o ∧
        (∀ q, pos ≤ q → q < o → ¬ occursAt stream needle q) ∧ fpos = o) ∧
      (res = none → ∀ q, pos ≤ q → ¬ occursAt stream needle q) := by
  rcases needle with _ | ⟨b, bs⟩
  · exact absurd rfl hne
  · exact find_needle_go_spec stream b bs (stream.length + 1) pos (by omega)

/-- C4: for every stream and every (non-empty) needle, with the read
window the call sites use (exactly the needle's length), `find_needle`
returns `some o` iff `o` is the first occurrence of the needle at or after
the start position — including occurrences that straddle a window
boundary, since the characterization is exact over all offsets — leaving
the stream positioned at the needle's start on success; and it returns
`none` iff no occurrence exists before the end of the stream. -/
theorem c4_find_needle_first_occurrence (stream needle : List Nat) (hne : needle ≠ [])
    (pos : Nat) :
    ∃ res fpos,
      find_needle stream needle needle.length pos = some (res, fpos) ∧
      (∀ o, res = some o ↔
        (pos ≤ o ∧ occursAt stream needle o ∧
          ∀ q, pos ≤ q → q < o → ¬ occursAt stream needle q)) ∧
      (∀ o, res = some o → fpos = o) ∧
      (res = none ↔ ∀ q, pos ≤ q → ¬ occursAt stream needle q) := by
  obtain ⟨res, fpos, heq, hsome, hnone⟩ := find_needle_spec stream needle hne pos
  refine ⟨res, fpos, heq, fun o => ⟨fun ho => ?_, fun hfirst => ?_⟩,
    fun o ho => (hsome o ho).2.2.2, hnone, fun hall => ?_⟩
  · obtain ⟨h1, h2, h3, _⟩ := hsome o ho
    exact ⟨h1, h2, h3⟩
  · rcases hres : res with _ | o'
    · exact absurd hfirst.2.1 (hnone hres o hfirst.1)
    · obtain ⟨h1, h2, h3, _⟩ := hsome o' hres
      have : o = o' := by
        by_contra hd
        rcases Nat.lt_or_ge o o' with hlt | hge
        · exact h3 o hfirst.1 hlt hfirst.2.1
        · exact hfirst.2.2 o' h1 (by omega) h2
      rw [this]
  · rcases hres : res with _ | o'
    · rfl
    · obtain ⟨h1, h2, _, _⟩ := hsome o' hres
      exact absurd h2 (hall o' h1)

/-- Witness for C4: the straddling example — needle `[97, 98]` in stream
`[97, 97, 98]`, where the first window `[97, 97]` mismatches and the
rewind makes the next window start at offset 1. -/
theorem c4_witness :
    ∃ res fpos,
      find_needle [97, 97, 98] [97, 98] [97, 98].length 0 = some (res, fpos) ∧
      (∀ o, res = some o ↔
        (0 ≤ o ∧ occursAt [97, 97, 98] [97, 98] o ∧
          ∀ q, 0 ≤ q → q < o → ¬ occursAt [97, 97, 98] [97, 98] q)) ∧
      (∀ o, res = some o → fpos = o) ∧
      (res = none ↔ ∀ q, 0 ≤ q → ¬ occursAt [97, 97, 98] [97, 98] q) :=
  c4_find_needle_first_occurrence [97, 97, 98] [97, 98] (by decide) 0

/-! ### `XPacketFile::open` from `file.rs` -/

/-- `XPACKET_BEGIN` from `file.rs`: `b"<?xpacket begin"` — note: *without*
the trailing `=`. -/
def xpacketBeginNeedle : List Nat := stringBytes "<?xpacket begin"

/-- `XPACKET_END` from `file.rs`: `b"<?xpacket end"`. -/
def xpacketEndNeedle : List Nat := stringBytes "<?xpacket end"

/-- `BOUND_MARKER` from `file.rs`: `b"?>"`. -/
def boundMarkerNeedle : List Nat := stringBytes "?>"

/-- `XPacketFile::open`: seek to 0, find the begin marker (the stream is
left at its start on success), find the end marker from there, then find
`?>`; the located range is `start..(end + 2)`.  Each search uses a window
of exactly the needle's length (`haystack_buffer[..needle.len()]`).
The outer `none` (fuel exhaustion in the model, impossible here) also
maps to "no packet". -/
def open_stage3 (stream : List Nat) (s fp2 : Nat) : Option (Nat × Nat) :=
  match find_needle stream boundMarkerNeedle boundMarkerNeedle.length fp2 with
  | some (some e, _) => some (s, e + boundMarkerNeedle.length)
  | _ => none

def open_stage2 (stream : List Nat) (s fp1 : Nat) : Option (Nat × Nat) :=
  match find_needle stream xpacketEndNeedle xpacketEndNeedle.length fp1 with
  | some (some _, fp2) => open_stage3 stream s fp2
  | _ => none

def xpacket_file_open (stream : List Nat) : Option (Nat × Nat) :=
  match find_needle stream xpacketBeginNeedle xpacketBeginNeedle.length 0 with
  | some (some s, fp1) => open_stage2 stream s fp1
  | _ => none

/-- C5 (amended): if the packet locator returns `[s, e)`, the bytes at `s`
start with `b"<?xpacket begin"` — the locator's needle, *without* the `=`
of the spec's begin marker — and the bytes at `[e-2, e)` are `b"?>"`. -/
theorem c5_locator_markers {stream : List Nat} {s e : Nat}
    (h : xpacket_file_open stream = some (s, e)) :
    xpacketBeginNeedle.isPrefixOf (stream.drop s) = true ∧ 2 ≤ e ∧
    boundMarkerNeedle.isPrefixOf (stream.drop (e - 2)) = true := by
  obtain ⟨r1, f1, he1, hs1, -⟩ :=
    find_needle_spec stream xpacketBeginNeedle (by decide) 0
  rcases r1 with _ | s'
  · have hred : xpacket_file_open stream = none := by
      unfold xpacket_file_open; rw [he1]
    rw [hred] at h; cases h
  · have hred : xpacket_file_open stream = open_stage2 stream s' f1 := by
      unfold xpacket_file_open; rw [he1]
    rw [hred] at h
    obtain ⟨r2, f2, he2, hs2, -⟩ :=
      find_needle_spec stream xpacketEndNeedle (by decide) f1
    rcases r2 with _ | m
    · have hred2 : open_stage2 stream s' f1 = none := by
        unfold open_stage2; rw [he2]
      rw [hred2] at h; cases h
    · have hred2 : open_stage2 stream s' f1 = open_stage3 stream s' f2 := by
        unfold open_stage2; rw [he2]
      rw [hred2] at h
      obtain ⟨r3, f3, he3, hs3, -⟩ :=
        find_needle_spec stream boundMarkerNeedle (by decide) f2
      rcases r3 with _ | q
      · have hred3 : open_stage3 stream s' f2 = none := by
          unfold open_stage3; rw [he3]
        rw [hred3] at h; cases h
      · have hred3 : open_stage3 stream s' f2 =
            some (s', q + boundMarkerNeedle.length) := by
          unfold open_stage3; rw [he3]
        rw [hred3] at h
        simp only [Option.some.injEq, Prod.mk.injEq] at h
        obtain ⟨rfl, rfl⟩ := h
        obtain ⟨-, hocc1, -, -⟩ := hs1 s' rfl
        obtain ⟨-, hocc3, -, -⟩ := hs3 q rfl
        have hbl : boundMarkerNeedle.length = 2 := by decide
        refine ⟨List.isPrefixOf_iff_prefix.mpr hocc1, by omega, ?_⟩
        have : q + boundMarkerNeedle.length - 2 = q := by omega
        rw [this]
        exact List.isPrefixOf_iff_prefix.mpr hocc3

/-- C5 counterexample input: `b"<?xpacket beginQ<?xpacket end?>"`.  The
locator accepts it (its needle omits the `=`), yet byte 15 after the start
is `Q`, so the bytes at `[s, s+16)` are not the spec's begin marker
`b"<?xpacket begin="`. -/
def c5Input : List Nat := stringBytes "<?xpacket beginQ" ++ stringBytes "<?xpacket end?>"

/-- C5 counterexample: the locator returns a range whose start does not
carry the full 16-byte begin marker `b"<?xpacket begin="` (the code
searches for `b"<?xpacket begin"` without the `=`). -/
theorem c5_counterexample :
    xpacket_file_open c5Input = some (0, 31) ∧
    c5Input.take 16 ≠ xpacketBeginMarker ∧
    (c5Input.drop 29).take 2 = stringBytes "?>" := by
  refine ⟨by decide, by decide, by decide⟩

/-- Witness for C5: a well-formed packet on which the locator returns
`[0, 39)` and both amended marker facts hold. -/
theorem c5_witness :
    xpacket_file_open c10Input = some (0, 39) ∧
    (xpacketBeginNeedle.isPrefixOf (c10Input.drop 0) = true ∧ 2 ≤ 39 ∧
      boundMarkerNeedle.isPrefixOf (c10Input.drop (39 - 2)) = true) :=
  ⟨by decide, c5_locator_markers (by decide)⟩

/-! ### The XML event model (`xmp.rs`, `xmp/rule.rs`)

`xml::name::OwnedName` is `(local_name, namespace?, prefix?)` — the
`prefix` field is called `pfx` here.  `xml::namespace::Namespace` is a
prefix-to-URI map, modelled as an association list; `put` inserts only if
the prefix is unbound (as in xml-rs).  The event type keeps the variants
the rewrite engine distinguishes; `whitespace` stands for the "any other"
reader events (`Whitespace`, `Comment`, ...) that every scrutinized match
treats via its catch-all arm. -/

/-- `xml::name::OwnedName`. -/
structure OwnedName where
  local_name : String
  ns : Option String
  pfx : Option String
deriving DecidableEq, Repr

/-- `xml::attribute::OwnedAttribute`. -/
structure OwnedAttribute where
  name : OwnedName
  value : String
deriving DecidableEq, Repr

/-- `xml::namespace::Namespace`: prefix → URI bindings. -/
abbrev NsMap := List (String × String)

/-- `Namespace::contains`. -/
def ns_contains (m : NsMap) (p : String) : Bool := m.any (fun kv => kv.1 == p)

/-- `Namespace::put`: binds `p` to `u` unless `p` is already bound. -/
def ns_put (m : NsMap) (p u : String) : NsMap :=
  if ns_contains m p then m else m ++ [(p, u)]

/-- `Namespace::extend`: `put` every binding of `other`. -/
def ns_extend (m other : NsMap) : NsMap :=
  other.foldl (fun acc kv => ns_put acc kv.1 kv.2) m

/-- `xml::reader::XmlEvent`. -/
inductive XmlEvent where
  | startDocument
  | endDocument
  | startElement (name : OwnedName) (attributes : List OwnedAttribute) (nsMap : NsMap)
  | endElement (name : OwnedName)
  | characters (s : String)
  | whitespace (s : String)
deriving DecidableEq, Repr

/-- `ns::RDF`. -/
def nsRDF : String := "http://www.w3.org/1999/02/22-rdf-syntax-ns#"

/-- `ns::ACDSEE`. -/
def nsACDSEE : String := "http://ns.acdsee.com/iptc/1.0/"

/-- `ns::DC`. -/
def nsDC : String := "http://purl.org/dc/elements/1.1/"

/-- `name.namespace.as_deref() == Some(ns::RDF) && name.local_name == "Description"`. -/
def isDescName (n : OwnedName) : Bool :=
  n.ns == some nsRDF && n.local_name == "Description"

/-! ### Field accessors (`XmpData`), claim C2 -/

/-- `XmpData::acdsee_attr_value`: the value of the first attribute in the
acdsee namespace with the requested local name, looked up on
`rdf:Description` start events (scanning all of them). -/
def acdsee_attr_value (events : List XmlEvent) (local_name : String) : Option String :=
  events.findSome? fun evt =>
    match evt with
    | .startElement name attributes _ =>
      if isDescName name then
        attributes.findSome? fun attr =>
          if attr.name.ns == some nsACDSEE && attr.name.local_name == local_name then
            some attr.value
          else none
      else none
    | _ => none

/-- The `skip_while` predicate of `acdsee_tag_value` (negated): the event
is a start element named `(acdsee namespace, local_name)`. -/
def acdsee_tag_start (local_name : String) (evt : XmlEvent) : Bool :=
  match evt with
  | .startElement name _ _ => name.ns == some nsACDSEE && name.local_name == local_name
  | _ => false

/-- `XmpData::acdsee_tag_value`: attribute value, or else the event right
after the first matching start element if it is a `Characters` event. -/
def acdsee_tag_value (events : List XmlEvent) (local_name : String) : Option String :=
  match acdsee_attr_value events local_name with
  | some v => some v
  | none =>
    match (events.dropWhile (fun evt => ! acdsee_tag_start local_name evt)).drop 1 with
    | .characters value :: _ => some value
    | _ => none

/-- If a predicate holds on every element of a prefix, `dropWhile` skips
past it. -/
theorem dropWhile_append_of_all {α : Type} (p : α → Bool) :
    ∀ (pre rest : List α), (∀ x ∈ pre, p x = true) →
      (pre ++ rest).dropWhile p = rest.dropWhile p := by
  intro pre
  induction pre with
  | nil => simp
  | cons a t ih =>
    intro rest h
    rw [List.cons_append, List.dropWhile_cons_of_pos (h a (List.mem_cons_self a t))]
    exact ih rest fun x hx => h x (List.mem_cons_of_mem a hx)

/-- The acdsee name used in the C2 instances. -/
def acdCaption : OwnedName := ⟨"caption", some nsACDSEE, some "acdsee"⟩

/-- C2 counterexample: when the first matching start element is
immediately followed by an end event, the accessor returns `none`
("absent"), not the empty string the claim requires. -/
theorem c2_counterexample :
    acdsee_attr_value [.startElement acdCaption [] [], .endElement acdCaption] "caption"
      = none ∧
    acdsee_tag_start "caption" (.startElement acdCaption [] []) = true ∧
    acdsee_tag_value [.startElement acdCaption [] [], .endElement acdCaption] "caption"
      = none := by
  refine ⟨by decide, by decide, by decide⟩

/-- C2 (amended): with no attribute match, if the first start element
named `(acdsee, local_name)` is immediately followed by a text event the
accessor returns that text (possibly empty); *any* other immediately
following event — including an end event — yields `none` ("absent"). -/
theorem c2_tag_value_next_event {pre rest : List XmlEvent} {name : OwnedName}
    {attrs : List OwnedAttribute} {nsm : NsMap} {e : XmlEvent} {local_name : String}
    (hpre : ∀ ev ∈ pre, acdsee_tag_start local_name ev = false)
    (hstart : acdsee_tag_start local_name (.startElement name attrs nsm) = true)
    (hattr : acdsee_attr_value (pre ++ .startElement name attrs nsm :: e :: rest)
      local_name = none) :
    acdsee_tag_value (pre ++ .startElement name attrs nsm :: e :: rest) local_name
      = match e with
        | .characters s => some s
        | _ => none := by
  unfold acdsee_tag_value
  rw [hattr]
  rw [dropWhile_append_of_all _ pre _ (fun ev hev => by simp [hpre ev hev])]
  rw [List.dropWhile_cons_of_neg (by simp [hstart])]
  rcases e with _ | _ | ⟨n, a, m⟩ | n | s | s <;> rfl

/-- Witness for C2 (amended): a text child yields its string. -/
theorem c2_witness :
    acdsee_tag_value
      [.startElement acdCaption [] [], .characters "cat", .endElement acdCaption]
      "caption" = some "cat" := by
  have h := @c2_tag_value_next_event []
    [XmlEvent.endElement acdCaption] acdCaption [] [] (.characters "cat") "caption"
    (by intro ev hev; cases hev) (by decide) (by decide)
  simpa using h

/-! ### Rewrite rules (`xmp/rule.rs`) -/

/-- The closed set of rewrite actions: `SetToCurrentDateTime` and
`SetRdfList` are the only implementors of `RewriteAction`. -/
inductive RewriteAction where
  | setToCurrentDateTime
  | setRdfList (ty : String) (values : List String)
deriving DecidableEq, Repr

/-- `RewriteRule` (the `node_prefix` field is called `node_pfx` here). -/
structure RewriteRule where
  node_namespace : Option String
  node_name : String
  node_pfx : String
  allow_attribute : Bool
  required : Bool
  action : RewriteAction
deriving DecidableEq, Repr

/-- `RewriteRule::name`: `OwnedName::qualified` when the rule has a
namespace, `OwnedName::local` otherwise. -/
def RewriteRule.name (r : RewriteRule) : OwnedName :=
  match r.node_namespace with
  | some u => ⟨r.node_name, some u, some r.node_pfx⟩
  | none => ⟨r.node_name, none, none⟩

/-- `RewriteRule::matches`. -/
def RewriteRule.matches (r : RewriteRule) (n : OwnedName) : Bool :=
  n.local_name == r.node_name && n.ns == r.node_namespace

/-- `rdf_node` from `rule.rs`. -/
def rdf_node (name : String) : OwnedName := ⟨name, some nsRDF, some "rdf"⟩

/-- The `for item in &self.values` loop of `SetRdfList::rewrite`. -/
def rdf_li_items (li : OwnedName) : List String → List XmlEvent
  | [] => []
  | v :: rest =>
    .startElement li [] [] :: .characters v :: .endElement li :: rdf_li_items li rest

/-- `RewriteAction::rewrite` via `RewriteRule::run` (both implementations
are total and always return `Ok`, so `run` is modelled as returning the
output events directly; the wall-clock string of
`SetToCurrentDateTime::now` is the `now` parameter).  The element name is
taken from the first input event when it is a start element, else from
the rule. -/
def rule_run (r : RewriteRule) (now : String) (input : List XmlEvent) : List XmlEvent :=
  let name := match input.head? with
    | some (.startElement n _ _) => n
    | _ => r.name
  match r.action with
  | .setToCurrentDateTime =>
    [.startElement name [] [], .characters now, .endElement name]
  | .setRdfList ty values =>
    .startElement name [] [] :: .startElement (rdf_node ty) [] [] ::
      (rdf_li_items (rdf_node "li") values ++
        [.endElement (rdf_node ty), .endElement name])

/-- `RewriteRule::run_attribute`: `SetToCurrentDateTime` writes the clock
string; the trait's default `rewrite_attribute` (used by `SetRdfList`)
fails with `Unsupported`. -/
def rule_run_attribute (r : RewriteRule) (now : String) (_input : String) :
    Except Unit String :=
  match r.action with
  | .setToCurrentDateTime => .ok now
  | .setRdfList _ _ => .error ()

/-- `WriteError` from `xmp.rs`. -/
inductive WriteError where
  | ruleFailed (name : OwnedName)
deriving DecidableEq, Repr

/-! ### `XmpData::write_events` -/

/-- The namespace-collection pass: `extend` the accumulator with the
bindings of every `rdf:Description` start event. -/
def ns_step (acc : NsMap) (evt : XmlEvent) : NsMap :=
  match evt with
  | .startElement name _ nsm => if isDescName name then ns_extend acc nsm else acc
  | _ => acc

def collect_all_namespaces (events : List XmlEvent) : NsMap :=
  events.foldl ns_step []

/-- The attribute-collection pass: the attributes of every *top-level*
(description-nesting level 0) `rdf:Description` start event.  The level
counter is an `i32` in Rust and may go negative on unbalanced input. -/
def collect_all_attributes_go (level : Int) : List XmlEvent → List OwnedAttribute
  | [] => []
  | .startElement name attributes _ :: rest =>
    if isDescName name then
      (if level == 0 then attributes else []) ++ collect_all_attributes_go (level + 1) rest
    else collect_all_attributes_go level rest
  | .endElement name :: rest =>
    if isDescName name then collect_all_attributes_go (level - 1) rest
    else collect_all_attributes_go level rest
  | _ :: rest => collect_all_attributes_go level rest

/-- All collected `rdf:Description` attributes (`all_attributes`). -/
def collect_all_attributes (events : List XmlEvent) : List OwnedAttribute :=
  collect_all_attributes_go 0 events

/-- Body of `register_rule_namespace`: walk the output vector to the
first `rdf:Description` start event; bind the rule's prefix there unless
already bound, then stop. -/
def register_go (p u : String) : List XmlEvent → List XmlEvent
  | [] => []
  | .startElement name attrs nsm :: rest =>
    if isDescName name then .startElement name attrs (ns_put nsm p u) :: rest
    else .startElement name attrs nsm :: register_go p u rest
  | e :: rest => e :: register_go p u rest

/-- `register_rule_namespace`: only acts when the rule has a namespace. -/
def register_rule_ns (r : RewriteRule) (evts : List XmlEvent) : List XmlEvent :=
  match r.node_namespace with
  | some u => register_go r.node_pfx u evts
  | none => evts

/-- The `(rule.namespace(), rule.local_name())` key of the rules map. -/
abbrev RuleKey := Option String × String

def rule_key (r : RewriteRule) : RuleKey := (r.node_namespace, r.node_name)

/-- `*attr = Cow::Owned(...)`: replace the first matching collected
attribute's value. -/
def replace_first_attr : List OwnedAttribute → RewriteRule → String → List OwnedAttribute
  | [], _, _ => []
  | attr :: rest, r, v =>
    if r.matches attr.name then ⟨attr.name, v⟩ :: rest
    else attr :: replace_first_attr rest r v

/-- The rule-preprocessing `filter_map` of `write_events`: an
attribute-capable rule matching a collected attribute rewrites that
attribute (failing rules abort with `RuleFailed`) and is dropped;
remaining rules are keyed, in order.  (`register_rule_namespace` is also
called here on the still-empty output vector — a no-op.) -/
def process_rules (now : String) :
    List RewriteRule → List OwnedAttribute →
    Except WriteError (List OwnedAttribute × List (RuleKey × RewriteRule))
  | [], attrs => .ok (attrs, [])
  | r :: rest, attrs =>
    if r.allow_attribute then
      match attrs.find? (fun attr => r.matches attr.name) with
      | some attr =>
        match rule_run_attribute r now attr.value with
        | .error _ => .error (.ruleFailed attr.name)
        | .ok newVal => process_rules now rest (replace_first_attr attrs r newVal)
      | none =>
        (process_rules now rest attrs).map fun res => (res.1, (rule_key r, r) :: res.2)
    else
      (process_rules now rest attrs).map fun res => (res.1, (rule_key r, r) :: res.2)

/-- `HashMap` insertion while collecting the keyed rules: a later rule
with the same key replaces an earlier one. -/
def rules_insert (m : List (RuleKey × RewriteRule)) (k : RuleKey) (r : RewriteRule) :
    List (RuleKey × RewriteRule) :=
  if m.any (fun e => decide (e.1 = k)) then
    m.map (fun e => if e.1 = k then (k, r) else e)
  else m ++ [(k, r)]

/-- `rules.into_iter().collect::<HashMap<_, _>>()`, as an association
list whose iteration order stands in for the map's arbitrary order. -/
def rules_of_pairs (pairs : List (RuleKey × RewriteRule)) : List (RuleKey × RewriteRule) :=
  pairs.foldl (fun m e => rules_insert m e.1 e.2) []

/-- `rules.get(&id)`. -/
def rules_lookup : List (RuleKey × RewriteRule) → RuleKey → Option RewriteRule
  | [], _ => none
  | e :: rest, k => if e.1 = k then some e.2 else rules_lookup rest k

/-- `rules.remove(&id)`. -/
def rules_erase (m : List (RuleKey × RewriteRule)) (k : RuleKey) :
    List (RuleKey × RewriteRule) :=
  m.filter (fun e => ! decide (e.1 = k))

/-- The `while level > 0` subtree-consumption loop of the rule-match
branch: take events, adjusting the depth on start/end events, until the
depth returns to zero; returns (consumed events, remaining events). -/
def consume_subtree : Nat → List XmlEvent → List XmlEvent × List XmlEvent
  | _, [] => ([], [])
  | level, .startElement n a m :: rest =>
    -- a start event raises the level, which is then nonzero
    (.startElement n a m :: (consume_subtree (level + 1) rest).1,
     (consume_subtree (level + 1) rest).2)
  | level, .endElement n :: rest =>
    if level - 1 = 0 then ([.endElement n], rest)
    else (.endElement n :: (consume_subtree (level - 1) rest).1,
      (consume_subtree (level - 1) rest).2)
  | level, e :: rest =>
    if level = 0 then ([e], rest)
    else (e :: (consume_subtree level rest).1, (consume_subtree level rest).2)

theorem consume_subtree_length_le (level : Nat) (l : List XmlEvent) :
    (consume_subtree level l).2.length ≤ l.length := by
  induction l generalizing level with
  | nil => simp [consume_subtree]
  | cons e rest ih =>
    cases e with
    | startElement n a m =>
      simp only [consume_subtree, List.length_cons]
      exact Nat.le_succ_of_le (ih _)
    | endElement n =>
      simp only [consume_subtree, List.length_cons]
      split
      · simp
      · exact Nat.le_succ_of_le (ih _)
    | startDocument =>
      simp only [consume_subtree, List.length_cons]
      split
      · simp
      · exact Nat.le_succ_of_le (ih _)
    | endDocument =>
      simp only [consume_subtree, List.length_cons]
      split
      · simp
      · exact Nat.le_succ_of_le (ih _)
    | characters s =>
      simp only [consume_subtree, List.length_cons]
      split
      · simp
      · exact Nat.le_succ_of_le (ih _)
    | whitespace s =>
      simp only [consume_subtree, List.length_cons]
      split
      · simp
      · exact Nat.le_succ_of_le (ih _)

/-- The state of the `write_events` main loop. -/
inductive WState where
  | init
  | inDescription (level : Nat)
  | skipDescription
deriving DecidableEq, Repr

/-- The required-rule flush (`for (_, rule) in rules.drain()`): run every
still-pending required rule with empty input, registering its namespace
in the output vector first. -/
def flush_required (now : String) :
    List (RuleKey × RewriteRule) → List XmlEvent → List XmlEvent
  | [], evts => evts
  | (_, r) :: rest, evts =>
    if r.required then
      flush_required now rest (register_rule_ns r evts ++ rule_run r now [])
    else flush_required now rest evts

/-- The `while let Some(evt) = evt_iter.next()` loop of `write_events`.
The state, the pending end element, the rules map (association list) and
the output vector are threaded explicitly; the attribute-processed
`all_attributes` (drained into the merged start event) and the merged
`all_namespaces` are fixed inputs.  `rule_run` is total, so the loop is
total. -/
def write_loop (now : String) (all_attributes : List OwnedAttribute)
    (all_namespaces : NsMap) :
    WState → Option XmlEvent → List (RuleKey × RewriteRule) → List XmlEvent →
      List XmlEvent → List XmlEvent
  | _, _, _, evts, [] => evts
  | .init, pend, rules, evts, evt :: rest =>
    match evt with
    | .startElement name _ _ =>
      if isDescName name then
        -- the merged synthetic description start event
        write_loop now all_attributes all_namespaces (.inDescription 1) pend rules
          (evts ++ [.startElement name all_attributes all_namespaces]) rest
      else
        write_loop now all_attributes all_namespaces .init pend rules (evts ++ [evt]) rest
    | .startDocument =>
      -- "Just skip this"
      write_loop now all_attributes all_namespaces .init pend rules evts rest
    | _ =>
      write_loop now all_attributes all_namespaces .init pend rules (evts ++ [evt]) rest
  | .inDescription level, pend, rules, evts, evt :: rest =>
    match evt with
    | .endElement name =>
      if isDescName name then
        if level = 1 then
          write_loop now all_attributes all_namespaces .skipDescription (some (.endElement name))
            rules evts rest
        else
          write_loop now all_attributes all_namespaces (.inDescription (level - 1)) pend rules
            (evts ++ [.endElement name]) rest
      else
        write_loop now all_attributes all_namespaces (.inDescription level) pend rules
          (evts ++ [.endElement name]) rest
    | .startElement name a m =>
      if isDescName name then
        write_loop now all_attributes all_namespaces (.inDescription (level + 1)) pend rules
          (evts ++ [.startElement name a m]) rest
      else if level = 1 then
        match rules_lookup rules (name.ns, name.local_name) with
        | some r =>
          if r.matches name then
            write_loop now all_attributes all_namespaces (.inDescription level) pend
              (rules_erase rules (name.ns, name.local_name))
              (register_rule_ns r evts ++
                rule_run r now (.startElement name a m :: (consume_subtree 1 rest).1))
              (consume_subtree 1 rest).2
          else
            write_loop now all_attributes all_namespaces (.inDescription level) pend rules
              (evts ++ [.startElement name a m]) rest
        | none =>
          write_loop now all_attributes all_namespaces (.inDescription level) pend rules
            (evts ++ [.startElement name a m]) rest
      else
        write_loop now all_attributes all_namespaces (.inDescription level) pend rules
          (evts ++ [.startElement name a m]) rest
    | _ =>
      write_loop now all_attributes all_namespaces (.inDescription level) pend rules
        (evts ++ [evt]) rest
  | .skipDescription, pend, rules, evts, evt :: rest =>
    match evt with
    | .startElement name a m =>
      if isDescName name then
        -- continuation: discard the pending end element, re-enter
        write_loop now all_attributes all_namespaces (.inDescription 1) none rules evts rest
      else
        match pend with
        | some pe =>
          write_loop now all_attributes all_namespaces .skipDescription none []
            (flush_required now rules evts ++ [pe, .startElement name a m]) rest
        | none =>
          write_loop now all_attributes all_namespaces .skipDescription none rules
            (evts ++ [.startElement name a m]) rest
    | _ =>
      match pend with
      | some pe =>
        write_loop now all_attributes all_namespaces .skipDescription none []
          (flush_required now rules evts ++ [pe, evt]) rest
      | none =>
        write_loop now all_attributes all_namespaces .skipDescription none rules
          (evts ++ [evt]) rest
termination_by _ _ _ _ events => events.length
decreasing_by
  all_goals simp_wf
  all_goals first
    | omega
    | exact Nat.lt_succ_of_le (consume_subtree_length_le 1 _)

/-- `XmpData::write_events`: collect namespaces and top-level description
attributes, preprocess attribute-capable rules, then run the state
machine from `Init` with an empty output vector. -/
def write_events (now : String) (events : List XmlEvent) (rules : List RewriteRule) :
    Except WriteError (List XmlEvent) :=
  match process_rules now rules (collect_all_attributes events) with
  | .error e => .error e
  | .ok (attrs, pairs) =>
    .ok (write_loop now attrs (collect_all_namespaces events)
      .init none (rules_of_pairs pairs) [] events)

/-! ### Event classification and step lemmas for `write_loop` -/

def isStartEvt : XmlEvent → Bool
  | .startElement _ _ _ => true
  | _ => false

def isEndEvt : XmlEvent → Bool
  | .endElement _ => true
  | _ => false

/-- The event is an `rdf:Description` start element. -/
def isDescStartB : XmlEvent → Bool
  | .startElement n _ _ => isDescName n
  | _ => false

/-- The event is an `rdf:Description` end element. -/
def isDescEndB : XmlEvent → Bool
  | .endElement n => isDescName n
  | _ => false

/-- The qualified key of a start element event. -/
def startKey? : XmlEvent → Option RuleKey
  | .startElement n _ _ => some (n.ns, n.local_name)
  | _ => none

section StepLemmas

variable (now : String) (A : List OwnedAttribute) (N : NsMap)

theorem wl_nil (st : WState) (pend : Option XmlEvent) (rules : List (RuleKey × RewriteRule))
    (evts : List XmlEvent) :
    write_loop now A N st pend rules evts [] = evts := by
  cases st <;> rw [write_loop]

theorem wl_init_sd (pend rules evts rest) :
    write_loop now A N .init pend rules evts (.startDocument :: rest)
      = write_loop now A N .init pend rules evts rest := by
  rw [write_loop]

theorem wl_init_desc {n : OwnedName} (a m) (h : isDescName n = true) (pend rules evts rest) :
    write_loop now A N .init pend rules evts (.startElement n a m :: rest)
      = write_loop now A N (.inDescription 1) pend rules
          (evts ++ [.startElement n A N]) rest := by
  rw [write_loop]; simp [h]

theorem wl_init_start {n : OwnedName} (a m) (h : isDescName n = false) (pend rules evts rest) :
    write_loop now A N .init pend rules evts (.startElement n a m :: rest)
      = write_loop now A N .init pend rules (evts ++ [.startElement n a m]) rest := by
  rw [write_loop]; simp [h]

theorem wl_init_other (evt : XmlEvent) (hs : isStartEvt evt = false)
    (hsd : evt ≠ .startDocument) (pend rules evts rest) :
    write_loop now A N .init pend rules evts (evt :: rest)
      = write_loop now A N .init pend rules (evts ++ [evt]) rest := by
  cases evt with
  | startDocument => exact absurd rfl hsd
  | startElement n a m => cases hs
  | endDocument => rw [write_loop] <;> simp
  | endElement n => rw [write_loop] <;> simp
  | characters s => rw [write_loop] <;> simp
  | whitespace s => rw [write_loop] <;> simp

theorem wl_indesc_end1 {n : OwnedName} (h : isDescName n = true) (pend rules evts rest) :
    write_loop now A N (.inDescription 1) pend rules evts (.endElement n :: rest)
      = write_loop now A N .skipDescription (some (.endElement n)) rules evts rest := by
  rw [write_loop]; simp [h]

theorem wl_indesc_end_deep {n : OwnedName} (h : isDescName n = true) {level : Nat}
    (hl : level ≠ 1) (pend rules evts rest) :
    write_loop now A N (.inDescription level) pend rules evts (.endElement n :: rest)
      = write_loop now A N (.inDescription (level - 1)) pend rules
          (evts ++ [.endElement n]) rest := by
  rw [write_loop]; simp [h, hl]

theorem wl_indesc_end_nondesc {n : OwnedName} (h : isDescName n = false) (level pend rules evts rest) :
    write_loop now A N (.inDescription level) pend rules evts (.endElement n :: rest)
      = write_loop now A N (.inDescription level) pend rules (evts ++ [.endElement n]) rest := by
  rw [write_loop]; simp [h]

theorem wl_indesc_start_desc {n : OwnedName} (a m) (h : isDescName n = true)
    (level pend rules evts rest) :
    write_loop now A N (.inDescription level) pend rules evts (.startElement n a m :: rest)
      = write_loop now A N (.inDescription (level + 1)) pend rules
          (evts ++ [.startElement n a m]) rest := by
  rw [write_loop]; simp [h]

theorem wl_indesc_start_match {n : OwnedName} (a m) (h : isDescName n = false)
    {rules : List (RuleKey × RewriteRule)} {r : RewriteRule}
    (hlk : rules_lookup rules (n.ns, n.local_name) = some r) (hm : r.matches n = true)
    (pend evts rest) :
    write_loop now A N (.inDescription 1) pend rules evts (.startElement n a m :: rest)
      = write_loop now A N (.inDescription 1) pend
          (rules_erase rules (n.ns, n.local_name))
          (register_rule_ns r evts ++
            rule_run r now (.startElement n a m :: (consume_subtree 1 rest).1))
          (consume_subtree 1 rest).2 := by
  rw [write_loop]; simp [h, hlk, hm]

theorem wl_indesc_start_nolookup {n : OwnedName} (a m) (h : isDescName n = false)
    (rules : List (RuleKey × RewriteRule))
    (hlk : rules_lookup rules (n.ns, n.local_name) = none) (pend evts rest) :
    write_loop now A N (.inDescription 1) pend rules evts (.startElement n a m :: rest)
      = write_loop now A N (.inDescription 1) pend rules
          (evts ++ [.startElement n a m]) rest := by
  rw [write_loop]; simp [h, hlk]

theorem wl_indesc_start_matchfalse {n : OwnedName} (a m) (h : isDescName n = false)
    {rules : List (RuleKey × RewriteRule)} {r : RewriteRule}
    (hlk : rules_lookup rules (n.ns, n.local_name) = some r) (hm : r.matches n = false)
    (pend evts rest) :
    write_loop now A N (.inDescription 1) pend rules evts (.startElement n a m :: rest)
      = write_loop now A N (.inDescription 1) pend rules
          (evts ++ [.startElement n a m]) rest := by
  rw [write_loop]; simp [h, hlk, hm]

theorem wl_indesc_start_deep {n : OwnedName} (a m) (h : isDescName n = false)
    {level : Nat} (hl : level ≠ 1) (pend rules evts rest) :
    write_loop now A N (.inDescription level) pend rules evts (.startElement n a m :: rest)
      = write_loop now A N (.inDescription level) pend rules
          (evts ++ [.startElement n a m]) rest := by
  rw [write_loop]; simp [h, hl]

theorem wl_indesc_other (evt : XmlEvent) (hs : isStartEvt evt = false)
    (he : isEndEvt evt = false) (level pend rules evts rest) :
    write_loop now A N (.inDescription level) pend rules evts (evt :: rest)
      = write_loop now A N (.inDescription level) pend rules (evts ++ [evt]) rest := by
  cases evt with
  | startElement n a m => cases hs
  | endElement n => cases he
  | startDocument => rw [write_loop] <;> simp
  | endDocument => rw [write_loop] <;> simp
  | characters s => rw [write_loop] <;> simp
  | whitespace s => rw [write_loop] <;> simp

theorem wl_skip_desc {n : OwnedName} (a m) (h : isDescName n = true) (pend rules evts rest) :
    write_loop now A N .skipDescription pend rules evts (.startElement n a m :: rest)
      = write_loop now A N (.inDescription 1) none rules evts rest := by
  cases pend <;> (rw [write_loop]; simp [h])

theorem wl_skip_flush (evt : XmlEvent) (hnd : isDescStartB evt = false) (pe rules evts rest) :
    write_loop now A N .skipDescription (some pe) rules evts (evt :: rest)
      = write_loop now A N .skipDescription none []
          (flush_required now rules evts ++ [pe, evt]) rest := by
  cases evt with
  | startElement n a m =>
    rw [write_loop]
    have hn : isDescName n = false := by simpa [isDescStartB] using hnd
    simp [hn]
  | startDocument => rw [write_loop] <;> simp
  | endDocument => rw [write_loop] <;> simp
  | endElement n => rw [write_loop] <;> simp
  | characters s => rw [write_loop] <;> simp
  | whitespace s => rw [write_loop] <;> simp

theorem wl_skip_copy (evt : XmlEvent) (hnd : isDescStartB evt = false) (rules evts rest) :
    write_loop now A N .skipDescription none rules evts (evt :: rest)
      = write_loop now A N .skipDescription none rules (evts ++ [evt]) rest := by
  cases evt with
  | startElement n a m =>
    rw [write_loop]
    have hn : isDescName n = false := by simpa [isDescStartB] using hnd
    simp [hn]
  | startDocument => rw [write_loop] <;> simp
  | endDocument => rw [write_loop] <;> simp
  | endElement n => rw [write_loop] <;> simp
  | characters s => rw [write_loop] <;> simp
  | whitespace s => rw [write_loop] <;> simp

end StepLemmas

/-! ### Well-formed event sequences

`XmpData::parse` obtains its events from the `xml-rs` pull reader, which
yields `StartDocument`, then a balanced forest of elements and text runs,
then `EndDocument`.  `Bal` captures the balanced forests; `Suf` the
suffixes of balanced forests (what remains after cutting a forest at an
element start). -/

/-- Balanced event forests. -/
inductive Bal : List XmlEvent → Prop where
  | nil : Bal []
  | chars (s : String) {rest : List XmlEvent} : Bal rest → Bal (.characters s :: rest)
  | ws (s : String) {rest : List XmlEvent} : Bal rest → Bal (.whitespace s :: rest)
  | node (name : OwnedName) (attrs : List OwnedAttribute) (nsm : NsMap)
      {inner rest : List XmlEvent} : Bal inner → Bal rest →
      Bal (.startElement name attrs nsm :: inner ++ .endElement name :: rest)

/-- Suffixes of balanced forests: a balanced forest, preceded by any
number of blocks "balanced forest, then a closing end element". -/
inductive Suf : List XmlEvent → Prop where
  | base {f : List XmlEvent} : Bal f → Suf f
  | step {f s : List XmlEvent} (n : OwnedName) : Bal f → Suf s →
      Suf (f ++ .endElement n :: s)

theorem Bal.start_split {n : OwnedName} {a : List OwnedAttribute} {m : NsMap}
    {t : List XmlEvent} (h : Bal (.startElement n a m :: t)) :
    ∃ inner rest, t = inner ++ .endElement n :: rest ∧ Bal inner ∧ Bal rest := by
  cases h with
  | node name attrs nsm hi hr => exact ⟨_, _, rfl, hi, hr⟩

theorem Bal.no_doc_mem {l : List XmlEvent} (h : Bal l) :
    ∀ e ∈ l, e ≠ .startDocument ∧ e ≠ .endDocument := by
  induction h with
  | nil => simp
  | chars s h ih =>
    intro e he
    rcases List.mem_cons.mp he with rfl | he
    · exact ⟨by simp, by simp⟩
    · exact ih e he
  | ws s h ih =>
    intro e he
    rcases List.mem_cons.mp he with rfl | he
    · exact ⟨by simp, by simp⟩
    · exact ih e he
  | node name attrs nsm hi hr ihi ihr =>
    intro e he
    rcases List.mem_cons.mp he with rfl | he
    · exact ⟨by simp, by simp⟩
    · rcases List.mem_append.mp he with he | he
      · exact ihi e he
      · rcases List.mem_cons.mp he with rfl | he
        · exact ⟨by simp, by simp⟩
        · exact ihr e he

/-- Appending an end element and a balanced forest to a suffix gives a
suffix. -/
theorem Suf.append_end {t r : List XmlEvent} (n : OwnedName) (ht : Suf t) (hr : Bal r) :
    Suf (t ++ .endElement n :: r) := by
  induction ht with
  | base hf => exact .step n hf (.base hr)
  | step m hf hs ih =>
    rw [List.append_assoc, List.cons_append]
    exact .step m hf ih

theorem Suf.cons_start_aux {l : List XmlEvent} (h : Suf l) :
    ∀ {n : OwnedName} {a : List OwnedAttribute} {m : NsMap} {t : List XmlEvent},
      l = .startElement n a m :: t →
      ∃ inner tail, t = inner ++ .endElement n :: tail ∧ Bal inner ∧ Suf tail := by
  induction h with
  | base hb =>
    intro n a m t heq
    subst heq
    obtain ⟨inner, rest, rfl, hi, hr⟩ := Bal.start_split hb
    exact ⟨inner, rest, rfl, hi, .base hr⟩
  | step nm hf hs ih =>
    rename_i f s
    intro n a m t heq
    rcases f with _ | ⟨f0, f'⟩
    · cases heq
    · rw [List.cons_append] at heq
      injection heq with h1 h2
      subst h1
      obtain ⟨inner, rest, rfl, hi, hr⟩ := Bal.start_split hf
      refine ⟨inner, rest ++ .endElement nm :: s, ?_, hi, .step nm hr hs⟩
      rw [← h2]
      simp [List.append_assoc]

/-- A suffix beginning with a start element contains its matching end:
the part up to it is balanced and the remainder is again a suffix. -/
theorem Suf.cons_start {n : OwnedName} {a : List OwnedAttribute} {m : NsMap}
    {t : List XmlEvent} (h : Suf (.startElement n a m :: t)) :
    ∃ inner tail, t = inner ++ .endElement n :: tail ∧ Bal inner ∧ Suf tail :=
  Suf.cons_start_aux h rfl

/-- No `rdf:Description` start element occurs in the list. -/
def noDescStart (l : List XmlEvent) : Prop := ∀ e ∈ l, isDescStartB e = false

/-- No start element with the given qualified key occurs in the list. -/
def noKeyStart (k : RuleKey) (l : List XmlEvent) : Prop :=
  ∀ e ∈ l, startKey? e ≠ some k

/-- Some `rdf:Description` start element occurs in the list. -/
def containsDescStart (l : List XmlEvent) : Prop := ∃ e ∈ l, isDescStartB e = true

/-- Decomposing a balanced forest at its first `rdf:Description` start
element: what precedes has no description start, the element's content is
balanced, and what follows its end is a suffix. -/
theorem bal_first_desc {body : List XmlEvent} (hb : Bal body)
    (hd : ∃ e ∈ body, isDescStartB e = true) :
    ∃ pre dn da dm inner tail,
      body = pre ++ .startElement dn da dm :: inner ++ .endElement dn :: tail ∧
      noDescStart pre ∧ isDescName dn = true ∧ Bal inner ∧ Suf tail := by
  induction hb with
  | nil => simp at hd
  | chars s h ih =>
    obtain ⟨e, he, hde⟩ := hd
    rcases List.mem_cons.mp he with rfl | he
    · cases hde
    · obtain ⟨pre, dn, da, dm, inner, tail, heq, hpre, hdn, hinner, htail⟩ := ih ⟨e, he, hde⟩
      refine ⟨.characters s :: pre, dn, da, dm, inner, tail, by simp [heq], ?_, hdn, hinner, htail⟩
      intro x hx
      rcases List.mem_cons.mp hx with rfl | hx
      · rfl
      · exact hpre x hx
  | ws s h ih =>
    obtain ⟨e, he, hde⟩ := hd
    rcases List.mem_cons.mp he with rfl | he
    · cases hde
    · obtain ⟨pre, dn, da, dm, inner, tail, heq, hpre, hdn, hinner, htail⟩ := ih ⟨e, he, hde⟩
      refine ⟨.whitespace s :: pre, dn, da, dm, inner, tail, by simp [heq], ?_, hdn, hinner, htail⟩
      intro x hx
      rcases List.mem_cons.mp hx with rfl | hx
      · rfl
      · exact hpre x hx
  | node name attrs nsm hi hr ihi ihr =>
    rename_i inner0 rest0
    by_cases hn : isDescName name = true
    · refine ⟨[], name, attrs, nsm, inner0, rest0, rfl, ?_, hn, hi, .base hr⟩
      intro x hx
      cases hx
    · have hn' : isDescName name = false := by simpa using hn
      by_cases hdi : ∃ e ∈ inner0, isDescStartB e = true
      · obtain ⟨pre1, dn, da, dm, inner1, tail1, heq, hpre1, hdn, hinner1, htail1⟩ := ihi hdi
        refine ⟨.startElement name attrs nsm :: pre1, dn, da, dm, inner1,
          tail1 ++ .endElement name :: rest0, ?_, ?_, hdn, hinner1,
          Suf.append_end name htail1 hr⟩
        · rw [heq]
          simp [List.append_assoc]
        · intro x hx
          rcases List.mem_cons.mp hx with rfl | hx
          · simpa [isDescStartB] using hn'
          · exact hpre1 x hx
      · have hdr : ∃ e ∈ rest0, isDescStartB e = true := by
          obtain ⟨e, he, hde⟩ := hd
          rcases List.mem_cons.mp he with rfl | he
          · simp [isDescStartB, hn'] at hde
          · rcases List.mem_append.mp he with he | he
            · exact absurd ⟨e, he, hde⟩ hdi
            · rcases List.mem_cons.mp he with rfl | he
              · cases hde
              · exact ⟨e, he, hde⟩
        obtain ⟨pre2, dn, da, dm, inner2, tail2, heq, hpre2, hdn, hinner2, htail2⟩ := ihr hdr
        refine ⟨.startElement name attrs nsm :: inner0 ++ .endElement name :: pre2,
          dn, da, dm, inner2, tail2, ?_, ?_, hdn, hinner2, htail2⟩
        · rw [heq]
          simp [List.append_assoc]
        · intro x hx
          rcases List.mem_cons.mp hx with rfl | hx
          · simpa [isDescStartB] using hn'
          · rcases List.mem_append.mp hx with hx | hx
            · by_contra hds
              exact hdi ⟨x, hx, by simpa using hds⟩
            · rcases List.mem_cons.mp hx with rfl | hx
              · rfl
              · exact hpre2 x hx

/-! ### Subtree consumption over balanced forests -/

theorem consume_cons_start (n : OwnedName) (a : List OwnedAttribute) (m : NsMap)
    (L : Nat) (rest : List XmlEvent) :
    consume_subtree L (.startElement n a m :: rest)
      = (.startElement n a m :: (consume_subtree (L + 1) rest).1,
         (consume_subtree (L + 1) rest).2) := rfl

theorem consume_cons_end {L : Nat} (hL : 2 ≤ L) (n : OwnedName) (rest : List XmlEvent) :
    consume_subtree L (.endElement n :: rest)
      = (.endElement n :: (consume_subtree (L - 1) rest).1,
         (consume_subtree (L - 1) rest).2) := by
  simp only [consume_subtree]
  rw [if_neg (by omega)]

theorem consume_cons_end1 (n : OwnedName) (rest : List XmlEvent) :
    consume_subtree 1 (.endElement n :: rest) = ([.endElement n], rest) := by
  simp [consume_subtree]

theorem consume_cons_flat {e : XmlEvent} (hs : isStartEvt e = false)
    (he : isEndEvt e = false) {L : Nat} (hL : 1 ≤ L) (rest : List XmlEvent) :
    consume_subtree L (e :: rest)
      = (e :: (consume_subtree L rest).1, (consume_subtree L rest).2) := by
  cases e with
  | startElement n a m => cases hs
  | endElement n => cases he
  | startDocument =>
    simp only [consume_subtree]
    rw [if_neg (by omega)]
  | endDocument =>
    simp only [consume_subtree]
    rw [if_neg (by omega)]
  | characters s =>
    simp only [consume_subtree]
    rw [if_neg (by omega)]
  | whitespace s =>
    simp only [consume_subtree]
    rw [if_neg (by omega)]

/-- Walking a balanced forest never brings the depth counter to zero:
consumption passes over it and continues. -/
theorem consume_subtree_bal {inner : List XmlEvent} (h : Bal inner) :
    ∀ L rest, 1 ≤ L →
      consume_subtree L (inner ++ rest)
        = (inner ++ (consume_subtree L rest).1, (consume_subtree L rest).2) := by
  induction h with
  | nil => simp
  | chars s h ih =>
    intro L rest hL
    rw [List.cons_append, consume_cons_flat (e := .characters s) rfl rfl hL, ih L rest hL]
    simp
  | ws s h ih =>
    intro L rest hL
    rw [List.cons_append, consume_cons_flat (e := .whitespace s) rfl rfl hL, ih L rest hL]
    simp
  | node name attrs nsm hi hr ihi ihr =>
    intro L rest hL
    simp only [List.cons_append, List.append_assoc]
    rw [consume_cons_start, ihi (L + 1) _ (by omega)]
    rw [consume_cons_end (by omega)]
    have hL1 : L + 1 - 1 = L := by omega
    rw [hL1, ihr L rest hL]

/-- Consuming from depth 1 at the start of `inner ++ end :: tail` with
`inner` balanced consumes exactly `inner ++ [end]`. -/
theorem consume_subtree_exact {inner : List XmlEvent} (h : Bal inner)
    (n : OwnedName) (tail : List XmlEvent) :
    consume_subtree 1 (inner ++ .endElement n :: tail)
      = (inner ++ [.endElement n], tail) := by
  rw [consume_subtree_bal h 1 _ (by omega), consume_cons_end1]

/-! ### Register / rules-map / output-growth lemmas -/

theorem containsDescStart_append_left {a : List XmlEvent} (b : List XmlEvent)
    (h : containsDescStart a) : containsDescStart (a ++ b) := by
  obtain ⟨e, he, hd⟩ := h
  exact ⟨e, List.mem_append_left _ he, hd⟩

theorem register_go_split (p u : String) {a : List XmlEvent} :
    ∀ (b : List XmlEvent), containsDescStart a →
      register_go p u (a ++ b) = register_go p u a ++ b := by
  induction a with
  | nil =>
    intro b h
    obtain ⟨e, he, -⟩ := h
    cases he
  | cons e a' ih =>
    intro b h
    cases e with
    | startElement n aa mm =>
      by_cases hn : isDescName n = true
      · simp [register_go, hn]
      · have hn' : isDescName n = false := by simpa using hn
        have h' : containsDescStart a' := by
          obtain ⟨x, hx, hdx⟩ := h
          rcases List.mem_cons.mp hx with rfl | hx
          · simp [isDescStartB, hn'] at hdx
          · exact ⟨x, hx, hdx⟩
        simp [register_go, hn', ih b h']
    | startDocument =>
      have h' : containsDescStart a' := by
        obtain ⟨x, hx, hdx⟩ := h
        rcases List.mem_cons.mp hx with rfl | hx
        · cases hdx
        · exact ⟨x, hx, hdx⟩
      simp [register_go, ih b h']
    | endDocument =>
      have h' : containsDescStart a' := by
        obtain ⟨x, hx, hdx⟩ := h
        rcases List.mem_cons.mp hx with rfl | hx
        · cases hdx
        · exact ⟨x, hx, hdx⟩
      simp [register_go, ih b h']
    | endElement n =>
      have h' : containsDescStart a' := by
        obtain ⟨x, hx, hdx⟩ := h
        rcases List.mem_cons.mp hx with rfl | hx
        · cases hdx
        · exact ⟨x, hx, hdx⟩
      simp [register_go, ih b h']
    | characters s =>
      have h' : containsDescStart a' := by
        obtain ⟨x, hx, hdx⟩ := h
        rcases List.mem_cons.mp hx with rfl | hx
        · cases hdx
        · exact ⟨x, hx, hdx⟩
      simp [register_go, ih b h']
    | whitespace s =>
      have h' : containsDescStart a' := by
        obtain ⟨x, hx, hdx⟩ := h
        rcases List.mem_cons.mp hx with rfl | hx
        · cases hdx
        · exact ⟨x, hx, hdx⟩
      simp [register_go, ih b h']

theorem register_go_contains (p u : String) {a : List XmlEvent}
    (h : containsDescStart a) : containsDescStart (register_go p u a) := by
  induction a with
  | nil =>
    obtain ⟨e, he, -⟩ := h
    cases he
  | cons e a' ih =>
    cases e with
    | startElement n aa mm =>
      by_cases hn : isDescName n = true
      · refine ⟨.startElement n aa (ns_put mm p u), ?_, by simpa [isDescStartB] using hn⟩
        simp [register_go, hn]
      · have hn' : isDescName n = false := by simpa using hn
        have h' : containsDescStart a' := by
          obtain ⟨x, hx, hdx⟩ := h
          rcases List.mem_cons.mp hx with rfl | hx
          · simp [isDescStartB, hn'] at hdx
          · exact ⟨x, hx, hdx⟩
        obtain ⟨x, hx, hdx⟩ := ih h'
        exact ⟨x, by simp [register_go, hn', List.mem_cons]; right; exact hx, hdx⟩
    | startDocument =>
      have h' : containsDescStart a' := by
        obtain ⟨x, hx, hdx⟩ := h
        rcases List.mem_cons.mp hx with rfl | hx
        · cases hdx
        · exact ⟨x, hx, hdx⟩
      obtain ⟨x, hx, hdx⟩ := ih h'
      exact ⟨x, by simp [register_go, List.mem_cons]; right; exact hx, hdx⟩
    | endDocument =>
      have h' : containsDescStart a' := by
        obtain ⟨x, hx, hdx⟩ := h
        rcases List.mem_cons.mp hx with rfl | hx
        · cases hdx
        · exact ⟨x, hx, hdx⟩
      obtain ⟨x, hx, hdx⟩ := ih h'
      exact ⟨x, by simp [register_go, List.mem_cons]; right; exact hx, hdx⟩
    | endElement n =>
      have h' : containsDescStart a' := by
        obtain ⟨x, hx, hdx⟩ := h
        rcases List.mem_cons.mp hx with rfl | hx
        · cases hdx
        · exact ⟨x, hx, hdx⟩
      obtain ⟨x, hx, hdx⟩ := ih h'
      exact ⟨x, by simp [register_go, List.mem_cons]; right; exact hx, hdx⟩
    | characters s =>
      have h' : containsDescStart a' := by
        obtain ⟨x, hx, hdx⟩ := h
        rcases List.mem_cons.mp hx with rfl | hx
        · cases hdx
        · exact ⟨x, hx, hdx⟩
      obtain ⟨x, hx, hdx⟩ := ih h'
      exact ⟨x, by simp [register_go, List.mem_cons]; right; exact hx, hdx⟩
    | whitespace s =>
      have h' : containsDescStart a' := by
        obtain ⟨x, hx, hdx⟩ := h
        rcases List.mem_cons.mp hx with rfl | hx
        · cases hdx
        · exact ⟨x, hx, hdx⟩
      obtain ⟨x, hx, hdx⟩ := ih h'
      exact ⟨x, by simp [register_go, List.mem_cons]; right; exact hx, hdx⟩

theorem register_rule_ns_split (r : RewriteRule) {a : List XmlEvent} (b : List XmlEvent)
    (h : containsDescStart a) :
    register_rule_ns r (a ++ b) = register_rule_ns r a ++ b := by
  unfold register_rule_ns
  cases r.node_namespace with
  | none => rfl
  | some u => exact register_go_split _ u b h

theorem register_rule_ns_contains (r : RewriteRule) {a : List XmlEvent}
    (h : containsDescStart a) : containsDescStart (register_rule_ns r a) := by
  unfold register_rule_ns
  cases r.node_namespace with
  | none => exact h
  | some u => exact register_go_contains _ u h

theorem rules_erase_lookup_ne {M : List (RuleKey × RewriteRule)} {k k' : RuleKey}
    (h : k' ≠ k) : rules_lookup (rules_erase M k') k = rules_lookup M k := by
  induction M with
  | nil => rfl
  | cons e M' ih =>
    by_cases he : e.1 = k'
    · have hek : ¬ (e.1 = k) := by rw [he]; exact h
      simp only [rules_erase, List.filter_cons]
      rw [if_neg (by simp [he])]
      rw [show rules_lookup (e :: M') k = rules_lookup M' k by
        simp [rules_lookup, hek]]
      exact ih
    · simp only [rules_erase, List.filter_cons]
      rw [if_pos (by simp [he])]
      by_cases hk : e.1 = k
      · simp [rules_lookup, hk]
      · simp only [rules_lookup, if_neg hk]
        exact ih

/-- With an empty rules map the loop only appends to the output vector. -/
theorem write_loop_append_only (now : String) (A : List OwnedAttribute) (N : NsMap) :
    ∀ (events : List XmlEvent) (st : WState) (pend : Option XmlEvent)
      (evts : List XmlEvent),
      ∃ d, write_loop now A N st pend [] evts events = evts ++ d := by
  intro events
  induction events with
  | nil =>
    intro st pend evts
    exact ⟨[], by rw [wl_nil]; simp⟩
  | cons e rest ih =>
    intro st pend evts
    cases st with
    | init =>
      cases e with
      | startDocument =>
        rw [wl_init_sd]
        exact ih .init pend evts
      | startElement n a m =>
        by_cases hn : isDescName n = true
        · rw [wl_init_desc now A N a m hn]
          obtain ⟨d, hd⟩ := ih (.inDescription 1) pend (evts ++ [.startElement n A N])
          exact ⟨_, by rw [hd, List.append_assoc]⟩
        · rw [wl_init_start now A N a m (by simpa using hn)]
          obtain ⟨d, hd⟩ := ih .init pend (evts ++ [.startElement n a m])
          exact ⟨_, by rw [hd, List.append_assoc]⟩
      | endDocument =>
        rw [wl_init_other now A N (XmlEvent.endDocument) rfl (by simp)]
        obtain ⟨d, hd⟩ := ih .init pend (evts ++ [.endDocument])
        exact ⟨_, by rw [hd, List.append_assoc]⟩
      | endElement n =>
        rw [wl_init_other now A N (XmlEvent.endElement n) rfl (by simp)]
        obtain ⟨d, hd⟩ := ih .init pend (evts ++ [.endElement n])
        exact ⟨_, by rw [hd, List.append_assoc]⟩
      | characters s =>
        rw [wl_init_other now A N (XmlEvent.characters s) rfl (by simp)]
        obtain ⟨d, hd⟩ := ih .init pend (evts ++ [.characters s])
        exact ⟨_, by rw [hd, List.append_assoc]⟩
      | whitespace s =>
        rw [wl_init_other now A N (XmlEvent.whitespace s) rfl (by simp)]
        obtain ⟨d, hd⟩ := ih .init pend (evts ++ [.whitespace s])
        exact ⟨_, by rw [hd, List.append_assoc]⟩
    | inDescription L =>
      cases e with
      | endElement n =>
        by_cases hn : isDescName n = true
        · by_cases hL : L = 1
          · subst hL
            rw [wl_indesc_end1 now A N hn]
            exact ih .skipDescription (some (.endElement n)) evts
          · rw [wl_indesc_end_deep now A N hn hL]
            obtain ⟨d, hd⟩ := ih (.inDescription (L - 1)) pend (evts ++ [.endElement n])
            exact ⟨_, by rw [hd, List.append_assoc]⟩
        · rw [wl_indesc_end_nondesc now A N (by simpa using hn)]
          obtain ⟨d, hd⟩ := ih (.inDescription L) pend (evts ++ [.endElement n])
          exact ⟨_, by rw [hd, List.append_assoc]⟩
      | startElement n a m =>
        by_cases hn : isDescName n = true
        · rw [wl_indesc_start_desc now A N a m hn]
          obtain ⟨d, hd⟩ := ih (.inDescription (L + 1)) pend (evts ++ [.startElement n a m])
          exact ⟨_, by rw [hd, List.append_assoc]⟩
        · by_cases hL : L = 1
          · subst hL
            rw [wl_indesc_start_nolookup now A N a m (by simpa using hn) [] rfl]
            obtain ⟨d, hd⟩ := ih (.inDescription 1) pend (evts ++ [.startElement n a m])
            exact ⟨_, by rw [hd, List.append_assoc]⟩
          · rw [wl_indesc_start_deep now A N a m (by simpa using hn) hL]
            obtain ⟨d, hd⟩ := ih (.inDescription L) pend (evts ++ [.startElement n a m])
            exact ⟨_, by rw [hd, List.append_assoc]⟩
      | startDocument =>
        rw [wl_indesc_other now A N (XmlEvent.startDocument) rfl rfl]
        obtain ⟨d, hd⟩ := ih (.inDescription L) pend (evts ++ [.startDocument])
        exact ⟨_, by rw [hd, List.append_assoc]⟩
      | endDocument =>
        rw [wl_indesc_other now A N (XmlEvent.endDocument) rfl rfl]
        obtain ⟨d, hd⟩ := ih (.inDescription L) pend (evts ++ [.endDocument])
        exact ⟨_, by rw [hd, List.append_assoc]⟩
      | characters s =>
        rw [wl_indesc_other now A N (XmlEvent.characters s) rfl rfl]
        obtain ⟨d, hd⟩ := ih (.inDescription L) pend (evts ++ [.characters s])
        exact ⟨_, by rw [hd, List.append_assoc]⟩
      | whitespace s =>
        rw [wl_indesc_other now A N (XmlEvent.whitespace s) rfl rfl]
        obtain ⟨d, hd⟩ := ih (.inDescription L) pend (evts ++ [.whitespace s])
        exact ⟨_, by rw [hd, List.append_assoc]⟩
    | skipDescription =>
      have hflush : ∀ evts0, flush_required now [] evts0 = evts0 := fun _ => rfl
      cases pend with
      | some pe =>
        cases e with
        | startElement n a m =>
          by_cases hn : isDescName n = true
          · rw [wl_skip_desc now A N a m hn]
            exact ih (.inDescription 1) none evts
          · rw [wl_skip_flush now A N (.startElement n a m) (by simp [isDescStartB]; simpa using hn)]
            rw [hflush]
            obtain ⟨d, hd⟩ := ih .skipDescription none (evts ++ [pe, .startElement n a m])
            exact ⟨_, by rw [hd, List.append_assoc]⟩
        | startDocument =>
          rw [wl_skip_flush now A N (XmlEvent.startDocument) rfl, hflush]
          obtain ⟨d, hd⟩ := ih .skipDescription none (evts ++ [pe, .startDocument])
          exact ⟨_, by rw [hd, List.append_assoc]⟩
        | endDocument =>
          rw [wl_skip_flush now A N (XmlEvent.endDocument) rfl, hflush]
          obtain ⟨d, hd⟩ := ih .skipDescription none (evts ++ [pe, .endDocument])
          exact ⟨_, by rw [hd, List.append_assoc]⟩
        | endElement n =>
          rw [wl_skip_flush now A N (XmlEvent.endElement n) rfl, hflush]
          obtain ⟨d, hd⟩ := ih .skipDescription none (evts ++ [pe, .endElement n])
          exact ⟨_, by rw [hd, List.append_assoc]⟩
        | characters s =>
          rw [wl_skip_flush now A N (XmlEvent.characters s) rfl, hflush]
          obtain ⟨d, hd⟩ := ih .skipDescription none (evts ++ [pe, .characters s])
          exact ⟨_, by rw [hd, List.append_assoc]⟩
        | whitespace s =>
          rw [wl_skip_flush now A N (XmlEvent.whitespace s) rfl, hflush]
          obtain ⟨d, hd⟩ := ih .skipDescription none (evts ++ [pe, .whitespace s])
          exact ⟨_, by rw [hd, List.append_assoc]⟩
      | none =>
        cases e with
        | startElement n a m =>
          by_cases hn : isDescName n = true
          · rw [wl_skip_desc now A N a m hn]
            exact ih (.inDescription 1) none evts
          · rw [wl_skip_copy now A N (.startElement n a m) (by simp [isDescStartB]; simpa using hn)]
            obtain ⟨d, hd⟩ := ih .skipDescription none (evts ++ [.startElement n a m])
            exact ⟨_, by rw [hd, List.append_assoc]⟩
        | startDocument =>
          rw [wl_skip_copy now A N (XmlEvent.startDocument) rfl]
          obtain ⟨d, hd⟩ := ih .skipDescription none (evts ++ [.startDocument])
          exact ⟨_, by rw [hd, List.append_assoc]⟩
        | endDocument =>
          rw [wl_skip_copy now A N (XmlEvent.endDocument) rfl]
          obtain ⟨d, hd⟩ := ih .skipDescription none (evts ++ [.endDocument])
          exact ⟨_, by rw [hd, List.append_assoc]⟩
        | endElement n =>
          rw [wl_skip_copy now A N (XmlEvent.endElement n) rfl]
          obtain ⟨d, hd⟩ := ih .skipDescription none (evts ++ [.endElement n])
          exact ⟨_, by rw [hd, List.append_assoc]⟩
        | characters s =>
          rw [wl_skip_copy now A N (XmlEvent.characters s) rfl]
          obtain ⟨d, hd⟩ := ih .skipDescription none (evts ++ [.characters s])
          exact ⟨_, by rw [hd, List.append_assoc]⟩
        | whitespace s =>
          rw [wl_skip_copy now A N (XmlEvent.whitespace s) rfl]
          obtain ⟨d, hd⟩ := ih .skipDescription none (evts ++ [.whitespace s])
          exact ⟨_, by rw [hd, List.append_assoc]⟩

theorem noKeyStart_of_cons {k : RuleKey} {e : XmlEvent} {l : List XmlEvent}
    (h : noKeyStart k (e :: l)) : noKeyStart k l :=
  fun x hx => h x (List.mem_cons_of_mem _ hx)

/-- Walking a balanced forest from inside a description: the machine
comes back to the same `inDescription` level with the same pending end
element; rules whose key never starts an element of the forest survive in
the map, and the output still contains a description start if it did. -/
theorem walk_indesc (now : String) (A : List OwnedAttribute) (N : NsMap)
    {inner : List XmlEvent} (hb : Bal inner) :
    ∀ (L : Nat) (pend : Option XmlEvent) (M : List (RuleKey × RewriteRule))
      (evts rest : List XmlEvent), 1 ≤ L →
    ∃ M' evts',
      write_loop now A N (.inDescription L) pend M evts (inner ++ rest)
        = write_loop now A N (.inDescription L) pend M' evts' rest ∧
      (∀ k r, rules_lookup M k = some r → noKeyStart k inner → rules_lookup M' k = some r) ∧
      (containsDescStart evts → containsDescStart evts') := by
  induction hb with
  | nil =>
    intro L pend M evts rest hL
    exact ⟨M, evts, by simp, fun k r hk _ => hk, fun h => h⟩
  | chars s h ih =>
    intro L pend M evts rest hL
    rw [List.cons_append, wl_indesc_other now A N (.characters s) rfl rfl]
    obtain ⟨M', evts', heq, hp, hc⟩ := ih L pend M (evts ++ [.characters s]) rest hL
    exact ⟨M', evts', heq, fun k r hk hnk => hp k r hk (noKeyStart_of_cons hnk),
      fun hcd => hc (containsDescStart_append_left _ hcd)⟩
  | ws s h ih =>
    intro L pend M evts rest hL
    rw [List.cons_append, wl_indesc_other now A N (.whitespace s) rfl rfl]
    obtain ⟨M', evts', heq, hp, hc⟩ := ih L pend M (evts ++ [.whitespace s]) rest hL
    exact ⟨M', evts', heq, fun k r hk hnk => hp k r hk (noKeyStart_of_cons hnk),
      fun hcd => hc (containsDescStart_append_left _ hcd)⟩
  | node name attrs nsm hi hr ihi ihr =>
    rename_i inner1 rest1
    intro L pend M evts rest hL
    simp only [List.cons_append, List.append_assoc]
    have hnk_inner1 : ∀ k, noKeyStart k
        (.startElement name attrs nsm :: inner1 ++ .endElement name :: rest1) →
        noKeyStart k inner1 := fun k hnk e he =>
      hnk e (List.mem_cons_of_mem _ (List.mem_append_left _ he))
    have hnk_rest1 : ∀ k, noKeyStart k
        (.startElement name attrs nsm :: inner1 ++ .endElement name :: rest1) →
        noKeyStart k rest1 := fun k hnk e he =>
      hnk e (List.mem_cons_of_mem _ (List.mem_append_right _ (List.mem_cons_of_mem _ he)))
    by_cases hn : isDescName name = true
    · rw [wl_indesc_start_desc now A N attrs nsm hn]
      obtain ⟨M1, evts1, heq1, hp1, hc1⟩ :=
        ihi (L + 1) pend M (evts ++ [.startElement name attrs nsm])
          (.endElement name :: (rest1 ++ rest)) (by omega)
      rw [heq1, wl_indesc_end_deep now A N hn (by omega : L + 1 ≠ 1)]
      have hL1 : L + 1 - 1 = L := by omega
      rw [hL1]
      obtain ⟨M2, evts2, heq2, hp2, hc2⟩ :=
        ihr L pend M1 (evts1 ++ [.endElement name]) rest hL
      rw [heq2]
      refine ⟨M2, evts2, rfl, ?_, ?_⟩
      · intro k r hk hnk
        exact hp2 k r (hp1 k r hk (hnk_inner1 k hnk)) (hnk_rest1 k hnk)
      · intro hcd
        exact hc2 (containsDescStart_append_left _
          (hc1 (containsDescStart_append_left _ hcd)))
    · have hn' : isDescName name = false := by simpa using hn
      by_cases hL1 : L = 1
      · subst hL1
        cases hlk : rules_lookup M (name.ns, name.local_name) with
        | none =>
          rw [wl_indesc_start_nolookup now A N attrs nsm hn' M hlk]
          obtain ⟨M1, evts1, heq1, hp1, hc1⟩ :=
            ihi 1 pend M (evts ++ [.startElement name attrs nsm])
              (.endElement name :: (rest1 ++ rest)) (by omega)
          rw [heq1, wl_indesc_end_nondesc now A N hn']
          obtain ⟨M2, evts2, heq2, hp2, hc2⟩ :=
            ihr 1 pend M1 (evts1 ++ [.endElement name]) rest (by omega)
          rw [heq2]
          refine ⟨M2, evts2, rfl, ?_, ?_⟩
          · intro k r hk hnk
            exact hp2 k r (hp1 k r hk (hnk_inner1 k hnk)) (hnk_rest1 k hnk)
          · intro hcd
            exact hc2 (containsDescStart_append_left _
              (hc1 (containsDescStart_append_left _ hcd)))
        | some r0 =>
          by_cases hm : r0.matches name = true
          · rw [wl_indesc_start_match now A N attrs nsm hn' hlk hm]
            rw [consume_subtree_exact hi name (rest1 ++ rest)]
            obtain ⟨M2, evts2, heq2, hp2, hc2⟩ :=
              ihr 1 pend (rules_erase M (name.ns, name.local_name))
                (register_rule_ns r0 evts ++
                  rule_run r0 now (.startElement name attrs nsm ::
                    (inner1 ++ [.endElement name]))) rest (by omega)
            rw [heq2]
            refine ⟨M2, evts2, rfl, ?_, ?_⟩
            · intro k r hk hnk
              have hkne : (name.ns, name.local_name) ≠ k := by
                have := hnk (.startElement name attrs nsm) (List.mem_cons_self _ _)
                simpa [startKey?] using this
              refine hp2 k r ?_ (hnk_rest1 k hnk)
              rw [rules_erase_lookup_ne hkne]
              exact hk
            · intro hcd
              exact hc2 (containsDescStart_append_left _
                (register_rule_ns_contains r0 hcd))
          · rw [wl_indesc_start_matchfalse now A N attrs nsm hn' hlk (by simpa using hm)]
            obtain ⟨M1, evts1, heq1, hp1, hc1⟩ :=
              ihi 1 pend M (evts ++ [.startElement name attrs nsm])
                (.endElement name :: (rest1 ++ rest)) (by omega)
            rw [heq1, wl_indesc_end_nondesc now A N hn']
            obtain ⟨M2, evts2, heq2, hp2, hc2⟩ :=
              ihr 1 pend M1 (evts1 ++ [.endElement name]) rest (by omega)
            rw [heq2]
            refine ⟨M2, evts2, rfl, ?_, ?_⟩
            · intro k r hk hnk
              exact hp2 k r (hp1 k r hk (hnk_inner1 k hnk)) (hnk_rest1 k hnk)
            · intro hcd
              exact hc2 (containsDescStart_append_left _
                (hc1 (containsDescStart_append_left _ hcd)))
      · rw [wl_indesc_start_deep now A N attrs nsm hn' hL1]
        obtain ⟨M1, evts1, heq1, hp1, hc1⟩ :=
          ihi L pend M (evts ++ [.startElement name attrs nsm])
            (.endElement name :: (rest1 ++ rest)) hL
        rw [heq1, wl_indesc_end_nondesc now A N hn']
        obtain ⟨M2, evts2, heq2, hp2, hc2⟩ :=
          ihr L pend M1 (evts1 ++ [.endElement name]) rest hL
        rw [heq2]
        refine ⟨M2, evts2, rfl, ?_, ?_⟩
        · intro k r hk hnk
          exact hp2 k r (hp1 k r hk (hnk_inner1 k hnk)) (hnk_rest1 k hnk)
        · intro hcd
          exact hc2 (containsDescStart_append_left _
            (hc1 (containsDescStart_append_left _ hcd)))

/-! ### The required-rule flush -/

/-- The events appended by the flush, in drain order. -/
def flush_seg (now : String) : List (RuleKey × RewriteRule) → List XmlEvent
  | [] => []
  | (_, r) :: rest => (if r.required then rule_run r now [] else []) ++ flush_seg now rest

/-- The interleaved `register_rule_namespace` calls of the flush only
mutate the first description start, which lies in the already-accumulated
part; the flush therefore factors as "mutated accumulator ++ flush
segment". -/
theorem flush_required_shape (now : String) :
    ∀ (M : List (RuleKey × RewriteRule)) (a b : List XmlEvent), containsDescStart a →
      ∃ a', flush_required now M (a ++ b) = a' ++ b ++ flush_seg now M ∧
        containsDescStart a' := by
  intro M
  induction M with
  | nil =>
    intro a b h
    exact ⟨a, by simp [flush_required, flush_seg], h⟩
  | cons e rest ih =>
    obtain ⟨ek, er⟩ := e
    intro a b h
    by_cases hreq : er.required = true
    · have : flush_required now ((ek, er) :: rest) (a ++ b)
          = flush_required now rest
              (register_rule_ns er a ++ (b ++ rule_run er now [])) := by
        simp only [flush_required, hreq, if_true]
        rw [register_rule_ns_split er b h, List.append_assoc]
      rw [this]
      obtain ⟨a', ha, hc⟩ := ih (register_rule_ns er a) (b ++ rule_run er now [])
        (register_rule_ns_contains er h)
      refine ⟨a', ?_, hc⟩
      rw [ha]
      simp [flush_seg, hreq, List.append_assoc]
    · have hreq' : er.required = false := by simpa using hreq
      have : flush_required now ((ek, er) :: rest) (a ++ b)
          = flush_required now rest (a ++ b) := by
        simp [flush_required, hreq']
      rw [this]
      obtain ⟨a', ha, hc⟩ := ih a b h
      refine ⟨a', ?_, hc⟩
      rw [ha]
      simp [flush_seg, hreq']

theorem flush_required_decomp (now : String) {M : List (RuleKey × RewriteRule)}
    {a : List XmlEvent} (h : containsDescStart a) :
    ∃ a', flush_required now M a = a' ++ flush_seg now M ∧ containsDescStart a' := by
  obtain ⟨a', ha, hc⟩ := flush_required_shape now M a [] h
  rw [List.append_nil] at ha
  rw [List.append_assoc] at ha
  exact ⟨a', by rw [ha]; simp, hc⟩

theorem rules_lookup_mem : ∀ {M : List (RuleKey × RewriteRule)} {k : RuleKey}
    {r : RewriteRule}, rules_lookup M k = some r → (k, r) ∈ M := by
  intro M
  induction M with
  | nil => intro k r h; cases h
  | cons e rest ih =>
    intro k r h
    obtain ⟨ek, er⟩ := e
    by_cases hk : ek = k
    · subst hk
      rw [show rules_lookup ((ek, er) :: rest) ek = some er from by simp [rules_lookup]] at h
      injection h with h'
      subst h'
      exact List.mem_cons_self _ _
    · simp only [rules_lookup, if_neg hk] at h
      exact List.mem_cons_of_mem _ (ih h)

theorem flush_seg_mem (now : String) : ∀ {M : List (RuleKey × RewriteRule)}
    {k : RuleKey} {r : RewriteRule}, (k, r) ∈ M → r.required = true →
    ∃ X Mt, flush_seg now M = X ++ rule_run r now [] ++ flush_seg now Mt := by
  intro M
  induction M with
  | nil => intro k r h; cases h
  | cons e rest ih =>
    intro k r h hreq
    rcases List.mem_cons.mp h with heq | h'
    · obtain ⟨ek, er⟩ := e
      injection heq with h1 h2
      subst h2
      refine ⟨[], rest, ?_⟩
      simp [flush_seg, hreq]
    · obtain ⟨X, Mt, hseg⟩ := ih h' hreq
      obtain ⟨ek, er⟩ := e
      refine ⟨(if er.required then rule_run er now [] else []) ++ X, Mt, ?_⟩
      simp [flush_seg, hseg, List.append_assoc]

/-- A non-description-start event while a description end is pending:
the flush fires, and the rule's rendering lands (inside the flush
segment) immediately before the pending description end element. -/
theorem walk_skip_terminal (now : String) (A : List OwnedAttribute) (N : NsMap)
    (ev : XmlEvent) (hnd : isDescStartB ev = false)
    {M : List (RuleKey × RewriteRule)} {evts : List XmlEvent} {k : RuleKey}
    {r : RewriteRule} (hcd : containsDescStart evts)
    (hk : rules_lookup M k = some r) (hreq : r.required = true)
    (dn : OwnedName) (tl : List XmlEvent) :
    ∃ P Mt C,
      write_loop now A N .skipDescription (some (.endElement dn)) M evts (ev :: tl)
        = P ++ rule_run r now [] ++ flush_seg now Mt ++ .endElement dn :: C := by
  rw [wl_skip_flush now A N ev hnd]
  obtain ⟨d, hd⟩ := write_loop_append_only now A N tl .skipDescription none
    (flush_required now M evts ++ [.endElement dn, ev])
  rw [hd]
  obtain ⟨a', ha, -⟩ := flush_required_decomp now (M := M) hcd
  rw [ha]
  obtain ⟨X, Mt, hseg⟩ := flush_seg_mem now (rules_lookup_mem hk) hreq
  rw [hseg]
  refine ⟨a' ++ X, Mt, ev :: d, ?_⟩
  simp [List.append_assoc]

/-- The skip-state walk: while a description end element is pending, a
required rule still in the map is eventually flushed immediately before a
description end element — also across description continuations. -/
theorem walk_skip (now : String) (A : List OwnedAttribute) (N : NsMap) :
    ∀ (fuel : Nat) (S : List XmlEvent), S.length ≤ fuel → Suf S →
    ∀ (dn : OwnedName) (M : List (RuleKey × RewriteRule)) (evts : List XmlEvent)
      (k : RuleKey) (r : RewriteRule),
      isDescName dn = true → containsDescStart evts →
      rules_lookup M k = some r → r.required = true → noKeyStart k S →
      ∃ P Mt C dn', isDescName dn' = true ∧
        write_loop now A N .skipDescription (some (.endElement dn)) M evts
          (S ++ [.endDocument])
          = P ++ rule_run r now [] ++ flush_seg now Mt ++ .endElement dn' :: C := by
  intro fuel
  induction fuel with
  | zero =>
    intro S hS hsuf dn M evts k r hdn hcd hk hreq hnk
    have : S = [] := List.eq_nil_of_length_eq_zero (by omega)
    subst this
    obtain ⟨P, Mt, C, hres⟩ :=
      walk_skip_terminal now A N .endDocument rfl hcd hk hreq dn []
    exact ⟨P, Mt, C, dn, hdn, hres⟩
  | succ fuel ih =>
    intro S hS hsuf dn M evts k r hdn hcd hk hreq hnk
    rcases S with _ | ⟨e, S'⟩
    · obtain ⟨P, Mt, C, hres⟩ :=
        walk_skip_terminal now A N .endDocument rfl hcd hk hreq dn []
      exact ⟨P, Mt, C, dn, hdn, hres⟩
    · by_cases hds : isDescStartB e = true
      · rcases e with _ | _ | ⟨n, a, m⟩ | n | s | s
        · cases hds
        · cases hds
        · have hn : isDescName n = true := by simpa [isDescStartB] using hds
          obtain ⟨inner, tail, heq, hbal, hsuf'⟩ := Suf.cons_start hsuf
          subst heq
          rw [List.cons_append, wl_skip_desc now A N a m hn]
          simp only [List.append_assoc, List.cons_append]
          obtain ⟨M1, evts1, heq1, hp1, hc1⟩ :=
            walk_indesc now A N hbal 1 none M evts
              (.endElement n :: (tail ++ [.endDocument])) (le_refl 1)
          rw [heq1, wl_indesc_end1 now A N hn]
          have hnk_inner : noKeyStart k inner := fun x hx =>
            hnk x (List.mem_cons_of_mem _ (List.mem_append_left _ hx))
          have hnk_tail : noKeyStart k tail := fun x hx =>
            hnk x (List.mem_cons_of_mem _
              (List.mem_append_right _ (List.mem_cons_of_mem _ hx)))
          have hlen : tail.length ≤ fuel := by
            have := congrArg List.length
              (rfl : inner ++ XmlEvent.endElement n :: tail
                = inner ++ XmlEvent.endElement n :: tail)
            simp only [List.length_cons] at hS
            have h2 : (inner ++ XmlEvent.endElement n :: tail).length
                = inner.length + (tail.length + 1) := by simp
            omega
          obtain ⟨P, Mt, C, dn', hdn', hres⟩ := ih tail hlen hsuf' n M1 evts1 k r hn
            (hc1 hcd) (hp1 k r hk hnk_inner) hreq hnk_tail
          exact ⟨P, Mt, C, dn', hdn', by rw [hres]; simp [List.append_assoc]⟩
        · cases hds
        · cases hds
        · cases hds
      · rw [List.cons_append]
        obtain ⟨P, Mt, C, hres⟩ :=
          walk_skip_terminal now A N e (by simpa using hds) hcd hk hreq dn
            (S' ++ [.endDocument])
        exact ⟨P, Mt, C, dn, hdn, hres⟩

/-- The initial copy phase: events before the first description start are
copied verbatim (document starts, absent here, would be skipped). -/
theorem write_loop_init_copy (now : String) (A : List OwnedAttribute) (N : NsMap) :
    ∀ (pre : List XmlEvent) (pend : Option XmlEvent)
      (M : List (RuleKey × RewriteRule)) (evts rest : List XmlEvent),
      noDescStart pre → (∀ e ∈ pre, e ≠ .startDocument) →
      write_loop now A N .init pend M evts (pre ++ rest)
        = write_loop now A N .init pend M (evts ++ pre) rest := by
  intro pre
  induction pre with
  | nil =>
    intro pend M evts rest _ _
    simp
  | cons e pre' ih =>
    intro pend M evts rest hnd hnsd
    have hnd' : noDescStart pre' := fun x hx => hnd x (List.mem_cons_of_mem _ hx)
    have hnsd' : ∀ x ∈ pre', x ≠ XmlEvent.startDocument := fun x hx =>
      hnsd x (List.mem_cons_of_mem _ hx)
    rw [List.cons_append]
    cases e with
    | startDocument => exact absurd rfl (hnsd _ (List.mem_cons_self _ _))
    | startElement n a m =>
      have hn : isDescName n = false := by
        simpa [isDescStartB] using hnd _ (List.mem_cons_self _ _)
      rw [wl_init_start now A N a m hn, ih pend M _ rest hnd' hnsd', List.append_assoc]
      rfl
    | endDocument =>
      rw [wl_init_other now A N (XmlEvent.endDocument) rfl (by simp),
        ih pend M _ rest hnd' hnsd', List.append_assoc]
      rfl
    | endElement n =>
      rw [wl_init_other now A N (XmlEvent.endElement n) rfl (by simp),
        ih pend M _ rest hnd' hnsd', List.append_assoc]
      rfl
    | characters s =>
      rw [wl_init_other now A N (XmlEvent.characters s) rfl (by simp),
        ih pend M _ rest hnd' hnsd', List.append_assoc]
      rfl
    | whitespace s =>
      rw [wl_init_other now A N (XmlEvent.whitespace s) rfl (by simp),
        ih pend M _ rest hnd' hnsd', List.append_assoc]
      rfl

/-! ### Rule preprocessing lemmas -/

/-- Attribute rewriting replaces values but never attribute names. -/
theorem replace_first_attr_names : ∀ {attrs : List OwnedAttribute} {r : RewriteRule}
    {v : String} {x : OwnedAttribute}, x ∈ replace_first_attr attrs r v →
    ∃ a ∈ attrs, x.name = a.name := by
  intro attrs
  induction attrs with
  | nil => intro r v x h; cases h
  | cons a rest ih =>
    intro r v x h
    unfold replace_first_attr at h
    split at h
    · rcases List.mem_cons.mp h with rfl | h'
      · exact ⟨a, List.mem_cons_self _ _, rfl⟩
      · exact ⟨x, List.mem_cons_of_mem _ h', rfl⟩
    · rcases List.mem_cons.mp h with rfl | h'
      · exact ⟨x, List.mem_cons_self _ _, rfl⟩
      · obtain ⟨a0, ha0, hn⟩ := ih h'
        exact ⟨a0, List.mem_cons_of_mem _ ha0, hn⟩

/-- A rule whose name matches none of the collected attributes survives
preprocessing and is keyed into the pairs list. -/
theorem process_rules_keeps (now : String) (r : RewriteRule) :
    ∀ (rules : List RewriteRule) (attrs attrsF : List OwnedAttribute)
      (pairs : List (RuleKey × RewriteRule)),
      process_rules now rules attrs = .ok (attrsF, pairs) →
      r ∈ rules →
      (∀ a ∈ attrs, r.matches a.name = false) →
      (rule_key r, r) ∈ pairs := by
  intro rules
  induction rules with
  | nil => intro attrs attrsF pairs hp hmem; cases hmem
  | cons r0 rest ih =>
    intro attrs attrsF pairs hp hmem hattr
    unfold process_rules at hp
    split at hp
    · -- allow_attribute
      split at hp
      · -- find? = some attr
        rename_i attr hfind
        split at hp
        · cases hp
        · rename_i newVal hrun
          rcases List.mem_cons.mp hmem with rfl | hmem'
          · -- r itself matched an attribute, contradicting hattr
            have hm := List.find?_some hfind
            have ha := List.mem_of_find?_eq_some hfind
            rw [hattr attr ha] at hm
            cases hm
          · refine ih _ attrsF pairs hp hmem' ?_
            intro a ha
            obtain ⟨a0, ha0, hn⟩ := replace_first_attr_names ha
            rw [RewriteRule.matches, hn, ← RewriteRule.matches]
            exact hattr a0 ha0
      · cases hrec : process_rules now rest attrs with
        | error e => rw [hrec] at hp; cases hp
        | ok res =>
          obtain ⟨a1, p1⟩ := res
          rw [hrec] at hp
          simp only [Except.map] at hp
          injection hp with hp
          rw [Prod.mk.injEq] at hp
          obtain ⟨h1, h2⟩ := hp
          rw [← h2]
          rcases List.mem_cons.mp hmem with rfl | hmem'
          · exact List.mem_cons_self _ _
          · exact List.mem_cons_of_mem _ (ih attrs a1 p1 hrec hmem' hattr)
    · cases hrec : process_rules now rest attrs with
      | error e => rw [hrec] at hp; cases hp
      | ok res =>
        obtain ⟨a1, p1⟩ := res
        rw [hrec] at hp
        simp only [Except.map] at hp
        injection hp with hp
        rw [Prod.mk.injEq] at hp
        obtain ⟨h1, h2⟩ := hp
        rw [← h2]
        rcases List.mem_cons.mp hmem with rfl | hmem'
        · exact List.mem_cons_self _ _
        · exact List.mem_cons_of_mem _ (ih attrs a1 p1 hrec hmem' hattr)

/-- Every keyed pair comes from the input rules, keyed by its own
identity. -/
theorem process_rules_pairs_sub (now : String) :
    ∀ (rules : List RewriteRule) (attrs attrsF : List OwnedAttribute)
      (pairs : List (RuleKey × RewriteRule)),
      process_rules now rules attrs = .ok (attrsF, pairs) →
      ∀ p ∈ pairs, p.1 = rule_key p.2 ∧ p.2 ∈ rules := by
  intro rules
  induction rules with
  | nil =>
    intro attrs attrsF pairs hp p hmem
    unfold process_rules at hp
    injection hp with hp
    rw [Prod.mk.injEq] at hp
    obtain ⟨h1, h2⟩ := hp
    rw [← h2] at hmem
    cases hmem
  | cons r0 rest ih =>
    intro attrs attrsF pairs hp p hmem
    unfold process_rules at hp
    split at hp
    · split at hp
      · rename_i attr hfind
        split at hp
        · cases hp
        · rename_i newVal hrun
          obtain ⟨h1, h2⟩ := ih _ attrsF pairs hp p hmem
          exact ⟨h1, List.mem_cons_of_mem _ h2⟩
      · cases hrec : process_rules now rest attrs with
        | error e => rw [hrec] at hp; cases hp
        | ok res =>
          obtain ⟨a1, p1⟩ := res
          rw [hrec] at hp
          simp only [Except.map] at hp
          injection hp with hp
          rw [Prod.mk.injEq] at hp
          obtain ⟨h1, h2⟩ := hp
          rw [← h2] at hmem
          rcases List.mem_cons.mp hmem with rfl | hmem'
          · exact ⟨rfl, List.mem_cons_self _ _⟩
          · obtain ⟨hk1, hk2⟩ := ih attrs a1 p1 hrec p hmem'
            exact ⟨hk1, List.mem_cons_of_mem _ hk2⟩
    · cases hrec : process_rules now rest attrs with
      | error e => rw [hrec] at hp; cases hp
      | ok res =>
        obtain ⟨a1, p1⟩ := res
        rw [hrec] at hp
        simp only [Except.map] at hp
        injection hp with hp
        rw [Prod.mk.injEq] at hp
        obtain ⟨h1, h2⟩ := hp
        rw [← h2] at hmem
        rcases List.mem_cons.mp hmem with rfl | hmem'
        · exact ⟨rfl, List.mem_cons_self _ _⟩
        · obtain ⟨hk1, hk2⟩ := ih attrs a1 p1 hrec p hmem'
          exact ⟨hk1, List.mem_cons_of_mem _ hk2⟩

theorem rules_lookup_append (m₁ m₂ : List (RuleKey × RewriteRule)) (k : RuleKey) :
    rules_lookup (m₁ ++ m₂) k
      = match rules_lookup m₁ k with
        | some r => some r
        | none => rules_lookup m₂ k := by
  induction m₁ with
  | nil => simp [rules_lookup]
  | cons e m₁' ih =>
    by_cases he : e.1 = k
    · simp [rules_lookup, he]
    · simp only [List.cons_append, rules_lookup, if_neg he]
      exact ih

theorem rules_any_lookup_none {m : List (RuleKey × RewriteRule)} {k : RuleKey}
    (h : m.any (fun e => decide (e.1 = k)) = false) : rules_lookup m k = none := by
  induction m with
  | nil => rfl
  | cons e m' ih =>
    simp only [List.any_cons, Bool.or_eq_false_iff] at h
    obtain ⟨h1, h2⟩ := h
    have he : ¬ (e.1 = k) := by simpa using h1
    simp only [rules_lookup, if_neg he]
    exact ih h2

theorem rules_lookup_map_self {k : RuleKey} (r : RewriteRule) :
    ∀ m : List (RuleKey × RewriteRule), m.any (fun e => decide (e.1 = k)) = true →
      rules_lookup (m.map fun e => if e.1 = k then (k, r) else e) k = some r := by
  intro m
  induction m with
  | nil => intro hany; cases hany
  | cons e m' ih =>
    intro hany
    by_cases he : e.1 = k
    · simp [rules_lookup, he]
    · simp only [List.map_cons, if_neg he]
      rw [show rules_lookup ((e :: m'.map fun e => if e.1 = k then (k, r) else e) : List _) k
        = rules_lookup (m'.map fun e => if e.1 = k then (k, r) else e) k from by
          simp [rules_lookup, he]]
      apply ih
      simp only [List.any_cons, Bool.or_eq_true_iff] at hany
      rcases hany with h1 | h2
      · exact absurd (by simpa using h1) he
      · exact h2

theorem rules_lookup_map_ne {k k' : RuleKey} (r : RewriteRule) (h : k ≠ k') :
    ∀ m : List (RuleKey × RewriteRule),
      rules_lookup (m.map fun e => if e.1 = k then (k, r) else e) k'
        = rules_lookup m k' := by
  intro m
  induction m with
  | nil => rfl
  | cons e m' ih =>
    by_cases he : e.1 = k
    · rw [List.map_cons, if_pos he]
      rw [show rules_lookup (((k, r) : RuleKey × RewriteRule) :: m'.map fun e =>
          if e.1 = k then (k, r) else e) k' = rules_lookup (m'.map fun e =>
          if e.1 = k then (k, r) else e) k' from by simp [rules_lookup, h]]
      rw [show rules_lookup (e :: m') k' = rules_lookup m' k' from by
        simp [rules_lookup, he ▸ h]]
      exact ih
    · rw [List.map_cons, if_neg he]
      by_cases hek : e.1 = k'
      · simp [rules_lookup, hek]
      · rw [show rules_lookup ((e :: m'.map fun e => if e.1 = k then (k, r) else e) :
            List _) k' = rules_lookup (m'.map fun e => if e.1 = k then (k, r) else e) k'
            from by simp [rules_lookup, hek]]
        rw [show rules_lookup (e :: m') k' = rules_lookup m' k' from by
          simp [rules_lookup, hek]]
        exact ih

theorem rules_insert_lookup_self (m : List (RuleKey × RewriteRule)) (k : RuleKey)
    (r : RewriteRule) : rules_lookup (rules_insert m k r) k = some r := by
  unfold rules_insert
  split
  · rename_i hany
    exact rules_lookup_map_self r m hany
  · rename_i hany
    have hfalse : m.any (fun e => decide (e.1 = k)) = false := by
      revert hany
      cases m.any fun e => decide (e.1 = k) <;> simp
    rw [rules_lookup_append]
    rw [rules_any_lookup_none hfalse]
    simp [rules_lookup]

theorem rules_insert_lookup_ne (m : List (RuleKey × RewriteRule)) {k k' : RuleKey}
    (r : RewriteRule) (h : k ≠ k') :
    rules_lookup (rules_insert m k r) k' = rules_lookup m k' := by
  unfold rules_insert
  split
  · exact rules_lookup_map_ne r h m
  · rw [rules_lookup_append]
    cases hm : rules_lookup m k' with
    | some r0 => rfl
    | none => simp [rules_lookup, h]

theorem rules_of_pairs_lookup_aux (k : RuleKey) (r : RewriteRule) :
    ∀ (pairs : List (RuleKey × RewriteRule)) (m : List (RuleKey × RewriteRule)),
      ((k, r) ∈ pairs ∨ rules_lookup m k = some r) →
      (∀ p ∈ pairs, p.1 = k → p.2 = r) →
      rules_lookup (pairs.foldl (fun m e => rules_insert m e.1 e.2) m) k = some r := by
  intro pairs
  induction pairs with
  | nil =>
    intro m h _
    rcases h with h | h
    · cases h
    · exact h
  | cons p rest ih =>
    intro m h huniq
    obtain ⟨pk, pr⟩ := p
    rw [List.foldl_cons]
    apply ih
    · by_cases hk : pk = k
      · subst hk
        have : pr = r := huniq (pk, pr) (List.mem_cons_self _ _) rfl
        subst this
        exact Or.inr (rules_insert_lookup_self m pk pr)
      · rcases h with h | h
        · rcases List.mem_cons.mp h with heq | h'
          · injection heq with h1 h2
            exact absurd h1.symm hk
          · exact Or.inl h'
        · exact Or.inr ((rules_insert_lookup_ne m pr hk).trans h)
    · intro q hq hqk
      exact huniq q (List.mem_cons_of_mem _ hq) hqk

theorem rules_of_pairs_lookup {pairs : List (RuleKey × RewriteRule)} {k : RuleKey}
    {r : RewriteRule} (hmem : (k, r) ∈ pairs)
    (huniq : ∀ p ∈ pairs, p.1 = k → p.2 = r) :
    rules_lookup (rules_of_pairs pairs) k = some r :=
  rules_of_pairs_lookup_aux k r pairs [] (Or.inl hmem) huniq

/-! ### Claim C7 -/

/-- A concrete required rule: `acdsee:categories`, `SetRdfList` action,
not attribute-capable. -/
def c7rule : RewriteRule :=
  ⟨some nsACDSEE, "categories", "acdsee", false, true, .setRdfList "Bag" ["c1"]⟩

/-- The `rdf:Description` qualified name. -/
def descName : OwnedName := ⟨"Description", some nsRDF, some "rdf"⟩

/-- **C7** counterexample: a well-formed document with no
`rdf:Description` element at all.  The required rule is never consumed
(there is no matching attribute and no matching child element), yet the
rewrite succeeds with an output containing no start element whatsoever —
in particular not the rule's full-element rendering, which begins with a
start element.  The flush only ever happens in front of a description end
event, so a description-free document never receives the required
field. -/
theorem c7_counterexample :
    c7rule.required = true ∧
    write_events "T" [.startDocument, .characters "x", .endDocument] [c7rule]
      = .ok [.characters "x", .endDocument] ∧
    (∀ e ∈ [XmlEvent.characters "x", XmlEvent.endDocument], isStartEvt e = false) ∧
    (∃ e ∈ rule_run c7rule "T" [], isStartEvt e = true) := by
  refine ⟨rfl, ?_, by decide, by decide⟩
  unfold write_events
  rw [show process_rules "T" [c7rule] (collect_all_attributes
      [XmlEvent.startDocument, XmlEvent.characters "x", XmlEvent.endDocument])
      = .ok ([], [(rule_key c7rule, c7rule)]) from rfl]
  refine congrArg Except.ok ?_
  rw [wl_init_sd]
  rw [wl_init_other _ _ _ (.characters "x") rfl (by decide)]
  rw [wl_init_other _ _ _ .endDocument rfl (by decide)]
  rw [wl_nil]
  rfl

/-- **C7** (amended): for a well-formed document `startDocument, body,
endDocument` with balanced `body` that contains at least one
`rdf:Description` element, a rule flagged required that is not consumed —
no collected attribute matches its name and no start element in the body
carries its qualified key — and whose key is unique among the rules, is
rendered by `rule_run` with empty input and spliced into the output
immediately before a description end element (possibly followed by the
renderings of other required rules, `flush_seg`). -/
theorem c7_required_rule_flushed
    (now : String) {body : List XmlEvent} {rules : List RewriteRule}
    {r : RewriteRule} {out : List XmlEvent}
    (hbal : Bal body)
    (hdesc : containsDescStart body)
    (hmem : r ∈ rules)
    (hreq : r.required = true)
    (hkey : noKeyStart (rule_key r) body)
    (hattr : ∀ a ∈ collect_all_attributes
      (XmlEvent.startDocument :: body ++ [XmlEvent.endDocument]),
      r.matches a.name = false)
    (huniq : ∀ q ∈ rules, rule_key q = rule_key r → q = r)
    (hok : write_events now (XmlEvent.startDocument :: body ++ [XmlEvent.endDocument])
      rules = .ok out) :
    ∃ P Mt C dn, isDescName dn = true ∧
      out = P ++ rule_run r now [] ++ flush_seg now Mt ++ XmlEvent.endElement dn :: C := by
  unfold write_events at hok
  cases hpr : process_rules now rules (collect_all_attributes
      (XmlEvent.startDocument :: body ++ [XmlEvent.endDocument])) with
  | error e => rw [hpr] at hok; cases hok
  | ok res =>
    obtain ⟨attrsF, pairs⟩ := res
    rw [hpr] at hok
    injection hok with hok
    generalize hNdef : collect_all_namespaces (XmlEvent.startDocument :: body
      ++ [XmlEvent.endDocument]) = N at hok
    have hpairs_uniq : ∀ p ∈ pairs, p.1 = rule_key r → p.2 = r := by
      intro p hp hpk
      have hsub := process_rules_pairs_sub now rules _ attrsF pairs hpr p hp
      refine huniq p.2 hsub.2 ?_
      rw [← hsub.1]
      exact hpk
    have hkey_pair : (rule_key r, r) ∈ pairs :=
      process_rules_keeps now r rules _ attrsF pairs hpr hmem hattr
    have hklookup : rules_lookup (rules_of_pairs pairs) (rule_key r) = some r :=
      rules_of_pairs_lookup hkey_pair hpairs_uniq
    obtain ⟨pre, dn, da, dm, inner, tail, hbody, hpre, hdn, hinner, htail⟩ :=
      bal_first_desc hbal hdesc
    have hnosd : ∀ e ∈ pre, e ≠ XmlEvent.startDocument := by
      intro e he
      have hb : e ∈ body := by
        rw [hbody]
        exact List.mem_append_left _ (List.mem_append_left _ he)
      exact (Bal.no_doc_mem hbal e hb).1
    have hnk_inner : noKeyStart (rule_key r) inner := by
      intro x hx
      apply hkey x
      rw [hbody]
      exact List.mem_append_left _ (List.mem_append_right _ (List.mem_cons_of_mem _ hx))
    have hnk_tail : noKeyStart (rule_key r) tail := by
      intro x hx
      apply hkey x
      rw [hbody]
      exact List.mem_append_right _ (List.mem_cons_of_mem _ hx)
    rw [hbody] at hok
    simp only [List.append_assoc, List.cons_append] at hok
    rw [wl_init_sd] at hok
    rw [write_loop_init_copy now attrsF N pre none (rules_of_pairs pairs) [] _
      hpre hnosd] at hok
    simp only [List.nil_append] at hok
    rw [wl_init_desc now attrsF N da dm hdn] at hok
    obtain ⟨M1, evts1, heq1, hp1, hc1⟩ :=
      walk_indesc now attrsF N hinner 1 none (rules_of_pairs pairs)
        (pre ++ [XmlEvent.startElement dn attrsF N])
        (XmlEvent.endElement dn :: (tail ++ [XmlEvent.endDocument])) (le_refl 1)
    rw [heq1] at hok
    rw [wl_indesc_end1 now attrsF N hdn] at hok
    have hcd1 : containsDescStart evts1 := hc1 ⟨XmlEvent.startElement dn attrsF N,
      List.mem_append_right _ (List.mem_cons_self _ _), by simpa [isDescStartB] using hdn⟩
    have hk1 : rules_lookup M1 (rule_key r) = some r := hp1 _ _ hklookup hnk_inner
    obtain ⟨P, Mt, C, dn', hdn', hres⟩ :=
      walk_skip now attrsF N tail.length tail (le_refl _) htail dn M1 evts1
        (rule_key r) r hdn hcd1 hk1 hreq hnk_tail
    rw [hres] at hok
    exact ⟨P, Mt, C, dn', hdn', hok.symm⟩

/-- The witness document body: a single empty `rdf:Description`
element. -/
def c7wBody : List XmlEvent :=
  [.startElement descName [] [], .endElement descName]

theorem c7wBal : Bal c7wBody := Bal.node descName [] [] Bal.nil Bal.nil

/-- The output of the witness run, as produced by the write loop. -/
def c7wOut : List XmlEvent :=
  flush_required "T" (rules_of_pairs [(rule_key c7rule, c7rule)])
    [XmlEvent.startElement descName []
      (collect_all_namespaces (XmlEvent.startDocument :: c7wBody ++ [XmlEvent.endDocument]))]
  ++ [XmlEvent.endElement descName, XmlEvent.endDocument]

/-- **C7** witness: a document with one empty description and the single
required rule; the rewrite succeeds and the output contains the rule's
rendering just before a description end element. -/
theorem c7_witness :
    ∃ out, write_events "T" (XmlEvent.startDocument :: c7wBody ++ [XmlEvent.endDocument])
        [c7rule] = .ok out ∧
      ∃ P Mt C dn, isDescName dn = true ∧
        out = P ++ rule_run c7rule "T" [] ++ flush_seg "T" Mt
          ++ XmlEvent.endElement dn :: C := by
  have hok : write_events "T"
      (XmlEvent.startDocument :: c7wBody ++ [XmlEvent.endDocument]) [c7rule]
      = .ok c7wOut := by
    unfold write_events
    rw [show process_rules "T" [c7rule] (collect_all_attributes
        (XmlEvent.startDocument :: c7wBody ++ [XmlEvent.endDocument]))
        = .ok ([], [(rule_key c7rule, c7rule)]) from rfl]
    refine congrArg Except.ok ?_
    rw [show (XmlEvent.startDocument :: c7wBody) ++ [XmlEvent.endDocument]
      = XmlEvent.startDocument :: XmlEvent.startElement descName [] []
        :: XmlEvent.endElement descName :: [XmlEvent.endDocument] from rfl]
    rw [wl_init_sd]
    rw [wl_init_desc _ _ _ [] [] (show isDescName descName = true from rfl)]
    rw [wl_indesc_end1 _ _ _ (show isDescName descName = true from rfl)]
    rw [wl_skip_flush _ _ _ XmlEvent.endDocument rfl]
    rw [wl_nil]
    rfl
  refine ⟨c7wOut, hok, ?_⟩
  exact c7_required_rule_flushed "T" c7wBal
    ⟨XmlEvent.startElement descName [] [], List.mem_cons_self _ _, by decide⟩
    (by decide) rfl
    (by intro e he; simp only [c7wBody, List.mem_cons, List.not_mem_nil, or_false] at he;
        rcases he with rfl | rfl <;> decide)
    (by decide) (by decide) hok

/-! ### Claim C8: idempotence of the two rewrite actions -/

theorem collect_attrs_go_no_desc : ∀ {l : List XmlEvent},
    (∀ e ∈ l, isDescStartB e = false ∧ isDescEndB e = false) →
    ∀ (L : Int) (rest : List XmlEvent),
      collect_all_attributes_go L (l ++ rest) = collect_all_attributes_go L rest := by
  intro l
  induction l with
  | nil => intro _ L rest; rfl
  | cons e t ih =>
    intro h L rest
    have he := h e (List.mem_cons_self _ _)
    have ht : ∀ x ∈ t, isDescStartB x = false ∧ isDescEndB x = false :=
      fun x hx => h x (List.mem_cons_of_mem _ hx)
    cases e with
    | startElement n a m =>
      have hn : isDescName n = false := by simpa [isDescStartB] using he.1
      rw [List.cons_append]
      rw [show collect_all_attributes_go L (XmlEvent.startElement n a m :: (t ++ rest))
          = collect_all_attributes_go L (t ++ rest) from by
        simp [collect_all_attributes_go, hn]]
      exact ih ht L rest
    | endElement n =>
      have hn : isDescName n = false := by simpa [isDescEndB] using he.2
      rw [List.cons_append]
      rw [show collect_all_attributes_go L (XmlEvent.endElement n :: (t ++ rest))
          = collect_all_attributes_go L (t ++ rest) from by
        simp [collect_all_attributes_go, hn]]
      exact ih ht L rest
    | startDocument =>
      rw [List.cons_append]
      rw [show collect_all_attributes_go L (XmlEvent.startDocument :: (t ++ rest))
          = collect_all_attributes_go L (t ++ rest) from by
        simp [collect_all_attributes_go]]
      exact ih ht L rest
    | endDocument =>
      rw [List.cons_append]
      rw [show collect_all_attributes_go L (XmlEvent.endDocument :: (t ++ rest))
          = collect_all_attributes_go L (t ++ rest) from by
        simp [collect_all_attributes_go]]
      exact ih ht L rest
    | characters s =>
      rw [List.cons_append]
      rw [show collect_all_attributes_go L (XmlEvent.characters s :: (t ++ rest))
          = collect_all_attributes_go L (t ++ rest) from by
        simp [collect_all_attributes_go]]
      exact ih ht L rest
    | whitespace s =>
      rw [List.cons_append]
      rw [show collect_all_attributes_go L (XmlEvent.whitespace s :: (t ++ rest))
          = collect_all_attributes_go L (t ++ rest) from by
        simp [collect_all_attributes_go]]
      exact ih ht L rest

theorem ns_step_no_desc : ∀ {l : List XmlEvent},
    (∀ e ∈ l, isDescStartB e = false) → ∀ acc : NsMap, l.foldl ns_step acc = acc := by
  intro l
  induction l with
  | nil => intro _ acc; rfl
  | cons e t ih =>
    intro h acc
    have hstep : ns_step acc e = acc := by
      cases e with
      | startElement n a m =>
        have hn : isDescName n = false := by
          simpa [isDescStartB] using h _ (List.mem_cons_self _ _)
        simp [ns_step, hn]
      | startDocument => rfl
      | endDocument => rfl
      | endElement n => rfl
      | characters s => rfl
      | whitespace s => rfl
    rw [List.foldl_cons, hstep]
    exact ih (fun x hx => h x (List.mem_cons_of_mem _ hx)) acc

/-- `ns::XMP`. -/
def nsXMP : String := "http://ns.adobe.com/xap/1.0/"

/-- The event is neither a description start nor a description end, and
if it is a start element its qualified key differs from `k`: such events
are copied verbatim by the in-description state with a single-`k` rules
map. -/
def evOk (k : RuleKey) (e : XmlEvent) : Bool :=
  match e with
  | .startElement n _ _ => !isDescName n && !decide ((n.ns, n.local_name) = k)
  | .endElement n => !isDescName n
  | _ => true

def segOk (k : RuleKey) (l : List XmlEvent) : Prop := ∀ e ∈ l, evOk k e = true

instance (k : RuleKey) (l : List XmlEvent) : Decidable (segOk k l) :=
  List.decidableBAll _ l

theorem segOk_no_desc {k : RuleKey} {l : List XmlEvent} (h : segOk k l) :
    ∀ e ∈ l, isDescStartB e = false ∧ isDescEndB e = false := by
  intro e he
  have := h e he
  cases e <;> simp_all [evOk, isDescStartB, isDescEndB]

theorem segOk_lookup {k : RuleKey} {l : List XmlEvent} (h : segOk k l) (r : RewriteRule) :
    ∀ n a m, XmlEvent.startElement n a m ∈ l →
      rules_lookup [(k, r)] (n.ns, n.local_name) = none := by
  intro n a m hm
  have := h _ hm
  simp only [evOk, Bool.and_eq_true, Bool.not_eq_true', decide_eq_false_iff_not] at this
  have hne : ¬ k = (n.ns, n.local_name) := fun hh => this.2 hh.symm
  simp [rules_lookup, hne]

/-- In the `InDescription` state at level 1, a segment free of
description starts/ends whose start elements all miss the rules map is
copied verbatim, leaving state, pending element and map untouched. -/
theorem wl_indesc_copy (now : String) (A : List OwnedAttribute) (N : NsMap) :
    ∀ (seg : List XmlEvent) (M : List (RuleKey × RewriteRule)),
      (∀ e ∈ seg, isDescStartB e = false ∧ isDescEndB e = false) →
      (∀ n a m, XmlEvent.startElement n a m ∈ seg →
        rules_lookup M (n.ns, n.local_name) = none) →
      ∀ (pend : Option XmlEvent) (evts rest : List XmlEvent),
        write_loop now A N (.inDescription 1) pend M evts (seg ++ rest)
          = write_loop now A N (.inDescription 1) pend M (evts ++ seg) rest := by
  intro seg
  induction seg with
  | nil =>
    intro M _ _ pend evts rest
    simp
  | cons e t ih =>
    intro M hnd hlk pend evts rest
    have ht : ∀ x ∈ t, isDescStartB x = false ∧ isDescEndB x = false :=
      fun x hx => hnd x (List.mem_cons_of_mem _ hx)
    have htl : ∀ n a m, XmlEvent.startElement n a m ∈ t →
        rules_lookup M (n.ns, n.local_name) = none :=
      fun n a m hm => hlk n a m (List.mem_cons_of_mem _ hm)
    rw [List.cons_append]
    cases e with
    | startElement n a m =>
      have hd : isDescName n = false := by
        simpa [isDescStartB] using (hnd _ (List.mem_cons_self _ _)).1
      rw [wl_indesc_start_nolookup now A N a m hd M
        (hlk n a m (List.mem_cons_self _ _))]
      rw [ih M ht htl pend (evts ++ [XmlEvent.startElement n a m]) rest]
      simp
    | endElement n =>
      have hd : isDescName n = false := by
        simpa [isDescEndB] using (hnd _ (List.mem_cons_self _ _)).2
      rw [wl_indesc_end_nondesc now A N hd 1 pend M evts _]
      rw [ih M ht htl pend (evts ++ [XmlEvent.endElement n]) rest]
      simp
    | startDocument =>
      rw [wl_indesc_other now A N .startDocument rfl rfl 1 pend M evts _]
      rw [ih M ht htl pend (evts ++ [XmlEvent.startDocument]) rest]
      simp
    | endDocument =>
      rw [wl_indesc_other now A N .endDocument rfl rfl 1 pend M evts _]
      rw [ih M ht htl pend (evts ++ [XmlEvent.endDocument]) rest]
      simp
    | characters s =>
      rw [wl_indesc_other now A N (.characters s) rfl rfl 1 pend M evts _]
      rw [ih M ht htl pend (evts ++ [XmlEvent.characters s]) rest]
      simp
    | whitespace s =>
      rw [wl_indesc_other now A N (.whitespace s) rfl rfl 1 pend M evts _]
      rw [ih M ht htl pend (evts ++ [XmlEvent.whitespace s]) rest]
      simp

/-! Namespace-map lemmas: maps produced by `extend`-from-empty have
pairwise-distinct prefixes, on which `extend`-from-empty and repeated
`put` are identities. -/

def nsDistinct (m : NsMap) : Prop := m.Pairwise (fun a b => a.1 ≠ b.1)

theorem ns_put_contains (m : NsMap) (p u : String) :
    ns_contains (ns_put m p u) p = true := by
  unfold ns_put
  split
  · rename_i h
    exact h
  · unfold ns_contains
    rw [List.any_append]
    simp [ns_contains]

theorem ns_put_idem (m : NsMap) (p u : String) :
    ns_put (ns_put m p u) p u = ns_put m p u := by
  have h := ns_put_contains m p u
  show (if ns_contains (ns_put m p u) p then ns_put m p u
    else ns_put m p u ++ [(p, u)]) = ns_put m p u
  simp [h]

theorem ns_contains_false {m : NsMap} {p : String} (h : ns_contains m p = false) :
    ∀ kv ∈ m, kv.1 ≠ p := by
  intro kv hm
  simp only [ns_contains, List.any_eq_false] at h
  simpa using h kv hm

theorem ns_extend_disjoint : ∀ {m : NsMap} (acc : NsMap), nsDistinct m →
    (∀ kv ∈ m, ns_contains acc kv.1 = false) → ns_extend acc m = acc ++ m := by
  intro m
  induction m with
  | nil =>
    intro acc _ _
    simp [ns_extend]
  | cons kv m' ih =>
    intro acc hd hdis
    have hput : ns_put acc kv.1 kv.2 = acc ++ [kv] := by
      unfold ns_put
      rw [hdis kv (List.mem_cons_self _ _)]
      simp
    have hd' : nsDistinct m' := (List.pairwise_cons.mp hd).2
    have hhead : ∀ x ∈ m', kv.1 ≠ x.1 := (List.pairwise_cons.mp hd).1
    rw [show ns_extend acc (kv :: m')
        = ns_extend (ns_put acc kv.1 kv.2) m' from rfl]
    rw [hput]
    rw [ih (acc ++ [kv]) hd' ?_]
    · simp
    · intro kv' hm'
      unfold ns_contains
      rw [List.any_append]
      have h1 : ns_contains acc kv'.1 = false := hdis kv' (List.mem_cons_of_mem _ hm')
      have h2 : kv.1 ≠ kv'.1 := hhead kv' hm'
      unfold ns_contains at h1
      simp [List.any_append, h1, h2]

theorem ns_extend_nil_eq {m : NsMap} (h : nsDistinct m) : ns_extend [] m = m := by
  have := ns_extend_disjoint (m := m) [] h (fun kv _ => rfl)
  simpa using this

theorem ns_put_distinct {m : NsMap} (h : nsDistinct m) (p u : String) :
    nsDistinct (ns_put m p u) := by
  unfold ns_put
  split
  · exact h
  · rename_i hc
    have hc' : ns_contains m p = false := by
      revert hc
      cases ns_contains m p <;> simp
    refine List.pairwise_append.mpr ⟨h, List.pairwise_singleton _ _, ?_⟩
    intro a ha b hb
    have : b = (p, u) := by simpa using hb
    subst this
    exact ns_contains_false hc' a ha

theorem ns_extend_distinct : ∀ (dm acc : NsMap), nsDistinct acc →
    nsDistinct (ns_extend acc dm) := by
  intro dm
  induction dm with
  | nil =>
    intro acc h
    exact h
  | cons kv dm' ih =>
    intro acc h
    rw [show ns_extend acc (kv :: dm') = ns_extend (ns_put acc kv.1 kv.2) dm' from rfl]
    exact ih _ (ns_put_distinct h kv.1 kv.2)

/-- `register_rule_namespace` on an output vector headed by the merged
description start binds the rule's prefix right there. -/
theorem register_rule_ns_head {r : RewriteRule} {u : String}
    (hns : r.node_namespace = some u) (A : List OwnedAttribute) (N : NsMap)
    (tail : List XmlEvent) :
    register_rule_ns r (XmlEvent.startElement descName A N :: tail)
      = XmlEvent.startElement descName A (ns_put N r.node_pfx u) :: tail := by
  simp [register_rule_ns, hns, register_go, show isDescName descName = true from rfl]

/-! Rendering-shape lemmas for the two actions. -/

theorem rule_run_list_cons {r : RewriteRule} {ty : String} {values : List String}
    (hact : r.action = .setRdfList ty values) (now : String) (n : OwnedName)
    (af : List OwnedAttribute) (mf : NsMap) (tl : List XmlEvent) :
    rule_run r now (.startElement n af mf :: tl)
      = .startElement n [] [] :: .startElement (rdf_node ty) [] []
          :: (rdf_li_items (rdf_node "li") values
            ++ [.endElement (rdf_node ty), .endElement n]) := by
  simp [rule_run, hact]

theorem rule_run_list_nil {r : RewriteRule} {ty : String} {values : List String}
    (hact : r.action = .setRdfList ty values) (now : String) :
    rule_run r now []
      = .startElement r.name [] [] :: .startElement (rdf_node ty) [] []
          :: (rdf_li_items (rdf_node "li") values
            ++ [.endElement (rdf_node ty), .endElement r.name]) := by
  simp [rule_run, hact]

theorem rule_run_time_cons {r : RewriteRule} (hact : r.action = .setToCurrentDateTime)
    (now : String) (n : OwnedName) (af : List OwnedAttribute) (mf : NsMap)
    (tl : List XmlEvent) :
    rule_run r now (.startElement n af mf :: tl)
      = [.startElement n [] [], .characters now, .endElement n] := by
  simp [rule_run, hact]

theorem bal_rdf_li_items (li : OwnedName) : ∀ values : List String,
    Bal (rdf_li_items li values) := by
  intro values
  induction values with
  | nil => exact Bal.nil
  | cons v rest ih => exact Bal.node li [] [] (Bal.chars v Bal.nil) ih

theorem rdf_li_items_no_desc {li : OwnedName} (h : isDescName li = false) :
    ∀ values : List String, ∀ e ∈ rdf_li_items li values,
      isDescStartB e = false ∧ isDescEndB e = false := by
  intro values
  induction values with
  | nil => intro e he; cases he
  | cons v rest ih =>
    intro e he
    rcases List.mem_cons.mp he with rfl | he
    · simp [isDescStartB, isDescEndB, h]
    · rcases List.mem_cons.mp he with rfl | he
      · simp [isDescStartB, isDescEndB]
      · rcases List.mem_cons.mp he with rfl | he
        · simp [isDescStartB, isDescEndB, h]
        · exact ih e he

/-! Collection lemmas over the canonical shapes. -/

theorem collect_attrs_sd (l : List XmlEvent) :
    collect_all_attributes (XmlEvent.startDocument :: l) = collect_all_attributes l := rfl

theorem collect_ns_sd (l : List XmlEvent) :
    collect_all_namespaces (XmlEvent.startDocument :: l) = collect_all_namespaces l := rfl

/-- One description with attributes `d0`: the attribute pass collects
exactly `d0` when the description content is free of description
starts/ends. -/
theorem collect_attrs_core (d0 : List OwnedAttribute) (dm : NsMap) {mid : List XmlEvent}
    (hmid : ∀ e ∈ mid, isDescStartB e = false ∧ isDescEndB e = false) :
    collect_all_attributes (XmlEvent.startElement descName d0 dm
      :: (mid ++ [XmlEvent.endElement descName, XmlEvent.endDocument])) = d0 := by
  unfold collect_all_attributes
  rw [show collect_all_attributes_go 0 (XmlEvent.startElement descName d0 dm
      :: (mid ++ [XmlEvent.endElement descName, XmlEvent.endDocument]))
      = d0 ++ collect_all_attributes_go 1 (mid ++ [XmlEvent.endElement descName,
          XmlEvent.endDocument]) from by
    simp [collect_all_attributes_go, show isDescName descName = true from rfl]]
  rw [collect_attrs_go_no_desc hmid 1 _]
  simp [collect_all_attributes_go, show isDescName descName = true from rfl]

/-- Two descriptions, the second attribute-less: still collects `d0`. -/
theorem collect_attrs_core2 (d0 : List OwnedAttribute) (dm dm2 : NsMap)
    {mid mid2 : List XmlEvent}
    (hmid : ∀ e ∈ mid, isDescStartB e = false ∧ isDescEndB e = false)
    (hmid2 : ∀ e ∈ mid2, isDescStartB e = false ∧ isDescEndB e = false) :
    collect_all_attributes (XmlEvent.startElement descName d0 dm
      :: (mid ++ (XmlEvent.endElement descName
        :: (XmlEvent.startElement descName [] dm2
          :: (mid2 ++ [XmlEvent.endElement descName, XmlEvent.endDocument]))))) = d0 := by
  unfold collect_all_attributes
  rw [show collect_all_attributes_go 0 (XmlEvent.startElement descName d0 dm
      :: (mid ++ (XmlEvent.endElement descName
        :: (XmlEvent.startElement descName [] dm2
          :: (mid2 ++ [XmlEvent.endElement descName, XmlEvent.endDocument])))))
      = d0 ++ collect_all_attributes_go 1 (mid ++ (XmlEvent.endElement descName
        :: (XmlEvent.startElement descName [] dm2
          :: (mid2 ++ [XmlEvent.endElement descName, XmlEvent.endDocument])))) from by
    simp [collect_all_attributes_go, show isDescName descName = true from rfl]]
  rw [collect_attrs_go_no_desc hmid 1 _]
  rw [show collect_all_attributes_go 1 (XmlEvent.endElement descName
      :: (XmlEvent.startElement descName [] dm2
        :: (mid2 ++ [XmlEvent.endElement descName, XmlEvent.endDocument])))
      = collect_all_attributes_go 1 (mid2 ++ [XmlEvent.endElement descName,
          XmlEvent.endDocument]) from by
    simp [collect_all_attributes_go, show isDescName descName = true from rfl]]
  rw [collect_attrs_go_no_desc hmid2 1 _]
  simp [collect_all_attributes_go, show isDescName descName = true from rfl]

theorem collect_ns_core (d0 : List OwnedAttribute) (dm : NsMap) {mid : List XmlEvent}
    (hmid : ∀ e ∈ mid, isDescStartB e = false) :
    collect_all_namespaces (XmlEvent.startElement descName d0 dm
      :: (mid ++ [XmlEvent.endElement descName, XmlEvent.endDocument]))
      = ns_extend [] dm := by
  unfold collect_all_namespaces
  rw [List.foldl_cons]
  rw [show ns_step [] (XmlEvent.startElement descName d0 dm) = ns_extend [] dm from by
    simp [ns_step, show isDescName descName = true from rfl]]
  rw [List.foldl_append]
  rw [ns_step_no_desc hmid]
  rfl

theorem collect_ns_core2 (d0 : List OwnedAttribute) (dm dm2 : NsMap)
    {mid mid2 : List XmlEvent}
    (hmid : ∀ e ∈ mid, isDescStartB e = false)
    (hmid2 : ∀ e ∈ mid2, isDescStartB e = false) :
    collect_all_namespaces (XmlEvent.startElement descName d0 dm
      :: (mid ++ (XmlEvent.endElement descName
        :: (XmlEvent.startElement descName [] dm2
          :: (mid2 ++ [XmlEvent.endElement descName, XmlEvent.endDocument])))))
      = ns_extend (ns_extend [] dm) dm2 := by
  unfold collect_all_namespaces
  rw [List.foldl_cons]
  rw [show ns_step [] (XmlEvent.startElement descName d0 dm) = ns_extend [] dm from by
    simp [ns_step, show isDescName descName = true from rfl]]
  rw [List.foldl_append]
  rw [ns_step_no_desc hmid]
  rw [List.foldl_cons, List.foldl_cons]
  rw [show ns_step (ns_step (ns_extend [] dm) (XmlEvent.endElement descName))
      (XmlEvent.startElement descName [] dm2)
      = ns_extend (ns_extend [] dm) dm2 from by
    simp [ns_step, show isDescName descName = true from rfl]]
  rw [List.foldl_append]
  rw [ns_step_no_desc hmid2]
  rfl

/-! `write_events` wrappers for a single rule. -/

/-- With no collected attribute matching the rule, the rule is keyed
into the map no matter its `allow_attribute` flag. -/
theorem write_events_keyed (now : String) (events : List XmlEvent) (r : RewriteRule)
    (hattr : ∀ a ∈ collect_all_attributes events, r.matches a.name = false) :
    write_events now events [r]
      = .ok (write_loop now (collect_all_attributes events)
          (collect_all_namespaces events) .init none [(rule_key r, r)] [] events) := by
  have hfind : (collect_all_attributes events).find? (fun attr => r.matches attr.name)
      = none :=
    List.find?_eq_none.mpr (fun a ha => by simp [hattr a ha])
  have hpr : process_rules now [r] (collect_all_attributes events)
      = .ok (collect_all_attributes events, [(rule_key r, r)]) := by
    unfold process_rules
    rcases hal : r.allow_attribute
    · simp [process_rules, Except.map]
    · simp [hfind, process_rules, Except.map]
  unfold write_events
  rw [hpr]
  rfl

theorem find_first_attr {p : OwnedAttribute → Bool} :
    ∀ {da1 : List OwnedAttribute} {attr : OwnedAttribute} {da2 : List OwnedAttribute},
      (∀ a ∈ da1, p a = false) → p attr = true →
      (da1 ++ attr :: da2).find? p = some attr := by
  intro da1
  induction da1 with
  | nil =>
    intro attr da2 _ hm
    simpa using List.find?_cons_of_pos _ hm
  | cons a t ih =>
    intro attr da2 h1 hm
    rw [List.cons_append, List.find?_cons_of_neg _ (by simp [h1 a (List.mem_cons_self _ _)])]
    exact ih (fun x hx => h1 x (List.mem_cons_of_mem _ hx)) hm

theorem replace_first_attr_split {r : RewriteRule} {v : String} :
    ∀ {da1 : List OwnedAttribute} {attr : OwnedAttribute} {da2 : List OwnedAttribute},
      (∀ a ∈ da1, r.matches a.name = false) → r.matches attr.name = true →
      replace_first_attr (da1 ++ attr :: da2) r v
        = da1 ++ (⟨attr.name, v⟩ : OwnedAttribute) :: da2 := by
  intro da1
  induction da1 with
  | nil =>
    intro attr da2 _ hm
    simp [replace_first_attr, hm]
  | cons a t ih =>
    intro attr da2 h1 hm
    rw [List.cons_append]
    rw [show replace_first_attr (a :: (t ++ attr :: da2)) r v
        = a :: replace_first_attr (t ++ attr :: da2) r v from by
      simp [replace_first_attr, h1 a (List.mem_cons_self _ _)]]
    rw [ih (fun x hx => h1 x (List.mem_cons_of_mem _ hx)) hm]
    rfl

/-- A timestamp rule with a matching collected attribute rewrites that
attribute in place and is dropped from the map. -/
theorem write_events_attr_rewrite (now : String) (events : List XmlEvent)
    {s : RewriteRule} (hacts : s.action = .setToCurrentDateTime)
    (hals : s.allow_attribute = true)
    {da1 : List OwnedAttribute} {attr : OwnedAttribute} {da2 : List OwnedAttribute}
    (hsplit : collect_all_attributes events = da1 ++ attr :: da2)
    (h1 : ∀ a ∈ da1, s.matches a.name = false) (hm : s.matches attr.name = true) :
    write_events now events [s]
      = .ok (write_loop now (da1 ++ (⟨attr.name, now⟩ : OwnedAttribute) :: da2)
          (collect_all_namespaces events) .init none [] [] events) := by
  have hfind : (da1 ++ attr :: da2).find? (fun a => s.matches a.name) = some attr :=
    find_first_attr h1 hm
  have hrun : rule_run_attribute s now attr.value = .ok now := by
    simp [rule_run_attribute, hacts]
  have hrepl : replace_first_attr (da1 ++ attr :: da2) s now
      = da1 ++ (⟨attr.name, now⟩ : OwnedAttribute) :: da2 :=
    replace_first_attr_split h1 hm
  have hpr : process_rules now [s] (collect_all_attributes events)
      = .ok (da1 ++ (⟨attr.name, now⟩ : OwnedAttribute) :: da2, []) := by
    unfold process_rules
    rw [hsplit, hals]
    simp [hfind, hrun, hrepl, process_rules]
  unfold write_events
  rw [hpr]
  rfl

/-! Full-pass traces of the write loop over the canonical shapes. -/

/-- Field present: the matching rule consumes the field subtree and
replaces it by its rendering; the rule's namespace is bound on the merged
description start; surrounding content is copied verbatim. -/
theorem c8_present_pass (now : String) (A : List OwnedAttribute) (N : NsMap)
    {r : RewriteRule} {u : String} (hns : r.node_namespace = some u)
    {n : OwnedName} (hn : isDescName n = false)
    (hkey : rule_key r = (n.ns, n.local_name))
    {pre post inner : List XmlEvent}
    (hpre : segOk (rule_key r) pre)
    (hpost : ∀ e ∈ post, isDescStartB e = false ∧ isDescEndB e = false)
    (hinner : Bal inner)
    (d0 af : List OwnedAttribute) (mf dm : NsMap) :
    write_loop now A N .init none [(rule_key r, r)] []
      (XmlEvent.startElement descName d0 dm
        :: (pre ++ (XmlEvent.startElement n af mf
          :: (inner ++ (XmlEvent.endElement n
            :: (post ++ [XmlEvent.endElement descName, XmlEvent.endDocument]))))))
      = XmlEvent.startElement descName A (ns_put N r.node_pfx u)
          :: (pre ++ (rule_run r now (XmlEvent.startElement n af mf
              :: (inner ++ [XmlEvent.endElement n]))
            ++ (post ++ [XmlEvent.endElement descName, XmlEvent.endDocument]))) := by
  have hk2 := hkey
  simp only [rule_key, Prod.mk.injEq] at hk2
  have hm : r.matches n = true := by simp [RewriteRule.matches, hk2.1, hk2.2]
  rw [wl_init_desc now A N d0 dm (show isDescName descName = true from rfl)]
  simp only [List.nil_append]
  rw [wl_indesc_copy now A N pre [(rule_key r, r)] (segOk_no_desc hpre)
    (segOk_lookup hpre r) none [XmlEvent.startElement descName A N] _]
  rw [wl_indesc_start_match now A N af mf hn
    (show rules_lookup [(rule_key r, r)] (n.ns, n.local_name) = some r from by
      simp [rules_lookup, hkey]) hm]
  rw [show (consume_subtree 1 (inner ++ (XmlEvent.endElement n
      :: (post ++ [XmlEvent.endElement descName, XmlEvent.endDocument])))).1
      = inner ++ [XmlEvent.endElement n] from by
    rw [consume_subtree_exact hinner n _]]
  rw [show (consume_subtree 1 (inner ++ (XmlEvent.endElement n
      :: (post ++ [XmlEvent.endElement descName, XmlEvent.endDocument])))).2
      = post ++ [XmlEvent.endElement descName, XmlEvent.endDocument] from by
    rw [consume_subtree_exact hinner n _]]
  rw [show ([XmlEvent.startElement descName A N] ++ pre : List XmlEvent)
      = XmlEvent.startElement descName A N :: pre from by simp]
  rw [register_rule_ns_head hns A N pre]
  rw [show rules_erase [(rule_key r, r)] (n.ns, n.local_name) = [] from by
    simp [rules_erase, hkey]]
  rw [wl_indesc_copy now A N post [] hpost (fun n' a' m' _ => rfl) none _ _]
  rw [wl_indesc_end1 now A N (show isDescName descName = true from rfl)]
  rw [wl_skip_flush now A N XmlEvent.endDocument rfl]
  rw [wl_nil]
  rw [show ∀ E : List XmlEvent, flush_required now [] E = E from fun E => rfl]
  simp [List.append_assoc]

/-- Field absent, rule required: the flush renders the rule just before
the pending description end element. -/
theorem c8_absent_pass (now : String) (A : List OwnedAttribute) (N : NsMap)
    {r : RewriteRule} {u : String} (hns : r.node_namespace = some u)
    (hreq : r.required = true)
    {seg : List XmlEvent} (hseg : segOk (rule_key r) seg)
    (d0 : List OwnedAttribute) (dm : NsMap) :
    write_loop now A N .init none [(rule_key r, r)] []
      (XmlEvent.startElement descName d0 dm
        :: (seg ++ [XmlEvent.endElement descName, XmlEvent.endDocument]))
      = XmlEvent.startElement descName A (ns_put N r.node_pfx u)
          :: (seg ++ (rule_run r now []
            ++ [XmlEvent.endElement descName, XmlEvent.endDocument])) := by
  rw [wl_init_desc now A N d0 dm (show isDescName descName = true from rfl)]
  simp only [List.nil_append]
  rw [wl_indesc_copy now A N seg [(rule_key r, r)] (segOk_no_desc hseg)
    (segOk_lookup hseg r) none [XmlEvent.startElement descName A N] _]
  rw [wl_indesc_end1 now A N (show isDescName descName = true from rfl)]
  rw [wl_skip_flush now A N XmlEvent.endDocument rfl]
  rw [wl_nil]
  rw [show flush_required now [(rule_key r, r)]
      ([XmlEvent.startElement descName A N] ++ seg)
      = register_rule_ns r ([XmlEvent.startElement descName A N] ++ seg)
        ++ rule_run r now [] from by
    simp [flush_required, hreq]]
  rw [show ([XmlEvent.startElement descName A N] ++ seg : List XmlEvent)
      = XmlEvent.startElement descName A N :: seg from by simp]
  rw [register_rule_ns_head hns A N seg]
  simp [List.append_assoc]

/-- Two descriptions, field present in the first: the continuation
merges them — the first description's end and the second's start are
dropped — and the rule fires once. -/
theorem c8_two_desc_pass (now : String) (A : List OwnedAttribute) (N : NsMap)
    {r : RewriteRule} {u : String} (hns : r.node_namespace = some u)
    {n : OwnedName} (hn : isDescName n = false)
    (hkey : rule_key r = (n.ns, n.local_name))
    {pre post inner seg2 : List XmlEvent}
    (hpre : segOk (rule_key r) pre)
    (hpost : ∀ e ∈ post, isDescStartB e = false ∧ isDescEndB e = false)
    (hinner : Bal inner)
    (hseg2 : ∀ e ∈ seg2, isDescStartB e = false ∧ isDescEndB e = false)
    (d0 af : List OwnedAttribute) (mf dm dm2 : NsMap) :
    write_loop now A N .init none [(rule_key r, r)] []
      (XmlEvent.startElement descName d0 dm
        :: (pre ++ (XmlEvent.startElement n af mf
          :: (inner ++ (XmlEvent.endElement n
            :: (post ++ (XmlEvent.endElement descName
              :: (XmlEvent.startElement descName [] dm2
                :: (seg2 ++ [XmlEvent.endElement descName,
                    XmlEvent.endDocument])))))))))
      = XmlEvent.startElement descName A (ns_put N r.node_pfx u)
          :: (pre ++ (rule_run r now (XmlEvent.startElement n af mf
              :: (inner ++ [XmlEvent.endElement n]))
            ++ (post ++ (seg2 ++ [XmlEvent.endElement descName,
                XmlEvent.endDocument])))) := by
  have hk2 := hkey
  simp only [rule_key, Prod.mk.injEq] at hk2
  have hm : r.matches n = true := by simp [RewriteRule.matches, hk2.1, hk2.2]
  rw [wl_init_desc now A N d0 dm (show isDescName descName = true from rfl)]
  simp only [List.nil_append]
  rw [wl_indesc_copy now A N pre [(rule_key r, r)] (segOk_no_desc hpre)
    (segOk_lookup hpre r) none [XmlEvent.startElement descName A N] _]
  rw [wl_indesc_start_match now A N af mf hn
    (show rules_lookup [(rule_key r, r)] (n.ns, n.local_name) = some r from by
      simp [rules_lookup, hkey]) hm]
  rw [show (consume_subtree 1 (inner ++ (XmlEvent.endElement n
      :: (post ++ (XmlEvent.endElement descName
        :: (XmlEvent.startElement descName [] dm2
          :: (seg2 ++ [XmlEvent.endElement descName, XmlEvent.endDocument]))))))).1
      = inner ++ [XmlEvent.endElement n] from by
    rw [consume_subtree_exact hinner n _]]
  rw [show (consume_subtree 1 (inner ++ (XmlEvent.endElement n
      :: (post ++ (XmlEvent.endElement descName
        :: (XmlEvent.startElement descName [] dm2
          :: (seg2 ++ [XmlEvent.endElement descName, XmlEvent.endDocument]))))))).2
      = post ++ (XmlEvent.endElement descName
        :: (XmlEvent.startElement descName [] dm2
          :: (seg2 ++ [XmlEvent.endElement descName, XmlEvent.endDocument]))) from by
    rw [consume_subtree_exact hinner n _]]
  rw [show ([XmlEvent.startElement descName A N] ++ pre : List XmlEvent)
      = XmlEvent.startElement descName A N :: pre from by simp]
  rw [register_rule_ns_head hns A N pre]
  rw [show rules_erase [(rule_key r, r)] (n.ns, n.local_name) = [] from by
    simp [rules_erase, hkey]]
  rw [wl_indesc_copy now A N post [] hpost (fun n' a' m' _ => rfl) none _ _]
  rw [wl_indesc_end1 now A N (show isDescName descName = true from rfl)]
  rw [wl_skip_desc now A N [] dm2 (show isDescName descName = true from rfl)]
  rw [wl_indesc_copy now A N seg2 [] hseg2 (fun n' a' m' _ => rfl) none _ _]
  rw [wl_indesc_end1 now A N (show isDescName descName = true from rfl)]
  rw [wl_skip_flush now A N XmlEvent.endDocument rfl]
  rw [wl_nil]
  rw [show ∀ E : List XmlEvent, flush_required now [] E = E from fun E => rfl]
  simp [List.append_assoc]

/-- Empty rules map (the attribute path consumed the rule): the pass only
merges the description start and copies everything else. -/
theorem c8_empty_pass (now : String) (A : List OwnedAttribute) (N : NsMap)
    {seg : List XmlEvent}
    (hseg : ∀ e ∈ seg, isDescStartB e = false ∧ isDescEndB e = false)
    (d0 : List OwnedAttribute) (dm : NsMap) :
    write_loop now A N .init none [] []
      (XmlEvent.startElement descName d0 dm
        :: (seg ++ [XmlEvent.endElement descName, XmlEvent.endDocument]))
      = XmlEvent.startElement descName A N
          :: (seg ++ [XmlEvent.endElement descName, XmlEvent.endDocument]) := by
  rw [wl_init_desc now A N d0 dm (show isDescName descName = true from rfl)]
  simp only [List.nil_append]
  rw [wl_indesc_copy now A N seg [] hseg (fun n' a' m' _ => rfl) none _ _]
  rw [wl_indesc_end1 now A N (show isDescName descName = true from rfl)]
  rw [wl_skip_flush now A N XmlEvent.endDocument rfl]
  rw [wl_nil]
  rw [show ∀ E : List XmlEvent, flush_required now [] E = E from fun E => rfl]
  simp [List.append_assoc]

/-! Canonical normal forms of the rewritten document. -/

/-- The output of a `SetRdfList` pass: one description whose field
element holds exactly the rule's rendering. -/
def c8out (d0 : List OwnedAttribute) (NP : NsMap) (n : OwnedName) (ty : String)
    (values : List String) (pre post : List XmlEvent) : List XmlEvent :=
  XmlEvent.startElement descName d0 NP
    :: (pre ++ ((XmlEvent.startElement n [] []
        :: XmlEvent.startElement (rdf_node ty) [] []
        :: (rdf_li_items (rdf_node "li") values
          ++ [XmlEvent.endElement (rdf_node ty), XmlEvent.endElement n]))
      ++ (post ++ [XmlEvent.endElement descName, XmlEvent.endDocument])))

/-- The output of a `SetToCurrentDateTime` element pass: the field holds
the written wall-clock value `v`. -/
def c8tout (e0 : List OwnedAttribute) (NP : NsMap) (n2 : OwnedName) (v : String)
    (pre2 post2 : List XmlEvent) : List XmlEvent :=
  XmlEvent.startElement descName e0 NP
    :: (pre2 ++ ([XmlEvent.startElement n2 [] [], XmlEvent.characters v,
        XmlEvent.endElement n2]
      ++ (post2 ++ [XmlEvent.endElement descName, XmlEvent.endDocument])))

theorem rule_key_name {r : RewriteRule} {u : String} (hns : r.node_namespace = some u) :
    rule_key r = ((RewriteRule.name r).ns, (RewriteRule.name r).local_name) := by
  simp [rule_key, RewriteRule.name, hns]

theorem no_desc_field_mid {n : OwnedName} (hn : isDescName n = false)
    {pre inner post : List XmlEvent}
    (hpre : ∀ e ∈ pre, isDescStartB e = false ∧ isDescEndB e = false)
    (hinner : ∀ e ∈ inner, isDescStartB e = false ∧ isDescEndB e = false)
    (hpost : ∀ e ∈ post, isDescStartB e = false ∧ isDescEndB e = false)
    (af : List OwnedAttribute) (mf : NsMap) :
    ∀ e ∈ pre ++ (XmlEvent.startElement n af mf
      :: (inner ++ (XmlEvent.endElement n :: post))),
      isDescStartB e = false ∧ isDescEndB e = false := by
  intro e he
  rcases List.mem_append.mp he with h | h
  · exact hpre e h
  · rcases List.mem_cons.mp h with rfl | h
    · simp [isDescStartB, isDescEndB, hn]
    · rcases List.mem_append.mp h with h | h
      · exact hinner e h
      · rcases List.mem_cons.mp h with rfl | h
        · simp [isDescStartB, isDescEndB, hn]
        · exact hpost e h

theorem rin_no_desc {ty : String} (hty : isDescName (rdf_node ty) = false)
    (values : List String) :
    ∀ e ∈ XmlEvent.startElement (rdf_node ty) [] []
        :: (rdf_li_items (rdf_node "li") values
          ++ [XmlEvent.endElement (rdf_node ty)]),
      isDescStartB e = false ∧ isDescEndB e = false := by
  intro e he
  rcases List.mem_cons.mp he with rfl | h
  · simp [isDescStartB, isDescEndB, hty]
  · rcases List.mem_append.mp h with h | h
    · exact rdf_li_items_no_desc (show isDescName (rdf_node "li") = false from rfl) values e h
    · rcases List.mem_cons.mp h with rfl | h
      · simp [isDescStartB, isDescEndB, hty]
      · cases h

theorem rin_bal (ty : String) (values : List String) :
    Bal (XmlEvent.startElement (rdf_node ty) [] []
      :: (rdf_li_items (rdf_node "li") values
        ++ [XmlEvent.endElement (rdf_node ty)])) :=
  Bal.node (rdf_node ty) [] [] (bal_rdf_li_items _ values) Bal.nil

/-! One full `write_events` application per canonical configuration. -/

/-- First pass, field present as an element: its previous content is
replaced by the rendering. -/
theorem c8_list_round1 (now : String)
    {r : RewriteRule} {u ty : String} {values : List String}
    (hact : r.action = .setRdfList ty values)
    (hns : r.node_namespace = some u)
    {n : OwnedName} (hn : isDescName n = false)
    (hkey : rule_key r = (n.ns, n.local_name))
    {pre post inner : List XmlEvent}
    (hpre : segOk (rule_key r) pre)
    (hpost : ∀ e ∈ post, isDescStartB e = false ∧ isDescEndB e = false)
    (hinner : Bal inner)
    (hinner_nd : ∀ e ∈ inner, isDescStartB e = false ∧ isDescEndB e = false)
    (d0 : List OwnedAttribute) (hd0 : ∀ a ∈ d0, r.matches a.name = false)
    (af : List OwnedAttribute) (mf dm : NsMap) :
    write_events now (XmlEvent.startDocument :: XmlEvent.startElement descName d0 dm
        :: (pre ++ (XmlEvent.startElement n af mf
          :: (inner ++ (XmlEvent.endElement n
            :: (post ++ [XmlEvent.endElement descName, XmlEvent.endDocument]))))))
      [r]
      = .ok (c8out d0 (ns_put (ns_extend [] dm) r.node_pfx u) n ty values pre post) := by
  have hmid := no_desc_field_mid hn (segOk_no_desc hpre) hinner_nd hpost af mf
  have hshape : (pre ++ (XmlEvent.startElement n af mf
      :: (inner ++ (XmlEvent.endElement n
        :: (post ++ [XmlEvent.endElement descName, XmlEvent.endDocument])))))
      = (pre ++ (XmlEvent.startElement n af mf
          :: (inner ++ (XmlEvent.endElement n :: post))))
        ++ [XmlEvent.endElement descName, XmlEvent.endDocument] := by
    simp [List.append_assoc]
  have hA : collect_all_attributes (XmlEvent.startDocument
      :: XmlEvent.startElement descName d0 dm
      :: (pre ++ (XmlEvent.startElement n af mf
        :: (inner ++ (XmlEvent.endElement n
          :: (post ++ [XmlEvent.endElement descName, XmlEvent.endDocument]))))))
      = d0 := by
    rw [collect_attrs_sd, hshape]
    exact collect_attrs_core d0 dm hmid
  have hN : collect_all_namespaces (XmlEvent.startDocument
      :: XmlEvent.startElement descName d0 dm
      :: (pre ++ (XmlEvent.startElement n af mf
        :: (inner ++ (XmlEvent.endElement n
          :: (post ++ [XmlEvent.endElement descName, XmlEvent.endDocument]))))))
      = ns_extend [] dm := by
    rw [collect_ns_sd, hshape]
    exact collect_ns_core d0 dm (fun e he => (hmid e he).1)
  rw [write_events_keyed now _ r (by rw [hA]; exact hd0)]
  rw [hA, hN]
  refine congrArg Except.ok ?_
  rw [wl_init_sd]
  rw [c8_present_pass now d0 (ns_extend [] dm) hns hn hkey hpre hpost hinner d0 af mf dm]
  rw [rule_run_list_cons hact now n af mf _]
  simp [c8out, List.append_assoc]

/-- Second and later passes, `SetRdfList`: the canonical output is a
fixed point of the rewrite — byte-for-byte idempotence. -/
theorem c8_list_round2 (now : String)
    {r : RewriteRule} {u ty : String} {values : List String}
    (hact : r.action = .setRdfList ty values)
    (hns : r.node_namespace = some u)
    (hty : isDescName (rdf_node ty) = false)
    {n : OwnedName} (hn : isDescName n = false)
    (hkey : rule_key r = (n.ns, n.local_name))
    {pre post : List XmlEvent} (hpre : segOk (rule_key r) pre)
    (hpost : ∀ e ∈ post, isDescStartB e = false ∧ isDescEndB e = false)
    (d0 : List OwnedAttribute) (hd0 : ∀ a ∈ d0, r.matches a.name = false)
    {NP : NsMap} (hNP : ns_put NP r.node_pfx u = NP)
    (hNPx : ns_extend [] NP = NP) :
    write_events now (c8out d0 NP n ty values pre post) [r]
      = .ok (c8out d0 NP n ty values pre post) := by
  have hmid := no_desc_field_mid hn (segOk_no_desc hpre) (rin_no_desc hty values) hpost
    ([] : List OwnedAttribute) ([] : NsMap)
  have hshape : c8out d0 NP n ty values pre post
      = XmlEvent.startElement descName d0 NP
        :: ((pre ++ (XmlEvent.startElement n [] []
          :: ((XmlEvent.startElement (rdf_node ty) [] []
            :: (rdf_li_items (rdf_node "li") values
              ++ [XmlEvent.endElement (rdf_node ty)]))
            ++ (XmlEvent.endElement n :: post))))
          ++ [XmlEvent.endElement descName, XmlEvent.endDocument]) := by
    simp [c8out, List.append_assoc]
  have hA : collect_all_attributes (c8out d0 NP n ty values pre post) = d0 := by
    rw [hshape]
    exact collect_attrs_core d0 NP hmid
  have hN : collect_all_namespaces (c8out d0 NP n ty values pre post) = NP := by
    rw [hshape]
    rw [collect_ns_core d0 NP (fun e he => (hmid e he).1)]
    exact hNPx
  rw [write_events_keyed now _ r (by rw [hA]; exact hd0)]
  rw [hA, hN]
  refine congrArg Except.ok ?_
  rw [show c8out d0 NP n ty values pre post
      = XmlEvent.startElement descName d0 NP
        :: (pre ++ (XmlEvent.startElement n [] []
          :: ((XmlEvent.startElement (rdf_node ty) [] []
            :: (rdf_li_items (rdf_node "li") values
              ++ [XmlEvent.endElement (rdf_node ty)]))
            ++ (XmlEvent.endElement n
              :: (post ++ [XmlEvent.endElement descName, XmlEvent.endDocument])))))
      from by simp [c8out, List.append_assoc]]
  rw [c8_present_pass now d0 NP hns hn hkey hpre hpost (rin_bal ty values) d0 [] [] NP]
  rw [rule_run_list_cons hact now n [] [] _]
  rw [hNP]
  simp [List.append_assoc]

/-- First pass, required rule, field entirely absent: the flush
materializes the field just before the description end. -/
theorem c8_absent_round1 (now : String)
    {r : RewriteRule} {u ty : String} {values : List String}
    (hact : r.action = .setRdfList ty values)
    (hns : r.node_namespace = some u)
    (hreq : r.required = true)
    {segB : List XmlEvent} (hsegB : segOk (rule_key r) segB)
    (d0 : List OwnedAttribute) (hd0 : ∀ a ∈ d0, r.matches a.name = false)
    (dm : NsMap) :
    write_events now (XmlEvent.startDocument :: XmlEvent.startElement descName d0 dm
        :: (segB ++ [XmlEvent.endElement descName, XmlEvent.endDocument]))
      [r]
      = .ok (c8out d0 (ns_put (ns_extend [] dm) r.node_pfx u)
          (RewriteRule.name r) ty values segB []) := by
  have hmid := segOk_no_desc hsegB
  have hA : collect_all_attributes (XmlEvent.startDocument
      :: XmlEvent.startElement descName d0 dm
      :: (segB ++ [XmlEvent.endElement descName, XmlEvent.endDocument])) = d0 := by
    rw [collect_attrs_sd]
    exact collect_attrs_core d0 dm hmid
  have hN : collect_all_namespaces (XmlEvent.startDocument
      :: XmlEvent.startElement descName d0 dm
      :: (segB ++ [XmlEvent.endElement descName, XmlEvent.endDocument]))
      = ns_extend [] dm := by
    rw [collect_ns_sd]
    exact collect_ns_core d0 dm (fun e he => (hmid e he).1)
  rw [write_events_keyed now _ r (by rw [hA]; exact hd0)]
  rw [hA, hN]
  refine congrArg Except.ok ?_
  rw [wl_init_sd]
  rw [c8_absent_pass now d0 (ns_extend [] dm) hns hreq hsegB d0 dm]
  rw [rule_run_list_nil hact now]
  simp [c8out, List.append_assoc]

/-- First pass over two descriptions: the continuation merges them and
the rule fires once, yielding the same canonical form. -/
theorem c8_two_desc_round1 (now : String)
    {r : RewriteRule} {u ty : String} {values : List String}
    (hact : r.action = .setRdfList ty values)
    (hns : r.node_namespace = some u)
    {n : OwnedName} (hn : isDescName n = false)
    (hkey : rule_key r = (n.ns, n.local_name))
    {pre post inner seg2 : List XmlEvent}
    (hpre : segOk (rule_key r) pre)
    (hpost : ∀ e ∈ post, isDescStartB e = false ∧ isDescEndB e = false)
    (hinner : Bal inner)
    (hinner_nd : ∀ e ∈ inner, isDescStartB e = false ∧ isDescEndB e = false)
    (hseg2 : ∀ e ∈ seg2, isDescStartB e = false ∧ isDescEndB e = false)
    (d0 : List OwnedAttribute) (hd0 : ∀ a ∈ d0, r.matches a.name = false)
    (af : List OwnedAttribute) (mf dm dm2 : NsMap) :
    write_events now (XmlEvent.startDocument :: XmlEvent.startElement descName d0 dm
        :: (pre ++ (XmlEvent.startElement n af mf
          :: (inner ++ (XmlEvent.endElement n
            :: (post ++ (XmlEvent.endElement descName
              :: (XmlEvent.startElement descName [] dm2
                :: (seg2 ++ [XmlEvent.endElement descName,
                    XmlEvent.endDocument])))))))))
      [r]
      = .ok (c8out d0 (ns_put (ns_extend (ns_extend [] dm) dm2) r.node_pfx u)
          n ty values pre (post ++ seg2)) := by
  have hmid := no_desc_field_mid hn (segOk_no_desc hpre) hinner_nd hpost af mf
  have hshape : (pre ++ (XmlEvent.startElement n af mf
      :: (inner ++ (XmlEvent.endElement n
        :: (post ++ (XmlEvent.endElement descName
          :: (XmlEvent.startElement descName [] dm2
            :: (seg2 ++ [XmlEvent.endElement descName, XmlEvent.endDocument]))))))))
      = (pre ++ (XmlEvent.startElement n af mf
          :: (inner ++ (XmlEvent.endElement n :: post))))
        ++ (XmlEvent.endElement descName
          :: (XmlEvent.startElement descName [] dm2
            :: (seg2 ++ [XmlEvent.endElement descName, XmlEvent.endDocument]))) := by
    simp [List.append_assoc]
  have hA : collect_all_attributes (XmlEvent.startDocument
      :: XmlEvent.startElement descName d0 dm
      :: (pre ++ (XmlEvent.startElement n af mf
        :: (inner ++ (XmlEvent.endElement n
          :: (post ++ (XmlEvent.endElement descName
            :: (XmlEvent.startElement descName [] dm2
              :: (seg2 ++ [XmlEvent.endElement descName,
                  XmlEvent.endDocument])))))))))
      = d0 := by
    rw [collect_attrs_sd, hshape]
    exact collect_attrs_core2 d0 dm dm2 hmid hseg2
  have hN : collect_all_namespaces (XmlEvent.startDocument
      :: XmlEvent.startElement descName d0 dm
      :: (pre ++ (XmlEvent.startElement n af mf
        :: (inner ++ (XmlEvent.endElement n
          :: (post ++ (XmlEvent.endElement descName
            :: (XmlEvent.startElement descName [] dm2
              :: (seg2 ++ [XmlEvent.endElement descName,
                  XmlEvent.endDocument])))))))))
      = ns_extend (ns_extend [] dm) dm2 := by
    rw [collect_ns_sd, hshape]
    exact collect_ns_core2 d0 dm dm2 (fun e he => (hmid e he).1)
      (fun e he => (hseg2 e he).1)
  rw [write_events_keyed now _ r (by rw [hA]; exact hd0)]
  rw [hA, hN]
  refine congrArg Except.ok ?_
  rw [wl_init_sd]
  rw [c8_two_desc_pass now d0 (ns_extend (ns_extend [] dm) dm2) hns hn hkey hpre hpost
    hinner hseg2 d0 af mf dm dm2]
  rw [rule_run_list_cons hact now n af mf _]
  simp [c8out, List.append_assoc]

/-- First pass, timestamp rule matched as an element: the field's
content becomes the current wall-clock value. -/
theorem c8_time_round1 (now : String)
    {s : RewriteRule} {u2 : String}
    (hacts : s.action = .setToCurrentDateTime)
    (hnss : s.node_namespace = some u2)
    {n2 : OwnedName} (hn2 : isDescName n2 = false)
    (hkey2 : rule_key s = (n2.ns, n2.local_name))
    {pre2 post2 inner2 : List XmlEvent}
    (hpre2 : segOk (rule_key s) pre2)
    (hpost2 : ∀ e ∈ post2, isDescStartB e = false ∧ isDescEndB e = false)
    (hinner2 : Bal inner2)
    (hinner2_nd : ∀ e ∈ inner2, isDescStartB e = false ∧ isDescEndB e = false)
    (e0 : List OwnedAttribute) (he0 : ∀ a ∈ e0, s.matches a.name = false)
    (af2 : List OwnedAttribute) (mf2 dm3 : NsMap) :
    write_events now (XmlEvent.startDocument :: XmlEvent.startElement descName e0 dm3
        :: (pre2 ++ (XmlEvent.startElement n2 af2 mf2
          :: (inner2 ++ (XmlEvent.endElement n2
            :: (post2 ++ [XmlEvent.endElement descName, XmlEvent.endDocument]))))))
      [s]
      = .ok (c8tout e0 (ns_put (ns_extend [] dm3) s.node_pfx u2) n2 now pre2 post2) := by
  have hmid := no_desc_field_mid hn2 (segOk_no_desc hpre2) hinner2_nd hpost2 af2 mf2
  have hshape : (pre2 ++ (XmlEvent.startElement n2 af2 mf2
      :: (inner2 ++ (XmlEvent.endElement n2
        :: (post2 ++ [XmlEvent.endElement descName, XmlEvent.endDocument])))))
      = (pre2 ++ (XmlEvent.startElement n2 af2 mf2
          :: (inner2 ++ (XmlEvent.endElement n2 :: post2))))
        ++ [XmlEvent.endElement descName, XmlEvent.endDocument] := by
    simp [List.append_assoc]
  have hA : collect_all_attributes (XmlEvent.startDocument
      :: XmlEvent.startElement descName e0 dm3
      :: (pre2 ++ (XmlEvent.startElement n2 af2 mf2
        :: (inner2 ++ (XmlEvent.endElement n2
          :: (post2 ++ [XmlEvent.endElement descName, XmlEvent.endDocument]))))))
      = e0 := by
    rw [collect_attrs_sd, hshape]
    exact collect_attrs_core e0 dm3 hmid
  have hN : collect_all_namespaces (XmlEvent.startDocument
      :: XmlEvent.startElement descName e0 dm3
      :: (pre2 ++ (XmlEvent.startElement n2 af2 mf2
        :: (inner2 ++ (XmlEvent.endElement n2
          :: (post2 ++ [XmlEvent.endElement descName, XmlEvent.endDocument]))))))
      = ns_extend [] dm3 := by
    rw [collect_ns_sd, hshape]
    exact collect_ns_core e0 dm3 (fun e he => (hmid e he).1)
  rw [write_events_keyed now _ s (by rw [hA]; exact he0)]
  rw [hA, hN]
  refine congrArg Except.ok ?_
  rw [wl_init_sd]
  rw [c8_present_pass now e0 (ns_extend [] dm3) hnss hn2 hkey2 hpre2 hpost2 hinner2
    e0 af2 mf2 dm3]
  rw [rule_run_time_cons hacts now n2 af2 mf2 _]
  simp [c8tout, List.append_assoc]

/-- Later passes, timestamp rule as an element: the pass overwrites the
previously written value with the new wall-clock value. -/
theorem c8_time_round2 (vOld now : String)
    {s : RewriteRule} {u2 : String}
    (hacts : s.action = .setToCurrentDateTime)
    (hnss : s.node_namespace = some u2)
    {n2 : OwnedName} (hn2 : isDescName n2 = false)
    (hkey2 : rule_key s = (n2.ns, n2.local_name))
    {pre2 post2 : List XmlEvent}
    (hpre2 : segOk (rule_key s) pre2)
    (hpost2 : ∀ e ∈ post2, isDescStartB e = false ∧ isDescEndB e = false)
    (e0 : List OwnedAttribute) (he0 : ∀ a ∈ e0, s.matches a.name = false)
    {NP : NsMap} (hNP : ns_put NP s.node_pfx u2 = NP)
    (hNPx : ns_extend [] NP = NP) :
    write_events now (c8tout e0 NP n2 vOld pre2 post2) [s]
      = .ok (c8tout e0 NP n2 now pre2 post2) := by
  have hchars : ∀ e ∈ [XmlEvent.characters vOld],
      isDescStartB e = false ∧ isDescEndB e = false := by
    intro e he
    rcases List.mem_cons.mp he with rfl | he
    · simp [isDescStartB, isDescEndB]
    · cases he
  have hmid := no_desc_field_mid hn2 (segOk_no_desc hpre2) hchars hpost2
    ([] : List OwnedAttribute) ([] : NsMap)
  have hshape : c8tout e0 NP n2 vOld pre2 post2
      = XmlEvent.startElement descName e0 NP
        :: ((pre2 ++ (XmlEvent.startElement n2 [] []
          :: ([XmlEvent.characters vOld]
            ++ (XmlEvent.endElement n2 :: post2))))
          ++ [XmlEvent.endElement descName, XmlEvent.endDocument]) := by
    simp [c8tout, List.append_assoc]
  have hA : collect_all_attributes (c8tout e0 NP n2 vOld pre2 post2) = e0 := by
    rw [hshape]
    exact collect_attrs_core e0 NP hmid
  have hN : collect_all_namespaces (c8tout e0 NP n2 vOld pre2 post2) = NP := by
    rw [hshape]
    rw [collect_ns_core e0 NP (fun e he => (hmid e he).1)]
    exact hNPx
  rw [write_events_keyed now _ s (by rw [hA]; exact he0)]
  rw [hA, hN]
  refine congrArg Except.ok ?_
  rw [show c8tout e0 NP n2 vOld pre2 post2
      = XmlEvent.startElement descName e0 NP
        :: (pre2 ++ (XmlEvent.startElement n2 [] []
          :: ([XmlEvent.characters vOld]
            ++ (XmlEvent.endElement n2
              :: (post2 ++ [XmlEvent.endElement descName, XmlEvent.endDocument])))))
      from by simp [c8tout, List.append_assoc]]
  rw [c8_present_pass now e0 NP hnss hn2 hkey2 hpre2 hpost2
    (Bal.chars vOld Bal.nil) e0 [] [] NP]
  rw [rule_run_time_cons hacts now n2 [] [] _]
  rw [hNP]
  simp [c8tout, List.append_assoc]

/-- First pass, timestamp rule matched as a description attribute: the
attribute is rewritten in place and the rule is dropped. -/
theorem c8_attr_round1 (now : String)
    {s : RewriteRule} (hacts : s.action = .setToCurrentDateTime)
    (hals : s.allow_attribute = true)
    {db1 : List OwnedAttribute} {attr : OwnedAttribute} {db2 : List OwnedAttribute}
    (hdb1 : ∀ a ∈ db1, s.matches a.name = false) (hbm : s.matches attr.name = true)
    {seg3 : List XmlEvent}
    (hseg3 : ∀ e ∈ seg3, isDescStartB e = false ∧ isDescEndB e = false)
    (dm4 : NsMap) :
    write_events now (XmlEvent.startDocument
        :: XmlEvent.startElement descName (db1 ++ attr :: db2) dm4
        :: (seg3 ++ [XmlEvent.endElement descName, XmlEvent.endDocument]))
      [s]
      = .ok (XmlEvent.startElement descName
          (db1 ++ (⟨attr.name, now⟩ : OwnedAttribute) :: db2) (ns_extend [] dm4)
        :: (seg3 ++ [XmlEvent.endElement descName, XmlEvent.endDocument])) := by
  have hA : collect_all_attributes (XmlEvent.startDocument
      :: XmlEvent.startElement descName (db1 ++ attr :: db2) dm4
      :: (seg3 ++ [XmlEvent.endElement descName, XmlEvent.endDocument]))
      = db1 ++ attr :: db2 := by
    rw [collect_attrs_sd]
    exact collect_attrs_core _ dm4 hseg3
  have hN : collect_all_namespaces (XmlEvent.startDocument
      :: XmlEvent.startElement descName (db1 ++ attr :: db2) dm4
      :: (seg3 ++ [XmlEvent.endElement descName, XmlEvent.endDocument]))
      = ns_extend [] dm4 := by
    rw [collect_ns_sd]
    exact collect_ns_core _ dm4 (fun e he => (hseg3 e he).1)
  rw [write_events_attr_rewrite now _ hacts hals hA hdb1 hbm]
  rw [hN]
  refine congrArg Except.ok ?_
  rw [wl_init_sd]
  exact c8_empty_pass now (db1 ++ (⟨attr.name, now⟩ : OwnedAttribute) :: db2)
    (ns_extend [] dm4) hseg3 (db1 ++ attr :: db2) dm4

/-- Later passes, timestamp rule as an attribute: the previously written
value is overwritten again. -/
theorem c8_attr_round2 (vOld now : String)
    {s : RewriteRule} (hacts : s.action = .setToCurrentDateTime)
    (hals : s.allow_attribute = true)
    {db1 : List OwnedAttribute} {attr : OwnedAttribute} {db2 : List OwnedAttribute}
    (hdb1 : ∀ a ∈ db1, s.matches a.name = false) (hbm : s.matches attr.name = true)
    {seg3 : List XmlEvent}
    (hseg3 : ∀ e ∈ seg3, isDescStartB e = false ∧ isDescEndB e = false)
    {NP : NsMap} (hNPx : ns_extend [] NP = NP) :
    write_events now (XmlEvent.startElement descName
        (db1 ++ (⟨attr.name, vOld⟩ : OwnedAttribute) :: db2) NP
        :: (seg3 ++ [XmlEvent.endElement descName, XmlEvent.endDocument]))
      [s]
      = .ok (XmlEvent.startElement descName
          (db1 ++ (⟨attr.name, now⟩ : OwnedAttribute) :: db2) NP
        :: (seg3 ++ [XmlEvent.endElement descName, XmlEvent.endDocument])) := by
  have hA : collect_all_attributes (XmlEvent.startElement descName
      (db1 ++ (⟨attr.name, vOld⟩ : OwnedAttribute) :: db2) NP
      :: (seg3 ++ [XmlEvent.endElement descName, XmlEvent.endDocument]))
      = db1 ++ (⟨attr.name, vOld⟩ : OwnedAttribute) :: db2 :=
    collect_attrs_core _ NP hseg3
  have hN : collect_all_namespaces (XmlEvent.startElement descName
      (db1 ++ (⟨attr.name, vOld⟩ : OwnedAttribute) :: db2) NP
      :: (seg3 ++ [XmlEvent.endElement descName, XmlEvent.endDocument]))
      = NP := by
    rw [collect_ns_core _ NP (fun e he => (hseg3 e he).1)]
    exact hNPx
  rw [write_events_attr_rewrite now _ hacts hals hA hdb1 hbm]
  rw [hN]
  refine congrArg Except.ok ?_
  exact c8_empty_pass now (db1 ++ (⟨attr.name, now⟩ : OwnedAttribute) :: db2)
    NP hseg3 (db1 ++ (⟨attr.name, vOld⟩ : OwnedAttribute) :: db2) NP

/-- **C8**: applying the rewrite twice with the same rule. For every
namespaced `SetRdfList` rule (arbitrary list type, values, `required`
and `allow_attribute` flags — covering `set_rdf_seq`/`alt`/`bag`) the
second application reproduces the first application's output verbatim,
hence the same field values: (A) when the field is present as an element
with arbitrary prior content, (B) when the field is entirely absent and
the rule is required (the flush materializes it once, after which it is a
fixed point), and (E) when the document holds two descriptions (merged by
the continuation into the same canonical form). For every namespaced,
attribute-capable `SetToCurrentDateTime` rule (covering
`xmp_metadata_date`) the written value is the wall-clock value of each
application — `now1` after the first pass, `now2` after the second — both
(C) when the field is an element and (D) when it is a description
attribute: not idempotent. Documents carry arbitrary description
attributes and namespace bindings and arbitrary description-free
surrounding content. -/
theorem c8_idempotence (now1 now2 : String)
    {r : RewriteRule} {u ty : String} {values : List String}
    (hact : r.action = .setRdfList ty values)
    (hns : r.node_namespace = some u)
    (hty : isDescName (rdf_node ty) = false)
    (hrname : isDescName (RewriteRule.name r) = false)
    {n : OwnedName} (hn : isDescName n = false)
    (hkey : rule_key r = (n.ns, n.local_name))
    {pre post inner segB seg2 : List XmlEvent}
    (hpre : segOk (rule_key r) pre)
    (hpost : ∀ e ∈ post, isDescStartB e = false ∧ isDescEndB e = false)
    (hinner : Bal inner)
    (hinner_nd : ∀ e ∈ inner, isDescStartB e = false ∧ isDescEndB e = false)
    (hsegB : segOk (rule_key r) segB)
    (hseg2 : ∀ e ∈ seg2, isDescStartB e = false ∧ isDescEndB e = false)
    (d0 : List OwnedAttribute) (hd0 : ∀ a ∈ d0, r.matches a.name = false)
    (af : List OwnedAttribute) (mf dm dm2 : NsMap)
    {s : RewriteRule} {u2 : String}
    (hacts : s.action = .setToCurrentDateTime)
    (hnss : s.node_namespace = some u2)
    (hals : s.allow_attribute = true)
    {n2 : OwnedName} (hn2 : isDescName n2 = false)
    (hkey2 : rule_key s = (n2.ns, n2.local_name))
    {pre2 post2 inner2 seg3 : List XmlEvent}
    (hpre2 : segOk (rule_key s) pre2)
    (hpost2 : ∀ e ∈ post2, isDescStartB e = false ∧ isDescEndB e = false)
    (hinner2 : Bal inner2)
    (hinner2_nd : ∀ e ∈ inner2, isDescStartB e = false ∧ isDescEndB e = false)
    (hseg3 : ∀ e ∈ seg3, isDescStartB e = false ∧ isDescEndB e = false)
    (e0 : List OwnedAttribute) (he0 : ∀ a ∈ e0, s.matches a.name = false)
    (af2 : List OwnedAttribute) (mf2 dm3 dm4 : NsMap)
    {db1 : List OwnedAttribute} {attr : OwnedAttribute} {db2 : List OwnedAttribute}
    (hdb1 : ∀ a ∈ db1, s.matches a.name = false)
    (hbm : s.matches attr.name = true) :
    (∃ o, write_events now1 (XmlEvent.startDocument
          :: XmlEvent.startElement descName d0 dm
          :: (pre ++ (XmlEvent.startElement n af mf
            :: (inner ++ (XmlEvent.endElement n
              :: (post ++ [XmlEvent.endElement descName, XmlEvent.endDocument]))))))
        [r] = .ok o ∧
      write_events now2 o [r] = .ok o) ∧
    (r.required = true →
      ∃ o, write_events now1 (XmlEvent.startDocument
            :: XmlEvent.startElement descName d0 dm
            :: (segB ++ [XmlEvent.endElement descName, XmlEvent.endDocument]))
          [r] = .ok o ∧
        write_events now2 o [r] = .ok o) ∧
    (∃ o, write_events now1 (XmlEvent.startDocument
          :: XmlEvent.startElement descName d0 dm
          :: (pre ++ (XmlEvent.startElement n af mf
            :: (inner ++ (XmlEvent.endElement n
              :: (post ++ (XmlEvent.endElement descName
                :: (XmlEvent.startElement descName [] dm2
                  :: (seg2 ++ [XmlEvent.endElement descName,
                      XmlEvent.endDocument])))))))))
        [r] = .ok o ∧
      write_events now2 o [r] = .ok o) ∧
    (write_events now1 (XmlEvent.startDocument
          :: XmlEvent.startElement descName e0 dm3
          :: (pre2 ++ (XmlEvent.startElement n2 af2 mf2
            :: (inner2 ++ (XmlEvent.endElement n2
              :: (post2 ++ [XmlEvent.endElement descName, XmlEvent.endDocument]))))))
        [s]
        = .ok (c8tout e0 (ns_put (ns_extend [] dm3) s.node_pfx u2) n2 now1 pre2 post2) ∧
      write_events now2
          (c8tout e0 (ns_put (ns_extend [] dm3) s.node_pfx u2) n2 now1 pre2 post2) [s]
        = .ok (c8tout e0 (ns_put (ns_extend [] dm3) s.node_pfx u2) n2 now2 pre2 post2)) ∧
    (write_events now1 (XmlEvent.startDocument
          :: XmlEvent.startElement descName (db1 ++ attr :: db2) dm4
          :: (seg3 ++ [XmlEvent.endElement descName, XmlEvent.endDocument]))
        [s]
        = .ok (XmlEvent.startElement descName
            (db1 ++ (⟨attr.name, now1⟩ : OwnedAttribute) :: db2) (ns_extend [] dm4)
          :: (seg3 ++ [XmlEvent.endElement descName, XmlEvent.endDocument])) ∧
      write_events now2
          (XmlEvent.startElement descName
            (db1 ++ (⟨attr.name, now1⟩ : OwnedAttribute) :: db2) (ns_extend [] dm4)
          :: (seg3 ++ [XmlEvent.endElement descName, XmlEvent.endDocument])) [s]
        = .ok (XmlEvent.startElement descName
            (db1 ++ (⟨attr.name, now2⟩ : OwnedAttribute) :: db2) (ns_extend [] dm4)
          :: (seg3 ++ [XmlEvent.endElement descName, XmlEvent.endDocument]))) := by
  have hdm : nsDistinct (ns_extend [] dm) := ns_extend_distinct dm [] List.Pairwise.nil
  have hNPd : nsDistinct (ns_put (ns_extend [] dm) r.node_pfx u) :=
    ns_put_distinct hdm r.node_pfx u
  have hNP : ns_put (ns_put (ns_extend [] dm) r.node_pfx u) r.node_pfx u
      = ns_put (ns_extend [] dm) r.node_pfx u := ns_put_idem _ _ _
  have hNPx : ns_extend [] (ns_put (ns_extend [] dm) r.node_pfx u)
      = ns_put (ns_extend [] dm) r.node_pfx u := ns_extend_nil_eq hNPd
  have hdmE : nsDistinct (ns_extend (ns_extend [] dm) dm2) := ns_extend_distinct dm2 _ hdm
  have hNPEd : nsDistinct (ns_put (ns_extend (ns_extend [] dm) dm2) r.node_pfx u) :=
    ns_put_distinct hdmE r.node_pfx u
  have hNPE : ns_put (ns_put (ns_extend (ns_extend [] dm) dm2) r.node_pfx u) r.node_pfx u
      = ns_put (ns_extend (ns_extend [] dm) dm2) r.node_pfx u := ns_put_idem _ _ _
  have hNPEx : ns_extend [] (ns_put (ns_extend (ns_extend [] dm) dm2) r.node_pfx u)
      = ns_put (ns_extend (ns_extend [] dm) dm2) r.node_pfx u := ns_extend_nil_eq hNPEd
  have hdm3 : nsDistinct (ns_extend [] dm3) := ns_extend_distinct dm3 [] List.Pairwise.nil
  have hNTd : nsDistinct (ns_put (ns_extend [] dm3) s.node_pfx u2) :=
    ns_put_distinct hdm3 s.node_pfx u2
  have hNT : ns_put (ns_put (ns_extend [] dm3) s.node_pfx u2) s.node_pfx u2
      = ns_put (ns_extend [] dm3) s.node_pfx u2 := ns_put_idem _ _ _
  have hNTx : ns_extend [] (ns_put (ns_extend [] dm3) s.node_pfx u2)
      = ns_put (ns_extend [] dm3) s.node_pfx u2 := ns_extend_nil_eq hNTd
  have hNAx : ns_extend [] (ns_extend [] dm4) = ns_extend [] dm4 :=
    ns_extend_nil_eq (ns_extend_distinct dm4 [] List.Pairwise.nil)
  refine ⟨?_, ?_, ?_, ?_, ?_⟩
  · exact ⟨c8out d0 (ns_put (ns_extend [] dm) r.node_pfx u) n ty values pre post,
      c8_list_round1 now1 hact hns hn hkey hpre hpost hinner hinner_nd d0 hd0 af mf dm,
      c8_list_round2 now2 hact hns hty hn hkey hpre hpost d0 hd0 hNP hNPx⟩
  · intro hreq
    exact ⟨c8out d0 (ns_put (ns_extend [] dm) r.node_pfx u)
        (RewriteRule.name r) ty values segB [],
      c8_absent_round1 now1 hact hns hreq hsegB d0 hd0 dm,
      c8_list_round2 now2 hact hns hty hrname (rule_key_name hns) hsegB
        (fun e he => absurd he (List.not_mem_nil e)) d0 hd0 hNP hNPx⟩
  · have hpost2' : ∀ e ∈ post ++ seg2, isDescStartB e = false ∧ isDescEndB e = false :=
      fun e he => (List.mem_append.mp he).elim (hpost e) (hseg2 e)
    exact ⟨c8out d0 (ns_put (ns_extend (ns_extend [] dm) dm2) r.node_pfx u)
        n ty values pre (post ++ seg2),
      c8_two_desc_round1 now1 hact hns hn hkey hpre hpost hinner hinner_nd hseg2
        d0 hd0 af mf dm dm2,
      c8_list_round2 now2 hact hns hty hn hkey hpre hpost2' d0 hd0 hNPE hNPEx⟩
  · exact ⟨c8_time_round1 now1 hacts hnss hn2 hkey2 hpre2 hpost2 hinner2 hinner2_nd
        e0 he0 af2 mf2 dm3,
      c8_time_round2 now1 now2 hacts hnss hn2 hkey2 hpre2 hpost2 e0 he0 hNT hNTx⟩
  · exact ⟨c8_attr_round1 now1 hacts hals hdb1 hbm hseg3 dm4,
      c8_attr_round2 now1 now2 hacts hals hdb1 hbm hseg3 hNAx⟩

/-- `rules::set_dc_subject`-shaped rule: namespaced, required, not
attribute-capable, `SetRdfList "Bag"`. -/
def c8wr : RewriteRule :=
  ⟨some nsDC, "subject", "dc", false, true, .setRdfList "Bag" ["k1", "k2"]⟩

/-- `rules::xmp_metadata_date`-shaped rule: namespaced, attribute-capable,
not required, `SetToCurrentDateTime`. -/
def c8ws : RewriteRule :=
  ⟨some nsXMP, "MetadataDate", "xmp", true, false, .setToCurrentDateTime⟩

def c8wn : OwnedName := ⟨"subject", some nsDC, some "dc"⟩

def c8wn2 : OwnedName := ⟨"MetadataDate", some nsXMP, some "xmp"⟩

def c8wattr : OwnedAttribute := ⟨⟨"MetadataDate", some nsXMP, some "xmp"⟩, "2019"⟩

/-- **C8** witness: both rules in the program's own shapes on concrete
documents with prior field content, description attributes, namespace
bindings and surrounding text; all five configurations. -/
theorem c8_witness :
    (∃ o, write_events "T1" (XmlEvent.startDocument
          :: XmlEvent.startElement descName
              [⟨⟨"about", some nsRDF, some "rdf"⟩, "#id"⟩] [("dc", nsDC)]
          :: ([XmlEvent.characters "before"]
            ++ (XmlEvent.startElement c8wn [⟨⟨"x", none, none⟩, "1"⟩] [("p", "P")]
              :: ([XmlEvent.characters "old"] ++ (XmlEvent.endElement c8wn
                :: ([XmlEvent.whitespace "after"]
                  ++ [XmlEvent.endElement descName, XmlEvent.endDocument]))))))
        [c8wr] = .ok o ∧
      write_events "T2" o [c8wr] = .ok o) ∧
    (∃ o, write_events "T1" (XmlEvent.startDocument
          :: XmlEvent.startElement descName
              [⟨⟨"about", some nsRDF, some "rdf"⟩, "#id"⟩] [("dc", nsDC)]
          :: ([XmlEvent.characters "noField"]
            ++ [XmlEvent.endElement descName, XmlEvent.endDocument]))
        [c8wr] = .ok o ∧
      write_events "T2" o [c8wr] = .ok o) ∧
    (∃ o, write_events "T1" (XmlEvent.startDocument
          :: XmlEvent.startElement descName
              [⟨⟨"about", some nsRDF, some "rdf"⟩, "#id"⟩] [("dc", nsDC)]
          :: ([XmlEvent.characters "before"]
            ++ (XmlEvent.startElement c8wn [⟨⟨"x", none, none⟩, "1"⟩] [("p", "P")]
              :: ([XmlEvent.characters "old"] ++ (XmlEvent.endElement c8wn
                :: ([XmlEvent.whitespace "after"] ++ (XmlEvent.endElement descName
                  :: (XmlEvent.startElement descName [] [("rdf", nsRDF)]
                    :: ([XmlEvent.characters "second"]
                      ++ [XmlEvent.endElement descName,
                          XmlEvent.endDocument])))))))))
        [c8wr] = .ok o ∧
      write_events "T2" o [c8wr] = .ok o) ∧
    (write_events "T1" (XmlEvent.startDocument
          :: XmlEvent.startElement descName [] [("xmp", nsXMP)]
          :: ([] ++ (XmlEvent.startElement c8wn2 [] []
            :: ([XmlEvent.characters "2020"] ++ (XmlEvent.endElement c8wn2
              :: ([] ++ [XmlEvent.endElement descName, XmlEvent.endDocument]))))))
        [c8ws]
        = .ok (c8tout [] (ns_put (ns_extend [] [("xmp", nsXMP)]) c8ws.node_pfx nsXMP)
            c8wn2 "T1" [] []) ∧
      write_events "T2"
          (c8tout [] (ns_put (ns_extend [] [("xmp", nsXMP)]) c8ws.node_pfx nsXMP)
            c8wn2 "T1" [] []) [c8ws]
        = .ok (c8tout [] (ns_put (ns_extend [] [("xmp", nsXMP)]) c8ws.node_pfx nsXMP)
            c8wn2 "T2" [] [])) ∧
    (write_events "T1" (XmlEvent.startDocument
          :: XmlEvent.startElement descName ([] ++ c8wattr :: []) [("xmp", nsXMP)]
          :: ([XmlEvent.characters "body"]
            ++ [XmlEvent.endElement descName, XmlEvent.endDocument]))
        [c8ws]
        = .ok (XmlEvent.startElement descName
            ([] ++ (⟨c8wattr.name, "T1"⟩ : OwnedAttribute) :: [])
            (ns_extend [] [("xmp", nsXMP)])
          :: ([XmlEvent.characters "body"]
            ++ [XmlEvent.endElement descName, XmlEvent.endDocument])) ∧
      write_events "T2"
          (XmlEvent.startElement descName
            ([] ++ (⟨c8wattr.name, "T1"⟩ : OwnedAttribute) :: [])
            (ns_extend [] [("xmp", nsXMP)])
          :: ([XmlEvent.characters "body"]
            ++ [XmlEvent.endElement descName, XmlEvent.endDocument])) [c8ws]
        = .ok (XmlEvent.startElement descName
            ([] ++ (⟨c8wattr.name, "T2"⟩ : OwnedAttribute) :: [])
            (ns_extend [] [("xmp", nsXMP)])
          :: ([XmlEvent.characters "body"]
            ++ [XmlEvent.endElement descName, XmlEvent.endDocument]))) := by
  have h := @c8_idempotence "T1" "T2"
    c8wr nsDC "Bag" ["k1", "k2"] rfl rfl (by decide) (by decide)
    c8wn (by decide) rfl
    [XmlEvent.characters "before"] [XmlEvent.whitespace "after"]
    [XmlEvent.characters "old"] [XmlEvent.characters "noField"]
    [XmlEvent.characters "second"]
    (by decide) (by decide) (Bal.chars "old" Bal.nil) (by decide) (by decide)
    (by decide)
    [⟨⟨"about", some nsRDF, some "rdf"⟩, "#id"⟩] (by decide)
    [⟨⟨"x", none, none⟩, "1"⟩] [("p", "P")] [("dc", nsDC)] [("rdf", nsRDF)]
    c8ws nsXMP rfl rfl rfl
    c8wn2 (by decide) rfl
    [] [] [XmlEvent.characters "2020"] [XmlEvent.characters "body"]
    (by decide) (by decide) (Bal.chars "2020" Bal.nil) (by decide) (by decide)
    [] (by decide)
    [] [] [("xmp", nsXMP)] [("xmp", nsXMP)]
    [] c8wattr []
    (by decide) (by decide)
  exact ⟨h.1, h.2.1 rfl, h.2.2.1, h.2.2.2.1, h.2.2.2.2⟩

end Acd2lr
